import Mathlib

/-! # rw_spinlock: a shallow embedding of `src/rw_spinlock.hpp`

The lock is one `std::atomic<std::uint32_t>` word, `state_`:

* bit 31: locked exclusive
* bit 30: writer pending
* bits 29..0: reader lock count

The word is a `Nat` below `2 ^ 32`; `std::uint32_t` arithmetic is written with an explicit
`% 2 ^ 32`.  Every operation of the class is cut at its atomic accesses: a thread is at a
location `Loc` (the next atomic access it will perform, together with its local variables),
and `exec` performs that one access on the word together with the local computation that
follows it, up to the next access or the return.
-/

namespace rw_spinlock

/-! ## Atomic accesses -/

/-- What a thread does in one step, as seen from outside: the atomic accesses to `state_`
and the calls of the backoff function `yield_k`. -/
inductive Event where
  | load (value : Nat)
  | cas (expected desired : Nat) (ok : Bool)
  | fetch_sub (old : Nat)
  | store (value : Nat)
  | yield_k (k : Nat)
  deriving DecidableEq, Repr

/-- `state_.compare_exchange_strong( expected, desired, .. )` and, with `spurious`, the weak
form that may fail although the word equals `expected`.  Returns whether the exchange took
place, the word afterwards and the value left in `expected`. -/
def compare_exchange (spurious : Bool) (state_ expected desired : Nat) : Bool × Nat × Nat :=
  if state_ = expected ∧ spurious = false then (true, desired, expected)
  else (false, state_, state_)

/-- `state_.fetch_sub( n, .. )`: returns the old word and the word afterwards, the
subtraction being that of `std::uint32_t`. -/
def fetch_sub (state_ n : Nat) : Nat × Nat :=
  (state_, (state_ + (2 ^ 32 - n % 2 ^ 32)) % 2 ^ 32)

/-! ## Locations of a thread -/

/-- Where a thread is: between two calls (`idle`, `shared_held`, `excl_held`, according to
what it holds), or inside an operation, before the atomic access named by the constructor.
`st` and `k` are the local variables of the source. -/
inductive Loc where
  /-- between calls, holding nothing -/
  | idle
  /-- between calls, holding a shared acquisition -/
  | shared_held
  /-- between calls, holding the exclusive acquisition -/
  | excl_held
  /-- `try_lock_shared`, before the load of line 41 -/
  | tls_load
  /-- `try_lock_shared`, before the compare-exchange of line 50 -/
  | tls_cas (st : Nat)
  /-- `lock_shared`, before the load of line 57 -/
  | ls_load (k : Nat)
  /-- `lock_shared`, before the compare-exchange of line 62 -/
  | ls_cas (k st : Nat)
  /-- `unlock_shared`, before the fetch_sub of line 73 -/
  | us_fetch_sub
  /-- `unlock_shared`, before the compare-exchange of line 82 -/
  | us_cas (st : Nat)
  /-- `try_lock`, before the load of line 88 -/
  | tl_load
  /-- `try_lock`, before the compare-exchange of line 103 -/
  | tl_cas (st : Nat)
  /-- `lock`, before the load of line 110 -/
  | l_load (k : Nat)
  /-- `lock`, before the compare-exchange of line 121 -/
  | l_cas_excl (k st : Nat)
  /-- `lock`, before the compare-exchange of line 132 -/
  | l_cas_pending (k st : Nat)
  /-- `unlock`, before the store of line 142 -/
  | u_store
  deriving DecidableEq, Repr

/-- The thread is between two calls. -/
def Loc.quiescent : Loc → Bool
  | .idle | .shared_held | .excl_held => true
  | _ => false

/-- The thread holds a shared acquisition: from its successful compare-exchange up to the
fetch_sub of its `unlock_shared`. -/
def Loc.holdsShared : Loc → Bool
  | .shared_held | .us_fetch_sub => true
  | _ => false

/-- The thread holds the exclusive acquisition: from its successful compare-exchange up to
the store of its `unlock`. -/
def Loc.holdsExcl : Loc → Bool
  | .excl_held | .u_store => true
  | _ => false

/-- The thread is inside the loop of `lock()` and has not acquired. -/
def Loc.inLock : Loc → Bool
  | .l_load _ | .l_cas_excl _ _ | .l_cas_pending _ _ => true
  | _ => false

/-- The thread is inside the loop of `lock_shared()` and has not acquired. -/
def Loc.inLockShared : Loc → Bool
  | .ls_load _ | .ls_cas _ _ => true
  | _ => false

/-- The thread is inside `unlock_shared`, after its fetch_sub. -/
def Loc.inCleanup : Loc → Bool
  | .us_cas _ => true
  | _ => false

/-! ## The operations, one atomic access at a time -/

/-- The tail of `unlock_shared`'s loop (lines 75-83) once `st` is known: leave when `st` is
not `0x4000'0000`, otherwise go on to the compare-exchange. -/
def unlock_shared_test (st : Nat) : Loc :=
  if st ≠ 0x40000000 then .idle else .us_cas st

/-- One atomic access of the thread at location `l` on the word `state_`, with the local
computation that follows it.  Returns the word afterwards, the next location and the events
of the step.  `spurious` lets a `compare_exchange_weak` fail spuriously. -/
def exec (spurious : Bool) (state_ : Nat) : Loc → Nat × Loc × List Event
  | .idle => (state_, .idle, [])
  | .shared_held => (state_, .shared_held, [])
  | .excl_held => (state_, .excl_held, [])
  -- try_lock_shared (lines 39-51)
  | .tls_load =>
    let st := state_
    if st ≥ 0x3FFFFFFF then
      -- either bit 31 set, bit 30 set, or reader count is max
      (state_, .idle, [.load st])
    else
      (state_, .tls_cas st, [.load st])
  | .tls_cas st =>
    let newst := (st + 1) % 2 ^ 32
    let r := compare_exchange false state_ st newst
    (r.2.1, if r.1 then .shared_held else .idle, [.cas st newst r.1])
  -- lock_shared (lines 53-67)
  | .ls_load k =>
    let st := state_
    if st < 0x3FFFFFFF then
      (state_, .ls_cas k st, [.load st])
    else
      (state_, .ls_load ((k + 1) % 2 ^ 32), [.load st, .yield_k k])
  | .ls_cas k st =>
    let newst := (st + 1) % 2 ^ 32
    let r := compare_exchange false state_ st newst
    if r.1 then (r.2.1, .shared_held, [.cas st newst true])
    else (r.2.1, .ls_load ((k + 1) % 2 ^ 32), [.cas st newst false, .yield_k k])
  -- unlock_shared (lines 69-84)
  | .us_fetch_sub =>
    let r := fetch_sub state_ 1
    let st := (r.1 + (2 ^ 32 - 1)) % 2 ^ 32
    (r.2, unlock_shared_test st, [.fetch_sub r.1])
  | .us_cas st =>
    let newst := 0
    let r := compare_exchange spurious state_ st newst
    if r.1 then (r.2.1, .idle, [.cas st newst true])
    else (r.2.1, unlock_shared_test r.2.2, [.cas st newst false])
  -- try_lock (lines 86-104)
  | .tl_load =>
    let st := state_
    if st &&& 0x80000000 ≠ 0 then
      -- locked exclusive
      (state_, .idle, [.load st])
    else if st &&& 0x3FFFFFFF ≠ 0 then
      -- locked shared
      (state_, .idle, [.load st])
    else
      (state_, .tl_cas st, [.load st])
  | .tl_cas st =>
    let newst := 0x80000000
    let r := compare_exchange false state_ st newst
    (r.2.1, if r.1 then .excl_held else .idle, [.cas st newst r.1])
  -- lock (lines 106-137)
  | .l_load k =>
    let st := state_
    if st &&& 0x80000000 ≠ 0 then
      -- locked exclusive, spin
      (state_, .l_load ((k + 1) % 2 ^ 32), [.load st, .yield_k k])
    else if st &&& 0x3FFFFFFF = 0 then
      -- not locked exclusive, not locked shared, try to lock
      (state_, .l_cas_excl k st, [.load st])
    else if st &&& 0x4000000 ≠ 0 then
      -- writer pending bit already set, nothing to do
      (state_, .l_load ((k + 1) % 2 ^ 32), [.load st, .yield_k k])
    else
      -- locked shared, set writer pending bit
      (state_, .l_cas_pending k st, [.load st])
  | .l_cas_excl k st =>
    let newst := 0x80000000
    let r := compare_exchange false state_ st newst
    if r.1 then (r.2.1, .excl_held, [.cas st newst true])
    else (r.2.1, .l_load ((k + 1) % 2 ^ 32), [.cas st newst false, .yield_k k])
  | .l_cas_pending k st =>
    let newst := st ||| 0x40000000
    let r := compare_exchange false state_ st newst
    (r.2.1, .l_load ((k + 1) % 2 ^ 32), [.cas st newst r.1, .yield_k k])
  -- unlock (lines 139-143)
  | .u_store => (0, .idle, [.store 0])

/-- A run of one thread from location `l`.  Each element of `env` is one atomic access of
the thread: whether a weak compare-exchange fails spuriously at it, and what the other
threads have made of the word since the thread's previous access.  The run ends with the
operation (at a quiescent location) or with `env`.  Returns the word after the thread's last
access, the location reached and the events in order. -/
def run : List (Bool × (Nat → Nat)) → Nat → Loc → Nat × Loc × List Event
  | [], state_, l => (state_, l, [])
  | e :: env, state_, l =>
    if l.quiescent then (state_, l, [])
    else
      let r := exec e.1 (e.2 state_) l
      let r' := run env r.1 r.2.1
      (r'.1, r'.2.1, r.2.2 ++ r'.2.2)

/-- No other thread writes and no compare-exchange fails spuriously, for `fuel` accesses. -/
def alone (fuel : Nat) : List (Bool × (Nat → Nat)) :=
  List.replicate fuel (false, id)

/-- The location is a compare-exchange. -/
def Loc.atCas : Loc → Bool
  | .tls_cas _ | .ls_cas _ _ | .us_cas _ | .tl_cas _ | .l_cas_excl _ _ | .l_cas_pending _ _ => true
  | _ => false

/-- One pass from a load: the load at location `l` observes the word `w`, and the
compare-exchange it leads to, if it leads to one, finds the word `cur` (`cur = w` when no
other thread wrote in between).  Returns the word after the last access of the pass, the
location reached and the events. -/
def pass (l : Loc) (w cur : Nat) : Nat × Loc × List Event :=
  let r := exec false w l
  if r.2.1.atCas then
    let r' := exec false cur r.2.1
    (r'.1, r'.2.1, r.2.2 ++ r'.2.2)
  else r

/-- A call of `try_lock_shared()`: the value returned, the word after its last access and
its events. -/
def try_lock_shared (w cur : Nat) : Bool × Nat × List Event :=
  let r := pass .tls_load w cur
  (r.2.1.holdsShared, r.1, r.2.2)

/-- A call of `try_lock()`: the value returned, the word after its last access and its
events. -/
def try_lock (w cur : Nat) : Bool × Nat × List Event :=
  let r := pass .tl_load w cur
  (r.2.1.holdsExcl, r.1, r.2.2)

/-- One iteration of the loop of `lock_shared()` with counter `k`: whether it leaves the
loop, the word after its last access and its events. -/
def lock_shared_iteration (k w cur : Nat) : Bool × Nat × List Event :=
  let r := pass (.ls_load k) w cur
  (r.2.1.quiescent, r.1, r.2.2)

/-- One iteration of the loop of `lock()` with counter `k`: whether it leaves the loop, the
word after its last access and its events. -/
def lock_iteration (k w cur : Nat) : Bool × Nat × List Event :=
  let r := pass (.l_load k) w cur
  (r.2.1.quiescent, r.1, r.2.2)

/-- A call of `unlock_shared()` with no other thread writing meanwhile, the weak
compare-exchange not failing: the word afterwards and the events. -/
def unlock_shared (w : Nat) : Nat × List Event :=
  let r := run (alone 2) w .us_fetch_sub
  (r.1, r.2.2)

/-- A call of `unlock()`: the word afterwards and the events. -/
def unlock (w : Nat) : Nat × List Event :=
  let r := exec false w .u_store
  (r.1, r.2.2)

/-- The words written by a list of events: the desired value of a successful
compare-exchange, the stored value, the decremented word of a fetch_sub. -/
def writes : List Event → List Nat
  | [] => []
  | .cas _ desired true :: es => desired :: writes es
  | .store v :: es => v :: writes es
  | .fetch_sub old :: es => (old + (2 ^ 32 - 1)) % 2 ^ 32 :: writes es
  | _ :: es => writes es

/-- The compare-exchanges attempted in a list of events, as pairs (expected, desired). -/
def casAttempts : List Event → List (Nat × Nat)
  | [] => []
  | .cas expected desired _ :: es => (expected, desired) :: casAttempts es
  | _ :: es => casAttempts es

/-- The counters passed to `yield_k` in a list of events. -/
def yields : List Event → List Nat
  | [] => []
  | .yield_k k :: es => k :: yields es
  | _ :: es => yields es

/-! ## The word as three named fields (spec, section 3) -/

/-- The three fields of the word. -/
structure Fields where
  exclusive : Bool
  writer_pending : Bool
  readers : Nat
  deriving DecidableEq, Repr

/-- Reads the fields off a word: bit 31, bit 30, bits 29..0. -/
def decode (w : Nat) : Fields :=
  { exclusive := w.testBit 31, writer_pending := w.testBit 30, readers := w % 2 ^ 30 }

/-- The word with the given fields. -/
def encode (f : Fields) : Nat :=
  (if f.exclusive then 2 ^ 31 else 0) + (if f.writer_pending then 2 ^ 30 else 0) + f.readers

/-- The largest reader count the field holds. -/
def max_readers : Nat := 0x3FFFFFFF

/-- Reference definition of `try_lock_shared`, written from the words of the spec (4.2)
over the named fields: if the exclusive flag is set, the writer-pending flag is set, or the
reader count is at its maximum, it returns false without modifying the state; otherwise it
attempts a single compare-and-swap from the observed word to the word with the reader count
incremented by one, and returns true iff that succeeds. -/
def spec_try_lock_shared (w cur : Nat) : Bool × Nat × List Event :=
  let f := decode w
  if f.exclusive = true ∨ f.writer_pending = true ∨ f.readers = max_readers then
    (false, w, [.load w])
  else
    let target := encode { f with readers := f.readers + 1 }
    if cur = w then (true, target, [.load w, .cas w target true])
    else (false, cur, [.load w, .cas w target false])

/-- Reference definition of `try_lock`, written from the words of the spec (4.2) over the
named fields: it fails if the exclusive flag or any reader count bit is set; otherwise it
attempts a single compare-and-swap from the observed word to "exclusive flag set, nothing
else", and returns true iff that succeeds. -/
def spec_try_lock (w cur : Nat) : Bool × Nat × List Event :=
  let f := decode w
  if f.exclusive = true ∨ f.readers ≠ 0 then
    (false, w, [.load w])
  else
    let target := encode { exclusive := true, writer_pending := false, readers := 0 }
    if cur = w then (true, target, [.load w, .cas w target true])
    else (false, cur, [.load w, .cas w target false])

/-! ## Several threads -/

/-- The six operations. -/
inductive Op where
  | try_lock_shared | lock_shared | unlock_shared | try_lock | lock | unlock
  deriving DecidableEq, Repr

/-- A thread between two calls calls an operation.  The acquiring operations are called by
a thread that holds nothing (the lock is not re-entrant, spec section 5), `unlock_shared` by
a thread that holds a shared acquisition, `unlock` by the thread that holds the exclusive
acquisition. -/
def start : Op → Loc → Option Loc
  | .try_lock_shared, .idle => some .tls_load
  | .lock_shared, .idle => some (.ls_load 0)
  | .try_lock, .idle => some .tl_load
  | .lock, .idle => some (.l_load 0)
  | .unlock_shared, .shared_held => some .us_fetch_sub
  | .unlock, .excl_held => some .u_store
  | _, _ => none

/-- The lock word and the locations of the threads. -/
structure Machine where
  state_ : Nat
  threads : List Loc
  deriving DecidableEq, Repr

/-- The lock as constructed (`state_ = {}`) with `n` threads that hold nothing. -/
def Machine.init (n : Nat) : Machine :=
  { state_ := 0, threads := List.replicate n .idle }

/-- Thread `i` calls `op`. -/
def Machine.call (s : Machine) (i : Nat) (op : Op) : Option Machine :=
  match s.threads[i]? with
  | some l => (start op l).map fun l' => { s with threads := s.threads.set i l' }
  | none => none

/-- Thread `i`, inside an operation, performs its next atomic access. -/
def Machine.access (s : Machine) (i : Nat) (spurious : Bool) : Option Machine :=
  match s.threads[i]? with
  | some l =>
    if l.quiescent then none
    else
      let r := exec spurious s.state_ l
      some { state_ := r.1, threads := s.threads.set i r.2.1 }
  | none => none

/-- One step of the machine: some thread calls an operation or performs its next access. -/
def Step (s s' : Machine) : Prop :=
  (∃ i op, s.call i op = some s') ∨ (∃ i spurious, s.access i spurious = some s')

/-- The states reachable from the initial state with `n` threads. -/
inductive Reachable (n : Nat) : Machine → Prop where
  | init : Reachable n (Machine.init n)
  | step {s s' : Machine} : Reachable n s → Step s s' → Reachable n s'

/-- The number of threads that hold a shared acquisition. -/
def Machine.sharedHolders (s : Machine) : Nat :=
  s.threads.countP Loc.holdsShared

/-- The number of threads that hold the exclusive acquisition. -/
def Machine.exclHolders (s : Machine) : Nat :=
  s.threads.countP Loc.holdsExcl

/-- The words a thread's local variable `st` can hold at each compare-exchange, by the tests
the source makes between the load and the compare-exchange. -/
def Loc.wf : Loc → Prop
  | .tls_cas st => st < 0x3FFFFFFF
  | .ls_cas _ st => st < 0x3FFFFFFF
  | .us_cas st => st = 0x40000000
  | .tl_cas st => st &&& 0x80000000 = 0 ∧ st &&& 0x3FFFFFFF = 0
  | .l_cas_excl _ st => st &&& 0x80000000 = 0 ∧ st &&& 0x3FFFFFFF = 0
  | .l_cas_pending _ st =>
    st &&& 0x80000000 = 0 ∧ st &&& 0x3FFFFFFF ≠ 0 ∧ st &&& 0x4000000 = 0
  | _ => True

instance (l : Loc) : Decidable l.wf := by
  cases l <;> unfold Loc.wf <;> infer_instance

/-- One atomic access of a thread inside `try_lock_shared` or `lock_shared`, at a location
the source can be at, taking the word from `w` to `w2`. -/
def SharedAcquireStep (w w2 : Nat) : Prop :=
  ∃ l : Loc, (l = .tls_load ∨ (∃ st, l = .tls_cas st) ∨ (∃ k, l = .ls_load k) ∨
      (∃ k st, l = .ls_cas k st)) ∧ l.wf ∧ (exec false w l).1 = w2

/-- The invariant of the lock, over the word `w` and the numbers of threads that hold the
exclusive acquisition (`E`), hold a shared acquisition (`R`), are in the cleanup loop of
`unlock_shared` (`C`) and are in the loop of `lock()` (`L`). -/
def Inv (w E R C L : Nat) : Prop :=
  w < 2 ^ 32 ∧ E ≤ 1 ∧ (E = 1 → w = 0x80000000 ∧ R = 0) ∧
  (E = 0 → w < 0x80000000 ∧ w % 2 ^ 30 = R) ∧
  (w = 0x40000000 → 1 ≤ C) ∧ (w / 2 ^ 30 % 2 = 1 → 1 ≤ L)

/-- The invariant of the machine: `Inv` over its word and its threads, every thread being at
a location the source can be at. -/
def Machine.inv (s : Machine) : Prop :=
  Inv s.state_ (s.threads.countP Loc.holdsExcl) (s.threads.countP Loc.holdsShared)
    (s.threads.countP Loc.inCleanup) (s.threads.countP Loc.inLock) ∧
  ∀ l ∈ s.threads, l.wf

/-- The thread is inside one of the two spin loops and has not acquired. -/
def Loc.spinning (l : Loc) : Bool :=
  l.inLock || l.inLockShared

/-- The loop variable `k` of a thread inside a spin loop (`for( unsigned k = 0; ; ++k )`). -/
def Loc.counter : Loc → Nat
  | .ls_load k | .ls_cas k _ | .l_load k | .l_cas_excl k _ | .l_cas_pending k _ => k
  | _ => 0

/-- A periodic execution of two threads, in period `q` at phase `r` (0 to 5).  Thread 0 is
inside `lock_shared()`, in iteration `q`; thread 1 calls `lock()` (phase 1), loads (phase
2), acquires (phase 3), thread 0 loads and finds the lock held (phase 4), thread 1 calls
`unlock()` (phase 5) and stores (phase 0 of the next period). -/
def starve_at (q : Nat) : Nat → Machine
  | 0 => { state_ := 0, threads := [.ls_load (q % 2 ^ 32), .idle] }
  | 1 => { state_ := 0, threads := [.ls_load (q % 2 ^ 32), .l_load 0] }
  | 2 => { state_ := 0, threads := [.ls_load (q % 2 ^ 32), .l_cas_excl 0 0] }
  | 3 => { state_ := 0x80000000, threads := [.ls_load (q % 2 ^ 32), .excl_held] }
  | 4 => { state_ := 0x80000000, threads := [.ls_load ((q + 1) % 2 ^ 32), .excl_held] }
  | _ => { state_ := 0x80000000, threads := [.ls_load ((q + 1) % 2 ^ 32), .u_store] }

/-- The state of that execution after `i` steps. -/
def starve (i : Nat) : Machine :=
  starve_at (i / 6) (i % 6)

/-! ## Threads that may call while they hold -/

/-- A thread of a client bound only by the preconditions of the two unlock operations: the
number of shared acquisitions and of exclusive acquisitions it holds, and its location.
Between two calls the location is quiescent and records how the last call ended. -/
structure Thread where
  /-- shared acquisitions held -/
  shared : Nat
  /-- exclusive acquisitions held -/
  excl : Nat
  /-- where the thread is -/
  loc : Loc
  deriving DecidableEq, Repr

/-- The first atomic access of each operation. -/
def Op.entry : Op → Loc
  | .try_lock_shared => .tls_load
  | .lock_shared => .ls_load 0
  | .unlock_shared => .us_fetch_sub
  | .try_lock => .tl_load
  | .lock => .l_load 0
  | .unlock => .u_store

/-- A thread between two calls calls `op`: an acquiring operation whatever it holds,
`unlock_shared` if it holds a shared acquisition, `unlock` if it holds the exclusive one. -/
def Thread.call (t : Thread) (op : Op) : Option Thread :=
  if t.loc.quiescent = true ∧ (op = .unlock_shared → 1 ≤ t.shared) ∧
      (op = .unlock → 1 ≤ t.excl) then
    some { t with loc := op.entry }
  else none

/-- The thread after the access it performed at `t.loc` has led to the location `b`: it
gives up a shared acquisition by the fetch_sub of `unlock_shared` and an exclusive one by the
store of `unlock`, and gains one when the compare-exchange of an acquiring operation has
succeeded (`b` is `shared_held`, respectively `excl_held`). -/
def Thread.after (t : Thread) (b : Loc) : Thread :=
  { shared :=
      t.shared - (if t.loc = .us_fetch_sub then 1 else 0) + (if b = .shared_held then 1 else 0),
    excl := t.excl - (if t.loc = .u_store then 1 else 0) + (if b = .excl_held then 1 else 0),
    loc := b }

/-- The lock word and the threads of such a client. -/
structure World where
  state_ : Nat
  threads : List Thread
  deriving DecidableEq, Repr

/-- The lock as constructed (`state_ = {}`) with `n` threads that hold nothing. -/
def World.init (n : Nat) : World :=
  { state_ := 0, threads := List.replicate n { shared := 0, excl := 0, loc := .idle } }

/-- Thread `i` calls `op`. -/
def World.call (s : World) (i : Nat) (op : Op) : Option World :=
  match s.threads[i]? with
  | some t => (t.call op).map fun t' => { s with threads := s.threads.set i t' }
  | none => none

/-- Thread `i`, inside an operation, performs its next atomic access. -/
def World.access (s : World) (i : Nat) (spurious : Bool) : Option World :=
  match s.threads[i]? with
  | some t =>
    if t.loc.quiescent then none
    else
      let r := exec spurious s.state_ t.loc
      some { state_ := r.1, threads := s.threads.set i (t.after r.2.1) }
  | none => none

/-- One step: some thread calls an operation or performs its next access. -/
def World.Step (s s' : World) : Prop :=
  (∃ i op, s.call i op = some s') ∨ (∃ i spurious, s.access i spurious = some s')

/-- The states reachable from the initial state with `n` threads. -/
inductive World.Reachable (n : Nat) : World → Prop where
  | init : World.Reachable n (World.init n)
  | step {s s' : World} : World.Reachable n s → World.Step s s' → World.Reachable n s'

/-- The number of threads that hold the exclusive acquisition. -/
def World.exclHolders (s : World) : Nat :=
  s.threads.countP fun t => decide (1 ≤ t.excl)

/-- The number of threads that hold a shared acquisition. -/
def World.sharedHolders (s : World) : Nat :=
  s.threads.countP fun t => decide (1 ≤ t.shared)

/-- The number of shared acquisitions held, a thread counting once for each it holds. -/
def World.sharedHeld (s : World) : Nat :=
  (s.threads.map Thread.shared).sum

/-- The number of exclusive acquisitions held. -/
def World.exclHeld (s : World) : Nat :=
  (s.threads.map Thread.excl).sum

/-- A thread is at a location the source can be at, and holds what it is releasing. -/
def Thread.wf (t : Thread) : Prop :=
  t.loc.wf ∧ (t.loc = .us_fetch_sub → 1 ≤ t.shared) ∧ (t.loc = .u_store → 1 ≤ t.excl)

/-- The invariant of the lock with such a client: `Inv` over the word, the numbers of
acquisitions held and the numbers of threads in the cleanup loop and in the loop of
`lock()`. -/
def World.inv (s : World) : Prop :=
  Inv s.state_ s.exclHeld s.sharedHeld
    (s.threads.countP fun t => t.loc.inCleanup) (s.threads.countP fun t => t.loc.inLock) ∧
  ∀ t ∈ s.threads, t.wf

/-! ## The backoff function -/

/-- The two things `yield_k` can call. -/
inductive Action where
  | sp_thread_pause
  | sp_thread_sleep
  deriving DecidableEq, Repr

/-- `yield_k( k )` (lines 25-35): the calls it makes, in order. -/
def yield_k (k : Nat) : List Action :=
  if k < 49152 then [.sp_thread_pause] else [.sp_thread_sleep]

/-! ## Calls in a row, with no other thread writing -/

/-- `n` calls of `try_lock_shared()` in a row from the word `w`, each finding at its
compare-exchange the word it loaded: the values returned and the word afterwards. -/
def try_lock_shared_calls : Nat → Nat → List Bool × Nat
  | 0, w => ([], w)
  | n + 1, w =>
    let r := try_lock_shared w w
    let r' := try_lock_shared_calls n r.2.1
    (r.1 :: r'.1, r'.2)

/-- `n` calls of `lock_shared()` in a row from the word `w`, each given two accesses with no
other thread writing: the locations reached and the word afterwards. -/
def lock_shared_calls : Nat → Nat → List Loc × Nat
  | 0, w => ([], w)
  | n + 1, w =>
    let r := run (alone 2) w (.ls_load 0)
    let r' := lock_shared_calls n r.1
    (r.2.1 :: r'.1, r'.2)

/-- `n` calls of `unlock_shared()` in a row from the word `w`: the word afterwards. -/
def unlock_shared_calls (n w : Nat) : Nat :=
  Nat.iterate (fun v => (unlock_shared v).1) n w

/-- `n` times `try_lock()` followed by `unlock()`, from the word `w`: what each `try_lock`
returned with the word it left, and the word at the end. -/
def try_lock_round_trips : Nat → Nat → List (Bool × Nat) × Nat
  | 0, w => ([], w)
  | n + 1, w =>
    let a := try_lock w w
    let b := unlock a.2.1
    let r := try_lock_round_trips n b.1
    ((a.1, a.2.1) :: r.1, r.2)

/-- `n` times `lock()` followed by `unlock()`, from the word `w`, `lock()` being given two
accesses with no other thread writing: the location each `lock()` reached with the word it
left, and the word at the end. -/
def lock_round_trips : Nat → Nat → List (Loc × Nat) × Nat
  | 0, w => ([], w)
  | n + 1, w =>
    let a := run (alone 2) w (.l_load 0)
    let b := unlock a.1
    let r := lock_round_trips n b.1
    ((a.2.1, a.1) :: r.1, r.2)

/-- What the single-threaded scenario of the spec (section 8) observes, with `n` readers. -/
structure Scenario where
  /-- the values returned by the `n` calls of `try_lock_shared` -/
  readers : List Bool
  /-- the value returned by `try_lock` while the readers hold -/
  writer_early : Bool
  /-- the word after that `try_lock` -/
  word_early : Nat
  /-- the word after the `n` calls of `unlock_shared` -/
  word_released : Nat
  /-- the value returned by the second `try_lock` -/
  writer_late : Bool
  /-- the word after the second `try_lock` -/
  word_held : Nat
  /-- the word after `unlock` -/
  word_end : Nat
  deriving DecidableEq, Repr

/-- The single-threaded scenario with `n` readers: `n` calls of `try_lock_shared`, a
`try_lock`, `n` calls of `unlock_shared`, a `try_lock`, an `unlock`, from the word 0. -/
def single_thread_scenario (n : Nat) : Scenario :=
  let a := try_lock_shared_calls n 0
  let b := try_lock a.2 a.2
  let c := unlock_shared_calls n b.2.1
  let d := try_lock c c
  let e := unlock d.2.1
  { readers := a.1, writer_early := b.1, word_early := b.2.1, word_released := c,
    writer_late := d.1, word_held := d.2.1, word_end := e.1 }

/-- The interference under which every load of a spinning thread finds the word `w`: `n`
accesses, before each of which the other threads have left the word at `w`. -/
def held (w n : Nat) : List (Bool × (Nat → Nat)) :=
  List.replicate n (false, fun _ => w)

end rw_spinlock

/-! # The work split of `test_word_count` (`src/main2.cpp`, `src/main.cpp`)

`W` is `words.size()` and `Th` the number of threads; both are `std::size_t`, taken as
64 bits wide, and `std::size_t` arithmetic is written with an explicit `% 2 ^ 64`. -/

namespace test_word_count

/-- `std::size_t m = words.size() / Th;` -/
def m (W Th : Nat) : Nat :=
  W / Th

/-- `std::size_t start = i * m;` -/
def start (W Th i : Nat) : Nat :=
  (i * m W Th) % 2 ^ 64

/-- `std::size_t end = i == Th-1? words.size(): (i + 1) * m;` -/
def end_ (W Th i : Nat) : Nat :=
  if i = (Th + (2 ^ 64 - 1)) % 2 ^ 64 then W else (((i + 1) % 2 ^ 64) * m W Th) % 2 ^ 64

/-- The values `j` takes in `for( std::size_t j = start; j < end; ++j )` of thread `i`, in
order. -/
def indices (W Th i : Nat) : List Nat :=
  List.range' (start W Th i) (end_ W Th i - start W Th i)

/-- The value of `s2` when thread `i` leaves its loop: one `++s2` per iteration. -/
def s2 (W Th i : Nat) : Nat :=
  (indices W Th i).length % 2 ^ 64

/-- The value of `s` after all `Th` threads have done `s += s2` and have been joined; the
additions are atomic and modulo `2 ^ 64`, so their order does not matter. -/
def checksum (W Th : Nat) : Nat :=
  ((List.range Th).map (s2 W Th)).sum % 2 ^ 64

end test_word_count

namespace rw_spinlock

/-! ## Bit arithmetic on the word -/

theorem and_mask30 (w : Nat) : w &&& 0x3FFFFFFF = w % 2 ^ 30 := by
  have h := Nat.and_pow_two_sub_one_eq_mod w 30
  simpa using h

theorem and_bit31 (w : Nat) :
    w &&& 0x80000000 = if w / 2 ^ 31 % 2 = 1 then 2 ^ 31 else 0 := by
  have h := Nat.and_two_pow w 31
  rw [Nat.testBit_to_div_mod] at h
  have e : (0x80000000 : Nat) = 2 ^ 31 := by norm_num
  rw [e, h]
  split <;> simp_all

theorem and_bit26 (w : Nat) :
    w &&& 0x4000000 = if w / 2 ^ 26 % 2 = 1 then 2 ^ 26 else 0 := by
  have h := Nat.and_two_pow w 26
  rw [Nat.testBit_to_div_mod] at h
  have e : (0x4000000 : Nat) = 2 ^ 26 := by norm_num
  rw [e, h]
  split <;> simp_all

theorem and_bit31_eq_zero (w : Nat) : w &&& 0x80000000 = 0 ↔ w / 2 ^ 31 % 2 = 0 := by
  rw [and_bit31]
  have h : w / 2 ^ 31 % 2 = 0 ∨ w / 2 ^ 31 % 2 = 1 := by omega
  rcases h with h | h
  · rw [if_neg (by omega)]
    exact ⟨fun _ => h, fun _ => rfl⟩
  · rw [if_pos h]
    constructor
    · intro h2
      norm_num at h2
    · intro h2
      omega

theorem and_bit26_eq_zero (w : Nat) : w &&& 0x4000000 = 0 ↔ w / 2 ^ 26 % 2 = 0 := by
  rw [and_bit26]
  have h : w / 2 ^ 26 % 2 = 0 ∨ w / 2 ^ 26 % 2 = 1 := by omega
  rcases h with h | h
  · rw [if_neg (by omega)]
    exact ⟨fun _ => h, fun _ => rfl⟩
  · rw [if_pos h]
    constructor
    · intro h2
      norm_num at h2
    · intro h2
      omega

theorem or_bit30 (w : Nat) :
    w ||| 0x40000000 = 2 ^ 31 * (w / 2 ^ 31) + 2 ^ 30 + w % 2 ^ 30 := by
  have hlo : w % 2 ^ 30 < 2 ^ 30 := Nat.mod_lt _ (by norm_num)
  have hmid : w / 2 ^ 30 % 2 = 0 ∨ w / 2 ^ 30 % 2 = 1 := by omega
  have h1 : 2 ^ 30 * (w / 2 ^ 30 % 2) + w % 2 ^ 30 < 2 ^ 31 := by omega
  have e1 := Nat.mul_add_lt_is_or h1 (w / 2 ^ 31)
  have e2 := Nat.mul_add_lt_is_or hlo (w / 2 ^ 30 % 2)
  have e3 := Nat.mul_add_lt_is_or hlo 1
  have h3 : 2 ^ 30 * 1 + w % 2 ^ 30 < 2 ^ 31 := by omega
  have e4 := Nat.mul_add_lt_is_or h3 (w / 2 ^ 31)
  have hw : w = 2 ^ 31 * (w / 2 ^ 31) + (2 ^ 30 * (w / 2 ^ 30 % 2) + w % 2 ^ 30) := by omega
  have e : (0x40000000 : Nat) = 2 ^ 30 * 1 := by norm_num
  have key : w ||| 2 ^ 30 * 1 = 2 ^ 31 * (w / 2 ^ 31) ||| (2 ^ 30 * 1 ||| w % 2 ^ 30) := by
    conv_lhs => rw [hw, e1, e2]
    rcases hmid with h | h <;> rw [h]
    · simp [Nat.lor_assoc, Nat.lor_comm]
    · rw [Nat.lor_assoc, Nat.lor_assoc]
      congr 1
      rw [Nat.lor_comm (w % 2 ^ 30), ← Nat.lor_assoc, Nat.or_self]
  rw [e, key, ← e3, ← e4]
  omega

theorem testBit31 (w : Nat) : w.testBit 31 = decide (w / 2 ^ 31 % 2 = 1) :=
  Nat.testBit_to_div_mod

theorem testBit30 (w : Nat) : w.testBit 30 = decide (w / 2 ^ 30 % 2 = 1) :=
  Nat.testBit_to_div_mod

/-! ## The single operations -/

theorem try_lock_shared_below (w cur : Nat) (h : w < 0x3FFFFFFF) :
    try_lock_shared w cur =
      (decide (cur = w), if cur = w then w + 1 else cur,
        [.load w, .cas w (w + 1) (decide (cur = w))]) := by
  have e : w + 1 < 4294967296 := by omega
  have hn : ¬ w ≥ 0x3FFFFFFF := by omega
  by_cases hc : cur = w
  · subst hc
    simp [try_lock_shared, pass, exec, hn, Loc.atCas, compare_exchange, Loc.holdsShared, e]
  · simp [try_lock_shared, pass, exec, hn, Loc.atCas, compare_exchange, Loc.holdsShared, e, hc]

theorem try_lock_shared_above (w cur : Nat) (h : w ≥ 0x3FFFFFFF) :
    try_lock_shared w cur = (false, w, [.load w]) := by
  simp [try_lock_shared, pass, exec, h, Loc.atCas, Loc.holdsShared]

theorem disqualified_iff (w : Nat) (hw : w < 2 ^ 32) :
    w ≥ 0x3FFFFFFF ↔
      ((decode w).exclusive = true ∨ (decode w).writer_pending = true ∨
        (decode w).readers = max_readers) := by
  simp only [decode, max_readers, testBit31, testBit30, decide_eq_true_eq]
  omega

theorem decode_succ (w : Nat) (h : w < 0x3FFFFFFF) :
    decode (w + 1) = { decode w with readers := (decode w).readers + 1 } := by
  have h1 : (w + 1) / 2 ^ 31 % 2 = 0 := by omega
  have h2 : (w + 1) / 2 ^ 30 % 2 = 0 := by omega
  have h3 : w / 2 ^ 31 % 2 = 0 := by omega
  have h4 : w / 2 ^ 30 % 2 = 0 := by omega
  have h5 : (w + 1) % 2 ^ 30 = w % 2 ^ 30 + 1 := by omega
  simp only [decode, testBit31, testBit30, h1, h2, h3, h4, h5]

theorem encode_succ (w : Nat) (h : w < 0x3FFFFFFF) :
    encode { decode w with readers := (decode w).readers + 1 } = w + 1 := by
  have h3 : w / 2 ^ 31 % 2 = 0 := by omega
  have h4 : w / 2 ^ 30 % 2 = 0 := by omega
  have h5 : w % 2 ^ 30 = w := by omega
  simp only [encode, decode, testBit31, testBit30, h3, h4, h5]
  simp

/-- C2: `try_lock_shared` equals its reference definition over the three named fields, for
every 32-bit word `w` its load observes and every word `cur` its compare-exchange finds.
The test `w >= 0x3FFFFFFF` of the code is the disjunction "exclusive flag set, or
writer-pending flag set, or reader count at its maximum"; in that case the call returns
false and writes nothing; otherwise it attempts exactly one compare-exchange, from `w` to
`w + 1` (reader count incremented, both flags unchanged), returns true iff it succeeds,
uncontended returns true leaving `w + 1`, and on a lost race returns false and writes
nothing. -/
theorem try_lock_shared_refines_spec (w cur : Nat) (hw : w < 2 ^ 32) :
    try_lock_shared w cur = spec_try_lock_shared w cur ∧
    (w ≥ 0x3FFFFFFF ↔
      ((decode w).exclusive = true ∨ (decode w).writer_pending = true ∨
        (decode w).readers = max_readers)) ∧
    (w ≥ 0x3FFFFFFF →
      try_lock_shared w cur = (false, w, [.load w]) ∧
      writes (try_lock_shared w cur).2.2 = []) ∧
    (w < 0x3FFFFFFF →
      casAttempts (try_lock_shared w cur).2.2 = [(w, w + 1)] ∧
      decode (w + 1) = { decode w with readers := (decode w).readers + 1 } ∧
      ((try_lock_shared w cur).1 = true ↔ cur = w) ∧
      try_lock_shared w w = (true, w + 1, [.load w, .cas w (w + 1) true]) ∧
      (cur ≠ w →
        (try_lock_shared w cur).1 = false ∧ writes (try_lock_shared w cur).2.2 = [])) := by
  refine ⟨?_, disqualified_iff w hw, ?_, ?_⟩
  · by_cases h : w ≥ 0x3FFFFFFF
    · rw [try_lock_shared_above w cur h, spec_try_lock_shared,
        if_pos ((disqualified_iff w hw).1 h)]
    · have hlt : w < 0x3FFFFFFF := by omega
      rw [try_lock_shared_below w cur hlt, spec_try_lock_shared,
        if_neg (fun hd => h ((disqualified_iff w hw).2 hd))]
      simp only [encode_succ w hlt]
      by_cases hc : cur = w <;> simp [hc]
  · intro h
    rw [try_lock_shared_above w cur h]
    exact ⟨rfl, rfl⟩
  · intro h
    rw [try_lock_shared_below w cur h, try_lock_shared_below w w h]
    refine ⟨rfl, decode_succ w h, by simp, by simp, ?_⟩
    intro hc
    simp [hc, writes]

/-- C2, at the word of three readers, uncontended. -/
theorem try_lock_shared_refines_spec_witness :
    try_lock_shared 3 3 = spec_try_lock_shared 3 3 ∧
    try_lock_shared 3 3 = (true, 4, [.load 3, .cas 3 4 true]) :=
  ⟨(try_lock_shared_refines_spec 3 3 (by norm_num)).1,
    ((try_lock_shared_refines_spec 3 3 (by norm_num)).2.2.2 (by norm_num)).2.2.2.1⟩

theorem and_maskBF (w : Nat) :
    w &&& 0xBFFFFFFF = (if w / 2 ^ 31 % 2 = 1 then 2 ^ 31 else 0) + w % 2 ^ 30 := by
  have e : (0xBFFFFFFF : Nat) = 0x80000000 ||| 0x3FFFFFFF := by decide
  have hlo : w % 2 ^ 30 < 2 ^ 31 := by omega
  rw [e, Nat.and_or_distrib_left, and_bit31, and_mask30]
  split
  · have h := Nat.mul_add_lt_is_or hlo 1
    rw [Nat.mul_one] at h
    exact h.symm
  · simp

theorem try_lock_busy (w cur : Nat) (h : w &&& 0x80000000 ≠ 0 ∨ w &&& 0x3FFFFFFF ≠ 0) :
    try_lock w cur = (false, w, [.load w]) := by
  by_cases h1 : w &&& 0x80000000 = 0
  · have h2 : w &&& 0x3FFFFFFF ≠ 0 := by
      rcases h with h | h
      · exact absurd h1 h
      · exact h
    simp [try_lock, pass, exec, h1, h2, Loc.atCas, Loc.holdsExcl]
  · simp [try_lock, pass, exec, h1, Loc.atCas, Loc.holdsExcl]

theorem try_lock_free (w cur : Nat) (h1 : w &&& 0x80000000 = 0) (h2 : w &&& 0x3FFFFFFF = 0) :
    try_lock w cur =
      (decide (cur = w), if cur = w then 0x80000000 else cur,
        [.load w, .cas w 0x80000000 (decide (cur = w))]) := by
  by_cases hc : cur = w
  · subst hc
    simp [try_lock, pass, exec, h1, h2, Loc.atCas, compare_exchange, Loc.holdsExcl]
  · simp [try_lock, pass, exec, h1, h2, Loc.atCas, compare_exchange, Loc.holdsExcl, hc]

theorem busy_iff (w : Nat) :
    (w &&& 0x80000000 ≠ 0 ∨ w &&& 0x3FFFFFFF ≠ 0) ↔
      ((decode w).exclusive = true ∨ (decode w).readers ≠ 0) := by
  rw [and_bit31, and_mask30]
  simp only [decode, testBit31, decide_eq_true_eq]
  split <;> simp_all

/-- C3: `try_lock` equals its reference definition, for every 32-bit word `w` its load
observes and every word `cur` its compare-exchange finds.  If bit 31 or any of the low 30
bits of `w` is set it returns false and writes nothing; otherwise `w` is 0 or 0x40000000,
it attempts exactly one compare-exchange from `w` to exactly 0x80000000 (exclusive flag
set, writer-pending flag and reader count clear) and returns true iff it succeeds.
Uncontended, it returns true iff `w &&& 0xBFFFFFFF = 0`, and the word is then 0x80000000. -/
theorem try_lock_refines_spec (w cur : Nat) (hw : w < 2 ^ 32) :
    try_lock w cur = spec_try_lock w cur ∧
    ((w &&& 0x80000000 ≠ 0 ∨ w &&& 0x3FFFFFFF ≠ 0) →
      try_lock w cur = (false, w, [.load w]) ∧ writes (try_lock w cur).2.2 = []) ∧
    ((w &&& 0x80000000 = 0 ∧ w &&& 0x3FFFFFFF = 0) →
      (w = 0 ∨ w = 0x40000000) ∧
      casAttempts (try_lock w cur).2.2 = [(w, 0x80000000)] ∧
      decode 0x80000000 = { exclusive := true, writer_pending := false, readers := 0 } ∧
      ((try_lock w cur).1 = true ↔ cur = w) ∧
      (cur ≠ w → (try_lock w cur).1 = false ∧ writes (try_lock w cur).2.2 = [])) ∧
    ((try_lock w w).1 = true ↔ w &&& 0xBFFFFFFF = 0) ∧
    ((try_lock w w).1 = true → (try_lock w w).2.1 = 0x80000000) := by
  have hfree : ∀ c, w &&& 0x80000000 = 0 → w &&& 0x3FFFFFFF = 0 →
      try_lock w c = (decide (c = w), if c = w then 0x80000000 else c,
        [.load w, .cas w 0x80000000 (decide (c = w))]) :=
    fun c h1 h2 => try_lock_free w c h1 h2
  refine ⟨?_, ?_, ?_, ?_, ?_⟩
  · by_cases h : w &&& 0x80000000 ≠ 0 ∨ w &&& 0x3FFFFFFF ≠ 0
    · rw [try_lock_busy w cur h, spec_try_lock, if_pos ((busy_iff w).1 h)]
    · have h1 : w &&& 0x80000000 = 0 := by
        by_contra hh; exact h (Or.inl hh)
      have h2 : w &&& 0x3FFFFFFF = 0 := by
        by_contra hh; exact h (Or.inr hh)
      rw [hfree cur h1 h2, spec_try_lock, if_neg (fun hd => h ((busy_iff w).2 hd))]
      by_cases hc : cur = w <;> simp [hc, encode]
  · intro h
    rw [try_lock_busy w cur h]
    exact ⟨rfl, rfl⟩
  · rintro ⟨h1, h2⟩
    rw [hfree cur h1 h2]
    refine ⟨?_, rfl, by decide, by simp, ?_⟩
    · rw [and_bit31] at h1
      rw [and_mask30] at h2
      split at h1 <;> omega
    · intro hc
      simp [hc, writes]
  · by_cases h : w &&& 0x80000000 ≠ 0 ∨ w &&& 0x3FFFFFFF ≠ 0
    · rw [try_lock_busy w w h]
      have hb : w &&& 0xBFFFFFFF ≠ 0 := by
        rw [and_maskBF]
        rw [and_bit31, and_mask30] at h
        split <;> simp_all
      simp [hb]
    · have h1 : w &&& 0x80000000 = 0 := by
        by_contra hh; exact h (Or.inl hh)
      have h2 : w &&& 0x3FFFFFFF = 0 := by
        by_contra hh; exact h (Or.inr hh)
      rw [hfree w h1 h2]
      have hb : w &&& 0xBFFFFFFF = 0 := by
        rw [and_maskBF]
        rw [and_bit31] at h1
        rw [and_mask30] at h2
        split <;> simp_all
      simp [hb]
  · intro h
    by_cases hb : w &&& 0x80000000 ≠ 0 ∨ w &&& 0x3FFFFFFF ≠ 0
    · rw [try_lock_busy w w hb] at h
      simp at h
    · have h1 : w &&& 0x80000000 = 0 := by
        by_contra hh; exact hb (Or.inl hh)
      have h2 : w &&& 0x3FFFFFFF = 0 := by
        by_contra hh; exact hb (Or.inr hh)
      rw [hfree w h1 h2]
      simp

/-- C3, at the free word, uncontended. -/
theorem try_lock_refines_spec_witness :
    try_lock 0 0 = spec_try_lock 0 0 ∧ (try_lock 0 0).2.1 = 0x80000000 :=
  ⟨(try_lock_refines_spec 0 0 (by norm_num)).1,
    (try_lock_refines_spec 0 0 (by norm_num)).2.2.2.2
      (((try_lock_refines_spec 0 0 (by norm_num)).2.2.2.1).2 (by decide))⟩

theorem exec_us_fetch_sub (spurious : Bool) (w : Nat) (hw : w < 2 ^ 32) (h : 1 ≤ w) :
    exec spurious w .us_fetch_sub =
      (w - 1, if w - 1 = 0x40000000 then .us_cas 0x40000000 else .idle, [.fetch_sub w]) := by
  have e : (w + 4294967295) % 4294967296 = w - 1 := by omega
  by_cases hc : w - 1 = 0x40000000
  · simp [exec, fetch_sub, unlock_shared_test, e, hc]
  · simp [exec, fetch_sub, unlock_shared_test, e, hc]

theorem exec_us_cas_lost (spurious : Bool) (cur : Nat) (h : cur ≠ 0x40000000) :
    exec spurious cur (.us_cas 0x40000000) = (cur, .idle, [.cas 0x40000000 0 false]) := by
  simp [exec, compare_exchange, unlock_shared_test, h]

theorem alone_succ (n : Nat) : alone (n + 1) = (false, id) :: alone n := rfl

theorem run_cons (e : Bool × (Nat → Nat)) (env : List (Bool × (Nat → Nat))) (s : Nat) (l : Loc)
    (h : l.quiescent = false) :
    run (e :: env) s l =
      ((run env (exec e.1 (e.2 s) l).1 (exec e.1 (e.2 s) l).2.1).1,
        (run env (exec e.1 (e.2 s) l).1 (exec e.1 (e.2 s) l).2.1).2.1,
        (exec e.1 (e.2 s) l).2.2 ++
          (run env (exec e.1 (e.2 s) l).1 (exec e.1 (e.2 s) l).2.1).2.2) := by
  simp only [run, h, Bool.false_eq_true, if_false]

theorem run_quiescent (env : List (Bool × (Nat → Nat))) (s : Nat) (l : Loc)
    (h : l.quiescent = true) : run env s l = (s, l, []) := by
  cases env with
  | nil => rfl
  | cons e env => simp only [run, h, if_true]

theorem exec_us_cas_won :
    exec false 0x40000000 (.us_cas 0x40000000) = (0, .idle, [.cas 0x40000000 0 true]) := by
  simp [exec, compare_exchange]

theorem unlock_shared_last :
    unlock_shared 0x40000001 = (0, [.fetch_sub 0x40000001, .cas 0x40000000 0 true]) := by
  have e1 := exec_us_fetch_sub false 0x40000001 (by norm_num) (by norm_num)
  have e3 := exec_us_cas_won
  have e2 : run (alone 2) 0x40000001 .us_fetch_sub =
      (0, .idle, [.fetch_sub 0x40000001, .cas 0x40000000 0 true]) := by
    rw [alone_succ, run_cons (false, id) (alone 1) _ .us_fetch_sub rfl]
    simp only [id, e1]
    norm_num
    rw [alone_succ, run_cons (false, id) (alone 0) _ (.us_cas 0x40000000) rfl]
    simp only [id, e3]
    rw [run_quiescent _ _ .idle rfl]
    simp
  unfold unlock_shared
  rw [e2]

theorem unlock_shared_other (w : Nat) (hw : w < 2 ^ 32) (h : 1 ≤ w) (hc : ¬ w = 0x40000001) :
    unlock_shared w = (w - 1, [.fetch_sub w]) := by
  have hc2 : ¬ w - 1 = 0x40000000 := by omega
  have e1 := exec_us_fetch_sub false w hw h
  rw [if_neg hc2] at e1
  have e2 : run (alone 2) w .us_fetch_sub = (w - 1, .idle, [.fetch_sub w]) := by
    rw [alone_succ, run_cons (false, id) (alone 1) w .us_fetch_sub rfl]
    simp only [id, e1]
    rw [run_quiescent _ _ .idle rfl]
    rfl
  unfold unlock_shared
  rw [e2]

theorem unlock_shared_eq (w : Nat) (hw : w < 2 ^ 32) (h : 1 ≤ w) :
    unlock_shared w =
      if w = 0x40000001 then (0, [.fetch_sub w, .cas 0x40000000 0 true])
      else (w - 1, [.fetch_sub w]) := by
  by_cases hc : w = 0x40000001
  · subst hc
    exact unlock_shared_last
  · rw [if_neg hc]
    exact unlock_shared_other w hw h hc

/-- C4: `unlock_shared` under its precondition.  For every 32-bit word `w` with bit 31 clear
and reader count at least one, the fetch_sub replaces `w` by `w - 1`, whose reader count is
that of `w` less one and whose flags are those of `w`.  If `w - 1` is 0x40000000 the
operation goes on to a compare-exchange from 0x40000000 to 0, and otherwise it returns
without a second write; a compare-exchange that finds a word other than 0x40000000 fails,
writes nothing and ends the operation; one that finds 0x40000000 writes 0.  Uncontended,
the final word is 0 when `w = 0x40000001` and `w - 1` otherwise. -/
theorem unlock_shared_spec (w : Nat) (hw : w < 2 ^ 32) (h31 : w &&& 0x80000000 = 0)
    (hr : w &&& 0x3FFFFFFF ≠ 0) :
    (∀ spurious, exec spurious w .us_fetch_sub =
      (w - 1, if w - 1 = 0x40000000 then .us_cas 0x40000000 else .idle, [.fetch_sub w])) ∧
    writes [.fetch_sub w] = [w - 1] ∧
    decode (w - 1) = { decode w with readers := (decode w).readers - 1 } ∧
    1 ≤ (decode w).readers ∧
    (∀ spurious cur, cur ≠ 0x40000000 →
      exec spurious cur (.us_cas 0x40000000) = (cur, .idle, [.cas 0x40000000 0 false])) ∧
    exec false 0x40000000 (.us_cas 0x40000000) = (0, .idle, [.cas 0x40000000 0 true]) ∧
    unlock_shared w =
      (if w = 0x40000001 then (0, [.fetch_sub w, .cas 0x40000000 0 true])
       else (w - 1, [.fetch_sub w])) := by
  have hb : w / 2 ^ 31 % 2 = 0 := (and_bit31_eq_zero w).1 h31
  rw [and_mask30] at hr
  have h1 : 1 ≤ w := by omega
  refine ⟨fun sp => exec_us_fetch_sub sp w hw h1, ?_, ?_, ?_,
    fun sp cur hc => exec_us_cas_lost sp cur hc, exec_us_cas_won, unlock_shared_eq w hw h1⟩
  · have e : (w + 4294967295) % 4294967296 = w - 1 := by omega
    simp [writes, e]
  · have e1 : (w - 1) / 2 ^ 31 % 2 = w / 2 ^ 31 % 2 := by omega
    have e2 : (w - 1) / 2 ^ 30 % 2 = w / 2 ^ 30 % 2 := by omega
    have e3 : (w - 1) % 2 ^ 30 = w % 2 ^ 30 - 1 := by omega
    simp only [decode, testBit31, testBit30, e1, e2, e3]
  · simp only [decode]
    omega

/-- C4, at the word of one reader with the writer-pending flag set. -/
theorem unlock_shared_spec_witness :
    unlock_shared 0x40000001 = (0, [.fetch_sub 0x40000001, .cas 0x40000000 0 true]) :=
  (unlock_shared_spec 0x40000001 (by norm_num) rfl (by simp)).2.2.2.2.2.2

/-- C5: `unlock` stores the free word unconditionally.  For every word `w`, whatever its
flags and reader count, the word after `unlock` is exactly 0, by a single store, with no
load, no compare-exchange and no second step. -/
theorem unlock_stores_zero (w : Nat) (spurious : Bool) :
    exec spurious w .u_store = (0, .idle, [.store 0]) ∧
    unlock w = (0, [.store 0]) ∧
    casAttempts (unlock w).2 = [] ∧
    writes (unlock w).2 = [0] :=
  ⟨rfl, rfl, rfl, rfl⟩

/-! ## The spin loops -/

theorem lock_shared_iteration_below (k w cur : Nat) (h : w < 0x3FFFFFFF) :
    lock_shared_iteration k w cur =
      (decide (cur = w), if cur = w then w + 1 else cur,
        if cur = w then [.load w, .cas w (w + 1) true]
        else [.load w, .cas w (w + 1) false, .yield_k k]) := by
  have e : w + 1 < 4294967296 := by omega
  by_cases hc : cur = w
  · subst hc
    simp [lock_shared_iteration, pass, exec, h, Loc.atCas, compare_exchange, Loc.quiescent, e]
  · simp [lock_shared_iteration, pass, exec, h, Loc.atCas, compare_exchange, Loc.quiescent,
      e, hc]

theorem lock_shared_iteration_above (k w cur : Nat) (h : w ≥ 0x3FFFFFFF) :
    lock_shared_iteration k w cur = (false, w, [.load w, .yield_k k]) := by
  have hn : ¬ w < 0x3FFFFFFF := by omega
  simp [lock_shared_iteration, pass, exec, hn, Loc.atCas, Loc.quiescent]

theorem exec_inLockShared (spurious : Bool) (s : Nat) (l : Loc)
    (hl : l.inLockShared = true) (hwf : l.wf) :
    ((exec spurious s l).2.1 = .shared_held ∧
      ∃ w, w < 0x3FFFFFFF ∧ (exec spurious s l).2.2 = [.cas w (w + 1) true] ∧
        (exec spurious s l).1 = w + 1) ∨
    ((exec spurious s l).2.1.inLockShared = true ∧ (exec spurious s l).2.1.wf) := by
  cases l <;> simp [Loc.inLockShared] at hl
  case ls_load k =>
    by_cases h : s < 0x3FFFFFFF
    · right
      simp [exec, h, Loc.inLockShared, Loc.wf]
    · right
      simp [exec, h, Loc.inLockShared, Loc.wf]
  case ls_cas k st =>
    have hst : st < 0x3FFFFFFF := hwf
    have e : st + 1 < 4294967296 := by omega
    by_cases hc : s = st
    · left
      subst hc
      refine ⟨by simp [exec, compare_exchange], s, hst, ?_, ?_⟩ <;>
        simp [exec, compare_exchange, e]
    · right
      simp [exec, compare_exchange, hc, Loc.inLockShared, Loc.wf]

theorem run_inLockShared (env : List (Bool × (Nat → Nat))) :
    ∀ (s : Nat) (l : Loc), l.inLockShared = true → l.wf →
      (run env s l).2.1.quiescent = true →
      (run env s l).2.1 = .shared_held ∧
      ∃ w evs, w < 0x3FFFFFFF ∧ (run env s l).2.2 = evs ++ [.cas w (w + 1) true] ∧
        (run env s l).1 = w + 1 := by
  induction env with
  | nil =>
    intro s l hl _ hq
    cases l <;> simp [Loc.inLockShared] at hl <;> simp [run, Loc.quiescent] at hq
  | cons e env ih =>
    intro s l hl hwf hq
    have hnq : l.quiescent = false := by
      cases l <;> simp [Loc.inLockShared] at hl <;> rfl
    rcases exec_inLockShared e.1 (e.2 s) l hl hwf with ⟨h1, w, hw, h2, h3⟩ | ⟨h1, h2⟩
    · have hr := run_quiescent env (w + 1) .shared_held rfl
      rw [run_cons e env s l hnq, h1, h3, h2, hr]
      exact ⟨rfl, w, [], hw, by simp, rfl⟩
    · simp only [run, hnq, Bool.false_eq_true, if_false] at hq ⊢
      obtain ⟨g1, w, evs, hw, g2, g3⟩ := ih _ _ h1 h2 hq
      exact ⟨g1, w, (exec e.1 (e.2 s) l).2.2 ++ evs, hw, by rw [g2, List.append_assoc], g3⟩

/-- C7: `lock_shared` uses the acquisition condition of `try_lock_shared` and has no exit
but the acquisition.  For every counter `k`, every observed word `w` and every word `cur`
found by the compare-exchange, one iteration of its loop leaves the loop iff
`try_lock_shared` on the same `w` and `cur` returns true; it then wrote `w + 1`, with
`w < 0x3FFFFFFF`, and otherwise it wrote nothing; in both cases it writes what
`try_lock_shared` writes and leaves the same word.  Under any interference and for any
number of accesses, a run of `lock_shared()` that has returned holds a shared acquisition
and ended with a successful compare-exchange from some `w < 0x3FFFFFFF` to `w + 1`.  When
the first observed word qualifies and the compare-exchange succeeds, it returns after these
two accesses without calling `yield_k`. -/
theorem lock_shared_refines_try_lock_shared (k w cur : Nat) :
    (lock_shared_iteration k w cur).1 = (try_lock_shared w cur).1 ∧
    (lock_shared_iteration k w cur).2.1 = (try_lock_shared w cur).2.1 ∧
    writes (lock_shared_iteration k w cur).2.2 = writes (try_lock_shared w cur).2.2 ∧
    ((lock_shared_iteration k w cur).1 = true →
      w < 0x3FFFFFFF ∧ cur = w ∧ writes (lock_shared_iteration k w cur).2.2 = [w + 1] ∧
      yields (lock_shared_iteration k w cur).2.2 = []) ∧
    ((lock_shared_iteration k w cur).1 = false →
      writes (lock_shared_iteration k w cur).2.2 = [] ∧
      yields (lock_shared_iteration k w cur).2.2 = [k]) ∧
    (∀ (env : List (Bool × (Nat → Nat))) (s : Nat),
      (run env s (.ls_load 0)).2.1.quiescent = true →
      (run env s (.ls_load 0)).2.1 = .shared_held ∧
      ∃ v evs, v < 0x3FFFFFFF ∧ (run env s (.ls_load 0)).2.2 = evs ++ [.cas v (v + 1) true] ∧
        (run env s (.ls_load 0)).1 = v + 1) ∧
    (w < 0x3FFFFFFF →
      run (alone 2) w (.ls_load 0) = (w + 1, .shared_held, [.load w, .cas w (w + 1) true]) ∧
      yields (run (alone 2) w (.ls_load 0)).2.2 = []) := by
  have hrun : ∀ (env : List (Bool × (Nat → Nat))) (s : Nat),
      (run env s (.ls_load 0)).2.1.quiescent = true →
      (run env s (.ls_load 0)).2.1 = .shared_held ∧
      ∃ v evs, v < 0x3FFFFFFF ∧ (run env s (.ls_load 0)).2.2 = evs ++ [.cas v (v + 1) true] ∧
        (run env s (.ls_load 0)).1 = v + 1 :=
    fun env s hq => run_inLockShared env s (.ls_load 0) rfl trivial hq
  have halone : w < 0x3FFFFFFF →
      run (alone 2) w (.ls_load 0) = (w + 1, .shared_held, [.load w, .cas w (w + 1) true]) := by
    intro h
    have e : (w + 1) % 2 ^ 32 = w + 1 := Nat.mod_eq_of_lt (by omega)
    have e1 : exec false w (.ls_load 0) = (w, .ls_cas 0 w, [.load w]) := by
      simp only [exec, if_pos h]
    have e0 : w + 1 < 4294967296 := by omega
    have e2 : exec false w (.ls_cas 0 w) = (w + 1, .shared_held, [.cas w (w + 1) true]) := by
      simp [exec, compare_exchange, e0]
    rw [alone_succ, run_cons (false, id) (alone 1) w (.ls_load 0) rfl]
    simp only [id, e1]
    rw [alone_succ, run_cons (false, id) (alone 0) w (.ls_cas 0 w) rfl]
    simp only [id, e2]
    rw [run_quiescent _ _ .shared_held rfl]
    rfl
  by_cases h : w < 0x3FFFFFFF
  · rw [lock_shared_iteration_below k w cur h, try_lock_shared_below w cur h]
    refine ⟨rfl, rfl, ?_, ?_, ?_, hrun, ?_⟩
    · by_cases hc : cur = w <;> simp [hc, writes]
    · intro hl
      have hc : cur = w := by simpa using hl
      simp [hc, h, writes, yields]
    · intro hl
      have hc : ¬ cur = w := by simpa using hl
      simp [hc, writes, yields]
    · intro _
      rw [halone h]
      exact ⟨rfl, rfl⟩
  · have hge : w ≥ 0x3FFFFFFF := by omega
    rw [lock_shared_iteration_above k w cur hge, try_lock_shared_above w cur hge]
    refine ⟨rfl, rfl, rfl, ?_, ?_, hrun, ?_⟩
    · intro hl
      simp at hl
    · intro _
      exact ⟨rfl, rfl⟩
    · intro hlt
      exact absurd hlt h

/-- C7, on the free word: the first iteration acquires, and a run against the word 0,
then 0 again, returns holding a shared acquisition. -/
theorem lock_shared_refines_try_lock_shared_witness :
    (lock_shared_iteration 0 0 0).1 = (try_lock_shared 0 0).1 ∧
    run (alone 2) 0 (.ls_load 0) = (1, .shared_held, [.load 0, .cas 0 1 true]) :=
  ⟨(lock_shared_refines_try_lock_shared 0 0 0).1,
    ((lock_shared_refines_try_lock_shared 0 0 0).2.2.2.2.2.2 (by norm_num)).1⟩

theorem lock_iteration_excl (k w cur : Nat) (h : w &&& 0x80000000 ≠ 0) :
    lock_iteration k w cur = (false, w, [.load w, .yield_k k]) := by
  simp [lock_iteration, pass, exec, h, Loc.atCas, Loc.quiescent]

theorem lock_iteration_free (k w cur : Nat) (h1 : w &&& 0x80000000 = 0)
    (h2 : w &&& 0x3FFFFFFF = 0) :
    lock_iteration k w cur =
      (decide (cur = w), if cur = w then 0x80000000 else cur,
        if cur = w then [.load w, .cas w 0x80000000 true]
        else [.load w, .cas w 0x80000000 false, .yield_k k]) := by
  by_cases hc : cur = w
  · subst hc
    simp [lock_iteration, pass, exec, h1, h2, Loc.atCas, compare_exchange, Loc.quiescent]
  · simp [lock_iteration, pass, exec, h1, h2, Loc.atCas, compare_exchange, Loc.quiescent, hc]

theorem lock_iteration_skip (k w cur : Nat) (h1 : w &&& 0x80000000 = 0)
    (h2 : w &&& 0x3FFFFFFF ≠ 0) (h3 : w &&& 0x4000000 ≠ 0) :
    lock_iteration k w cur = (false, w, [.load w, .yield_k k]) := by
  simp [lock_iteration, pass, exec, h1, h2, h3, Loc.atCas, Loc.quiescent]

theorem lock_iteration_pending (k w cur : Nat) (h1 : w &&& 0x80000000 = 0)
    (h2 : w &&& 0x3FFFFFFF ≠ 0) (h3 : w &&& 0x4000000 = 0) :
    lock_iteration k w cur =
      (false, if cur = w then w ||| 0x40000000 else cur,
        [.load w, .cas w (w ||| 0x40000000) (decide (cur = w)), .yield_k k]) := by
  by_cases hc : cur = w
  · subst hc
    simp [lock_iteration, pass, exec, h1, h2, h3, Loc.atCas, compare_exchange, Loc.quiescent]
  · simp [lock_iteration, pass, exec, h1, h2, h3, Loc.atCas, compare_exchange, Loc.quiescent,
      hc]

theorem exec_inLock (spurious : Bool) (s : Nat) (l : Loc)
    (hl : l.inLock = true) (hwf : l.wf) :
    ((exec spurious s l).2.1 = .excl_held ∧
      ∃ st, st &&& 0x80000000 = 0 ∧ st &&& 0x3FFFFFFF = 0 ∧ s = st ∧
        (exec spurious s l).2.2 = [.cas st 0x80000000 true] ∧
        (exec spurious s l).1 = 0x80000000) ∨
    ((exec spurious s l).2.1.inLock = true ∧ (exec spurious s l).2.1.wf) := by
  cases l <;> simp [Loc.inLock] at hl
  case l_load k =>
    right
    by_cases h1 : s &&& 0x80000000 = 0
    · by_cases h2 : s &&& 0x3FFFFFFF = 0
      · simp [exec, h1, h2, Loc.inLock, Loc.wf]
      · by_cases h3 : s &&& 0x4000000 = 0
        · simp [exec, h1, h2, h3, Loc.inLock, Loc.wf]
        · simp [exec, h1, h2, h3, Loc.inLock, Loc.wf]
    · simp [exec, h1, Loc.inLock, Loc.wf]
  case l_cas_excl k st =>
    have hst : st &&& 0x80000000 = 0 ∧ st &&& 0x3FFFFFFF = 0 := hwf
    by_cases hc : s = st
    · left
      subst hc
      refine ⟨by simp [exec, compare_exchange], s, hst.1, hst.2, rfl, ?_, ?_⟩ <;>
        simp [exec, compare_exchange]
    · right
      simp [exec, compare_exchange, hc, Loc.inLock, Loc.wf]
  case l_cas_pending k st =>
    right
    simp [exec, Loc.inLock, Loc.wf]

theorem run_inLock (env : List (Bool × (Nat → Nat))) :
    ∀ (s : Nat) (l : Loc), l.inLock = true → l.wf →
      (run env s l).2.1.quiescent = true →
      (run env s l).2.1 = .excl_held ∧
      ∃ st evs, st &&& 0x80000000 = 0 ∧ st &&& 0x3FFFFFFF = 0 ∧
        (run env s l).2.2 = evs ++ [.cas st 0x80000000 true] ∧
        (run env s l).1 = 0x80000000 := by
  induction env with
  | nil =>
    intro s l hl _ hq
    cases l <;> simp [Loc.inLock] at hl <;> simp [run, Loc.quiescent] at hq
  | cons e env ih =>
    intro s l hl hwf hq
    have hnq : l.quiescent = false := by
      cases l <;> simp [Loc.inLock] at hl <;> rfl
    rcases exec_inLock e.1 (e.2 s) l hl hwf with ⟨h1, st, hs1, hs2, _, h2, h3⟩ | ⟨h1, h2⟩
    · have hr := run_quiescent env 0x80000000 .excl_held rfl
      rw [run_cons e env s l hnq, h1, h3, h2, hr]
      exact ⟨rfl, st, [], hs1, hs2, by simp, rfl⟩
    · simp only [run, hnq, Bool.false_eq_true, if_false] at hq ⊢
      obtain ⟨g1, st, evs, hs1, hs2, g2, g3⟩ := ih _ _ h1 h2 hq
      exact ⟨g1, st, (exec e.1 (e.2 s) l).2.2 ++ evs, hs1, hs2,
        by rw [g2, List.append_assoc], g3⟩

/-- C6: `lock()`, cases (a) and (b), and its exit.  For every counter `k`, every observed
word `w` and every word `cur` found by the compare-exchange, one iteration of the loop:
(a) if bit 31 of `w` is set, writes nothing; (b) if bit 31 is clear and the low 30 bits are
zero, attempts a compare-exchange from `w` to exactly 0x80000000 and leaves the loop iff it
succeeds.  The iteration leaves the loop exactly when `try_lock` on the same `w` and `cur`
returns true, and then with the same word.  Under any interference and for any number of
accesses, a run of `lock()` that has returned holds the exclusive acquisition and ended
with a successful compare-exchange to 0x80000000 over a word with bit 31 clear and reader
count zero; from the free word, alone, it returns after two accesses. -/
theorem lock_refines_try_lock (k w cur : Nat) :
    (w &&& 0x80000000 ≠ 0 →
      lock_iteration k w cur = (false, w, [.load w, .yield_k k]) ∧
      writes (lock_iteration k w cur).2.2 = []) ∧
    (w &&& 0x80000000 = 0 → w &&& 0x3FFFFFFF = 0 →
      casAttempts (lock_iteration k w cur).2.2 = [(w, 0x80000000)] ∧
      ((lock_iteration k w cur).1 = true ↔ cur = w)) ∧
    (lock_iteration k w cur).1 = (try_lock w cur).1 ∧
    ((lock_iteration k w cur).1 = true →
      (lock_iteration k w cur).2.1 = (try_lock w cur).2.1 ∧
      (lock_iteration k w cur).2.1 = 0x80000000 ∧
      writes (lock_iteration k w cur).2.2 = [0x80000000] ∧
      w &&& 0x80000000 = 0 ∧ w &&& 0x3FFFFFFF = 0 ∧ cur = w) ∧
    (∀ (env : List (Bool × (Nat → Nat))) (s : Nat),
      (run env s (.l_load 0)).2.1.quiescent = true →
      (run env s (.l_load 0)).2.1 = .excl_held ∧
      ∃ st evs, st &&& 0x80000000 = 0 ∧ st &&& 0x3FFFFFFF = 0 ∧
        (run env s (.l_load 0)).2.2 = evs ++ [.cas st 0x80000000 true] ∧
        (run env s (.l_load 0)).1 = 0x80000000) ∧
    run (alone 2) 0 (.l_load 0) = (0x80000000, .excl_held, [.load 0, .cas 0 0x80000000 true]) := by
  have hrun : ∀ (env : List (Bool × (Nat → Nat))) (s : Nat),
      (run env s (.l_load 0)).2.1.quiescent = true →
      (run env s (.l_load 0)).2.1 = .excl_held ∧
      ∃ st evs, st &&& 0x80000000 = 0 ∧ st &&& 0x3FFFFFFF = 0 ∧
        (run env s (.l_load 0)).2.2 = evs ++ [.cas st 0x80000000 true] ∧
        (run env s (.l_load 0)).1 = 0x80000000 :=
    fun env s hq => run_inLock env s (.l_load 0) rfl trivial hq
  have halone : run (alone 2) 0 (.l_load 0) =
      (0x80000000, .excl_held, [.load 0, .cas 0 0x80000000 true]) := by
    have e1 : exec false 0 (.l_load 0) = (0, .l_cas_excl 0 0, [.load 0]) := by
      simp [exec]
    have e2 : exec false 0 (.l_cas_excl 0 0) =
        (0x80000000, .excl_held, [.cas 0 0x80000000 true]) := by
      simp [exec, compare_exchange]
    rw [alone_succ, run_cons (false, id) (alone 1) 0 (.l_load 0) rfl]
    simp only [id, e1]
    rw [alone_succ, run_cons (false, id) (alone 0) 0 (.l_cas_excl 0 0) rfl]
    simp only [id, e2]
    rw [run_quiescent _ _ .excl_held rfl]
    rfl
  refine ⟨?_, ?_, ?_, ?_, hrun, halone⟩
  · intro h
    rw [lock_iteration_excl k w cur h]
    exact ⟨rfl, rfl⟩
  · intro h1 h2
    rw [lock_iteration_free k w cur h1 h2]
    by_cases hc : cur = w <;> simp [hc, casAttempts]
  · by_cases h1 : w &&& 0x80000000 = 0
    · by_cases h2 : w &&& 0x3FFFFFFF = 0
      · rw [lock_iteration_free k w cur h1 h2, try_lock_free w cur h1 h2]
      · rw [try_lock_busy w cur (Or.inr h2)]
        by_cases h3 : w &&& 0x4000000 = 0
        · rw [lock_iteration_pending k w cur h1 h2 h3]
        · rw [lock_iteration_skip k w cur h1 h2 h3]
    · rw [lock_iteration_excl k w cur h1, try_lock_busy w cur (Or.inl h1)]
  · intro hl
    by_cases h1 : w &&& 0x80000000 = 0
    · by_cases h2 : w &&& 0x3FFFFFFF = 0
      · rw [lock_iteration_free k w cur h1 h2] at hl ⊢
        rw [try_lock_free w cur h1 h2]
        have hc : cur = w := by simpa using hl
        simp [hc, writes, h1, h2]
      · by_cases h3 : w &&& 0x4000000 = 0
        · rw [lock_iteration_pending k w cur h1 h2 h3] at hl
          simp at hl
        · rw [lock_iteration_skip k w cur h1 h2 h3] at hl
          simp at hl
    · rw [lock_iteration_excl k w cur h1] at hl
      simp at hl

/-- C6, at the free word with no interference. -/
theorem lock_refines_try_lock_witness :
    (lock_iteration 0 0 0).2.1 = 0x80000000 ∧ (0 : Nat) &&& 0x80000000 = 0 :=
  ⟨((lock_refines_try_lock 0 0 0).2.2.2.1 (by simp [lock_iteration, pass, exec, Loc.atCas, compare_exchange, Loc.quiescent])).2.1,
    ((lock_refines_try_lock 0 0 0).2.2.2.1 (by simp [lock_iteration, pass, exec, Loc.atCas, compare_exchange, Loc.quiescent])).2.2.2.1⟩

/-! ## The writer-pending test of `lock()` -/

/-- C8: `lock()`, case (c), at the word 0x04000000, which has bit 31 clear and a nonzero
reader count.  Whatever the counter and whatever the other threads do, the iteration takes
the branch "writer pending bit already set, nothing to do": it attempts no compare-exchange,
calls `yield_k` and leaves the word 0x04000000, where setting the writer-pending flag would
give 0x44000000.  The test of line 123 is against 0x4000000, bit 26. -/
theorem lock_pending_branch_taken (k cur : Nat) :
    (0x04000000 : Nat) &&& 0x80000000 = 0 ∧ (0x04000000 : Nat) &&& 0x3FFFFFFF ≠ 0 ∧
    lock_iteration k 0x04000000 cur = (false, 0x04000000, [.load 0x04000000, .yield_k k]) ∧
    casAttempts (lock_iteration k 0x04000000 cur).2.2 = [] ∧
    (0x04000000 : Nat) ||| 0x40000000 = 0x44000000 := by
  have h1 : (0x04000000 : Nat) &&& 0x80000000 = 0 := rfl
  have h2 : (0x04000000 : Nat) &&& 0x3FFFFFFF ≠ 0 := by simp
  have h3 : (0x04000000 : Nat) &&& 0x4000000 ≠ 0 := by simp
  have e := lock_iteration_skip k 0x04000000 cur h1 h2 h3
  refine ⟨h1, h2, e, ?_, rfl⟩
  rw [e]
  rfl

/-! ## Calls in a row -/

theorem try_lock_shared_calls_below (n : Nat) :
    ∀ w, w + n ≤ 0x3FFFFFFF → try_lock_shared_calls n w = (List.replicate n true, w + n) := by
  induction n with
  | zero => intro w _; rfl
  | succ n ih =>
    intro w h
    have hw : w < 0x3FFFFFFF := by omega
    have e := try_lock_shared_below w w hw
    simp only [try_lock_shared_calls, e, if_true, decide_True]
    have e2 : w + 1 + n = w + (n + 1) := by omega
    rw [ih (w + 1) (by omega), e2]
    rfl

theorem try_lock_shared_calls_add (n m : Nat) :
    ∀ w, try_lock_shared_calls (n + m) w =
      ((try_lock_shared_calls n w).1 ++ (try_lock_shared_calls m (try_lock_shared_calls n w).2).1,
        (try_lock_shared_calls m (try_lock_shared_calls n w).2).2) := by
  induction n with
  | zero => intro w; simp [try_lock_shared_calls]
  | succ n ih =>
    intro w
    have e : n + 1 + m = (n + m) + 1 := by omega
    rw [e]
    simp only [try_lock_shared_calls, ih, List.cons_append]

/-! ## Any number of readers -/

theorem and_bit30 (w : Nat) :
    w &&& 0x40000000 = if w / 2 ^ 30 % 2 = 1 then 2 ^ 30 else 0 := by
  have h := Nat.and_two_pow w 30
  rw [Nat.testBit_to_div_mod] at h
  have e : (0x40000000 : Nat) = 2 ^ 30 := by norm_num
  rw [e, h]
  split <;> simp_all

theorem and_bit30_eq_zero (w : Nat) : w &&& 0x40000000 = 0 ↔ w / 2 ^ 30 % 2 = 0 := by
  rw [and_bit30]
  have h : w / 2 ^ 30 % 2 = 0 ∨ w / 2 ^ 30 % 2 = 1 := by omega
  rcases h with h | h
  · rw [if_neg (by omega)]
    exact ⟨fun _ => h, fun _ => rfl⟩
  · rw [if_pos h]
    constructor
    · intro h2
      norm_num at h2
    · intro h2
      omega

/-- C10, the claim as stated fails: the word 0x3FFFFFFF has bit 31 and bit 30 clear, and an
uncontended `try_lock_shared` on it returns false and leaves it unchanged; so the call
after 0x3FFFFFFF successful ones from the free word returns false. -/
theorem try_lock_shared_saturated :
    (0x3FFFFFFF : Nat) &&& 0x80000000 = 0 ∧ (0x3FFFFFFF : Nat) &&& 0x40000000 = 0 ∧
    try_lock_shared 0x3FFFFFFF 0x3FFFFFFF = (false, 0x3FFFFFFF, [.load 0x3FFFFFFF]) ∧
    try_lock_shared_calls 0x40000000 0 =
      (List.replicate 0x3FFFFFFF true ++ [false], 0x3FFFFFFF) := by
  have e := try_lock_shared_above 0x3FFFFFFF 0x3FFFFFFF (Nat.le_refl _)
  refine ⟨rfl, rfl, e, ?_⟩
  have h := try_lock_shared_calls_add 0x3FFFFFFF 1 0
  have h1 := try_lock_shared_calls_below 0x3FFFFFFF 0 (by omega)
  have h2 : try_lock_shared_calls 1 0x3FFFFFFF = ([false], 0x3FFFFFFF) := by
    simp only [try_lock_shared_calls, e]
  have h3 : (0 : Nat) + 0x3FFFFFFF = 0x3FFFFFFF := Nat.zero_add _
  have h4 : (0x3FFFFFFF : Nat) + 1 = 0x40000000 := rfl
  rw [h1, h3, h4] at h
  rw [h]
  simp only [h2]

/-- C10, amended: shared concurrency for any number of holders up to the maximum reader
count.  For every `k` up to 0x3FFFFFFF, starting from the free word 0, `k` consecutive
uncontended calls of `try_lock_shared` with no unlock in between all return true and leave
the word `k`.  For every 32-bit word `w` with bit 31 and bit 30 both clear, an uncontended
`try_lock_shared` returns true iff the reader count of `w` is below 0x3FFFFFFF, and then
leaves `w + 1`. -/
theorem try_lock_shared_any_number_below_max (k w : Nat) :
    (k ≤ 0x3FFFFFFF → try_lock_shared_calls k 0 = (List.replicate k true, k)) ∧
    (w < 2 ^ 32 → w &&& 0x80000000 = 0 → w &&& 0x40000000 = 0 →
      ((try_lock_shared w w).1 = true ↔ w &&& 0x3FFFFFFF < 0x3FFFFFFF) ∧
      ((try_lock_shared w w).1 = true → (try_lock_shared w w).2.1 = w + 1)) := by
  constructor
  · intro hk
    have h := try_lock_shared_calls_below k 0 (by omega)
    rw [Nat.zero_add] at h
    exact h
  · intro hw h31 h30
    rw [and_mask30]
    have b31 := (and_bit31_eq_zero w).1 h31
    have b30 := (and_bit30_eq_zero w).1 h30
    by_cases h : w < 0x3FFFFFFF
    · rw [try_lock_shared_below w w h]
      simp
      omega
    · rw [try_lock_shared_above w w (by omega)]
      simp
      omega

/-- C10 amended, at three readers and at the word 5. -/
theorem try_lock_shared_any_number_below_max_witness :
    try_lock_shared_calls 3 0 = ([true, true, true], 3) ∧
    (try_lock_shared 5 5).2.1 = 6 :=
  ⟨(try_lock_shared_any_number_below_max 3 5).1 (by norm_num),
    ((try_lock_shared_any_number_below_max 3 5).2 (by norm_num) rfl rfl).2
      ((((try_lock_shared_any_number_below_max 3 5).2 (by norm_num) rfl rfl).1).2 (by decide))⟩

/-! ## Saturation of the reader count -/

theorem shared_step_word (w w2 : Nat) (h : SharedAcquireStep w w2) :
    w2 = w ∨ (w < 0x3FFFFFFF ∧ w2 = w + 1) := by
  obtain ⟨l, hl, hwf, he⟩ := h
  rcases hl with hl | ⟨st, hl⟩ | ⟨k, hl⟩ | ⟨k, st, hl⟩
  · subst hl
    left
    rw [← he]
    by_cases hc : w ≥ 0x3FFFFFFF <;> simp [exec, hc]
  · subst hl
    have hst : st < 0x3FFFFFFF := hwf
    have e : (st + 1) % 2 ^ 32 = st + 1 := Nat.mod_eq_of_lt (by omega)
    by_cases hc : w = st
    · right
      subst hc
      refine ⟨hst, ?_⟩
      rw [← he]
      simp only [exec, compare_exchange, and_self, if_true, e]
    · left
      rw [← he]
      simp [exec, compare_exchange, hc]
  · subst hl
    left
    rw [← he]
    by_cases hc : w < 0x3FFFFFFF <;> simp [exec, hc]
  · subst hl
    have hst : st < 0x3FFFFFFF := hwf
    have e : (st + 1) % 2 ^ 32 = st + 1 := Nat.mod_eq_of_lt (by omega)
    by_cases hc : w = st
    · right
      subst hc
      refine ⟨hst, ?_⟩
      rw [← he]
      simp only [exec, compare_exchange, and_self, if_true, e]
    · left
      rw [← he]
      simp [exec, compare_exchange, hc]

theorem shared_chain_word (w w1 : Nat) (h : Relation.ReflTransGen SharedAcquireStep w w1) :
    w1 = w ∨ (w < w1 ∧ w1 ≤ 0x3FFFFFFF) := by
  induction h with
  | refl => left; rfl
  | tail _ hs ih =>
    rcases shared_step_word _ _ hs with h2 | ⟨h2, h3⟩
    · rw [h2]
      exact ih
    · rcases ih with ih | ih
      · right
        omega
      · right
        omega

theorem writes_try_lock_shared (w cur : Nat) :
    writes (try_lock_shared w cur).2.2 = if w < 0x3FFFFFFF ∧ cur = w then [w + 1] else [] := by
  by_cases h : w < 0x3FFFFFFF
  · rw [try_lock_shared_below w cur h]
    by_cases hc : cur = w <;> simp [writes, hc, h]
  · rw [try_lock_shared_above w cur (by omega)]
    simp [writes, h]

theorem writes_lock_shared_iteration (k w cur : Nat) :
    writes (lock_shared_iteration k w cur).2.2 =
      if w < 0x3FFFFFFF ∧ cur = w then [w + 1] else [] := by
  by_cases h : w < 0x3FFFFFFF
  · rw [lock_shared_iteration_below k w cur h]
    by_cases hc : cur = w <;> simp [writes, hc, h]
  · rw [lock_shared_iteration_above k w cur (by omega)]
    simp [writes, h]

/-- C9: reader-count saturation without overflow.  Whenever `try_lock_shared` or an
iteration of `lock_shared` writes, the observed word `w` is below 0x3FFFFFFF and the word
written is `w + 1`, computed without 32-bit wraparound, with bits 31 and 30 clear as in `w`
and the reader count of `w` plus one, at most 0x3FFFFFFF.  Along every sequence of atomic
accesses of `try_lock_shared` and `lock_shared` calls, from any word `w` to a word `w1`,
bits 31 and 30 are those of `w` (no carry out of the reader count), the reader count does
not decrease and the word does not pass 0x3FFFFFFF unless it started there or above, in
which case it never changes.  At the word 0x3FFFFFFF `try_lock_shared` returns false and
leaves the word, as it does on every word with bit 31 set. -/
theorem reader_count_saturates (k w cur : Nat) :
    (writes (try_lock_shared w cur).2.2 ≠ [] ∨
        writes (lock_shared_iteration k w cur).2.2 ≠ [] →
      w < 0x3FFFFFFF ∧ cur = w ∧
      writes (try_lock_shared w cur).2.2 = [w + 1] ∧
      writes (lock_shared_iteration k w cur).2.2 = [w + 1] ∧
      (w + 1) % 2 ^ 32 = w + 1 ∧
      (decode w).exclusive = false ∧ (decode w).writer_pending = false ∧
      decode (w + 1) =
        { exclusive := false, writer_pending := false, readers := (decode w).readers + 1 } ∧
      (decode (w + 1)).readers ≤ 0x3FFFFFFF) ∧
    (∀ w1, Relation.ReflTransGen SharedAcquireStep w w1 →
      (decode w1).exclusive = (decode w).exclusive ∧
      (decode w1).writer_pending = (decode w).writer_pending ∧
      (decode w).readers ≤ (decode w1).readers ∧ (decode w1).readers ≤ 0x3FFFFFFF ∧
      w1 - w = (decode w1).readers - (decode w).readers ∧
      (w ≥ 0x3FFFFFFF → w1 = w)) ∧
    try_lock_shared 0x3FFFFFFF cur = (false, 0x3FFFFFFF, [.load 0x3FFFFFFF]) ∧
    (w &&& 0x80000000 ≠ 0 → try_lock_shared w cur = (false, w, [.load w])) := by
  refine ⟨?_, ?_, try_lock_shared_above _ _ (Nat.le_refl _), ?_⟩
  · intro h
    rw [writes_try_lock_shared, writes_lock_shared_iteration] at h
    have hc : w < 0x3FFFFFFF ∧ cur = w := by
      by_contra hn
      simp [hn] at h
    rw [writes_try_lock_shared, writes_lock_shared_iteration, if_pos hc]
    obtain ⟨hw, hcur⟩ := hc
    have d := decode_succ w hw
    have h3 : w / 2 ^ 31 % 2 = 0 := by omega
    have h4 : w / 2 ^ 30 % 2 = 0 := by omega
    have f1 : (decode w).exclusive = false := by
      simp only [decode, testBit31, h3]
      rfl
    have f2 : (decode w).writer_pending = false := by
      simp only [decode, testBit30, h4]
      rfl
    refine ⟨hw, hcur, rfl, rfl, Nat.mod_eq_of_lt (by omega), f1, f2, ?_, ?_⟩
    · rw [d]
      simp only [f1, f2]
    · simp only [decode]
      omega
  · intro w1 hch
    have hc := shared_chain_word w w1 hch
    have e1 : w1 / 2 ^ 31 % 2 = w / 2 ^ 31 % 2 := by omega
    have e2 : w1 / 2 ^ 30 % 2 = w / 2 ^ 30 % 2 := by omega
    refine ⟨?_, ?_, ?_, ?_, ?_, ?_⟩
    · simp only [decode, testBit31, e1]
    · simp only [decode, testBit30, e2]
    · simp only [decode]
      omega
    · simp only [decode]
      omega
    · simp only [decode]
      omega
    · intro hge
      omega
  · intro h
    have hb : w / 2 ^ 31 % 2 ≠ 0 := fun hh => h ((and_bit31_eq_zero w).2 hh)
    exact try_lock_shared_above w cur (by omega)

/-- C9, at the word 5 and along the two accesses of a `try_lock_shared` call from it. -/
theorem reader_count_saturates_witness :
    writes (try_lock_shared 5 5).2.2 = [6] ∧
    (decode 6).writer_pending = (decode 5).writer_pending ∧
    try_lock_shared 0x80000000 0 = (false, 0x80000000, [.load 0x80000000]) :=
  ⟨((reader_count_saturates 0 5 5).1 (Or.inl (by simp [writes_try_lock_shared]))).2.2.1,
    ((reader_count_saturates 0 5 5).2.1 6
      (Relation.ReflTransGen.tail
        (Relation.ReflTransGen.tail Relation.ReflTransGen.refl
          ⟨.tls_load, Or.inl rfl, trivial, rfl⟩)
        ⟨.tls_cas 5, Or.inr (Or.inl ⟨5, rfl⟩), by simp [Loc.wf], rfl⟩)).2.1,
    (reader_count_saturates 0 0x80000000 0).2.2.2 (by simp)⟩

/-! ## Balanced use -/

theorem run_lock_shared_alone (w : Nat) (h : w < 0x3FFFFFFF) :
    run (alone 2) w (.ls_load 0) = (w + 1, .shared_held, [.load w, .cas w (w + 1) true]) := by
  have e0 : w + 1 < 4294967296 := by omega
  have e1 : exec false w (.ls_load 0) = (w, .ls_cas 0 w, [.load w]) := by
    simp only [exec, if_pos h]
  have e2 : exec false w (.ls_cas 0 w) = (w + 1, .shared_held, [.cas w (w + 1) true]) := by
    simp [exec, compare_exchange, e0]
  rw [alone_succ, run_cons (false, id) (alone 1) w (.ls_load 0) rfl]
  simp only [id, e1]
  rw [alone_succ, run_cons (false, id) (alone 0) w (.ls_cas 0 w) rfl]
  simp only [id, e2]
  rw [run_quiescent _ _ .shared_held rfl]
  rfl

theorem lock_shared_calls_below (n : Nat) :
    ∀ w, w + n ≤ 0x3FFFFFFF →
      lock_shared_calls n w = (List.replicate n .shared_held, w + n) := by
  induction n with
  | zero => intro w _; rfl
  | succ n ih =>
    intro w h
    have e := run_lock_shared_alone w (by omega)
    have e2 : w + 1 + n = w + (n + 1) := by omega
    simp only [lock_shared_calls, e]
    rw [ih (w + 1) (by omega), e2]
    rfl

theorem unlock_shared_calls_zero (w : Nat) : unlock_shared_calls 0 w = w := by
  unfold unlock_shared_calls
  exact Function.iterate_zero_apply _ _

theorem unlock_shared_calls_succ (n w : Nat) :
    unlock_shared_calls (n + 1) w = unlock_shared_calls n (unlock_shared w).1 := by
  unfold unlock_shared_calls
  exact Function.iterate_succ_apply _ _ _

theorem unlock_shared_calls_below (j : Nat) :
    ∀ w, j ≤ w → w ≤ 0x3FFFFFFF → unlock_shared_calls j w = w - j := by
  induction j with
  | zero =>
    intro w _ _
    exact unlock_shared_calls_zero w
  | succ j ih =>
    intro w h1 h2
    have hw : w < 2 ^ 32 := by omega
    have h3 : j ≤ w - 1 := by omega
    have h4 : w - 1 ≤ 0x3FFFFFFF := by omega
    have h5 : w - 1 - j = w - (j + 1) := by omega
    have e := unlock_shared_other w hw (by omega) (by omega)
    rw [unlock_shared_calls_succ, e, ih (w - 1) h3 h4, h5]

/-- C11: return to free after balanced shared use.  For every `n` up to 0x3FFFFFFF, from
the word 0, `n` uncontended calls of `try_lock_shared` all return true and leave the word
`n`, and so do `n` uncontended calls of `lock_shared`, each returning holding a shared
acquisition; from the word `n`, after `j` calls of `unlock_shared`, for every `j` up to
`n`, the word is `n - j`, and after all `n` it is 0. -/
theorem balanced_shared_use_returns_to_free (n : Nat) (h : n ≤ 0x3FFFFFFF) :
    try_lock_shared_calls n 0 = (List.replicate n true, n) ∧
    lock_shared_calls n 0 = (List.replicate n .shared_held, n) ∧
    (∀ j, j ≤ n → unlock_shared_calls j n = n - j) ∧
    unlock_shared_calls n (try_lock_shared_calls n 0).2 = 0 ∧
    unlock_shared_calls n (lock_shared_calls n 0).2 = 0 := by
  have h1 := try_lock_shared_calls_below n 0 (by omega)
  have h2 := lock_shared_calls_below n 0 (by omega)
  rw [Nat.zero_add] at h1 h2
  have h3 : ∀ j, j ≤ n → unlock_shared_calls j n = n - j :=
    fun j hj => unlock_shared_calls_below j n hj h
  refine ⟨h1, h2, h3, ?_, ?_⟩
  · rw [h1, h3 n (Nat.le_refl _)]
    omega
  · rw [h2, h3 n (Nat.le_refl _)]
    omega

/-- C11, with three readers. -/
theorem balanced_shared_use_returns_to_free_witness :
    try_lock_shared_calls 3 0 = ([true, true, true], 3) ∧
    unlock_shared_calls 3 (try_lock_shared_calls 3 0).2 = 0 :=
  ⟨(balanced_shared_use_returns_to_free 3 (by norm_num)).1,
    (balanced_shared_use_returns_to_free 3 (by norm_num)).2.2.2.1⟩

/-! ## The exclusive round trip -/

theorem try_lock_zero : try_lock 0 0 = (true, 0x80000000, [.load 0, .cas 0 0x80000000 true]) := by
  have e := try_lock_free 0 0 rfl rfl
  rw [e]
  rfl

theorem run_lock_alone_zero :
    run (alone 2) 0 (.l_load 0) = (0x80000000, .excl_held, [.load 0, .cas 0 0x80000000 true]) := by
  have e1 : exec false 0 (.l_load 0) = (0, .l_cas_excl 0 0, [.load 0]) := by
    simp [exec]
  have e2 : exec false 0 (.l_cas_excl 0 0) =
      (0x80000000, .excl_held, [.cas 0 0x80000000 true]) := by
    simp [exec, compare_exchange]
  rw [alone_succ, run_cons (false, id) (alone 1) 0 (.l_load 0) rfl]
  simp only [id, e1]
  rw [alone_succ, run_cons (false, id) (alone 0) 0 (.l_cas_excl 0 0) rfl]
  simp only [id, e2]
  rw [run_quiescent _ _ .excl_held rfl]
  rfl

theorem try_lock_round_trips_zero (n : Nat) :
    try_lock_round_trips n 0 = (List.replicate n (true, 0x80000000), 0) := by
  induction n with
  | zero => rfl
  | succ n ih =>
    have e : unlock 0x80000000 = (0, [.store 0]) := rfl
    simp only [try_lock_round_trips, try_lock_zero, e, ih]
    rfl

theorem lock_round_trips_zero (n : Nat) :
    lock_round_trips n 0 = (List.replicate n (.excl_held, 0x80000000), 0) := by
  induction n with
  | zero => rfl
  | succ n ih =>
    have e : unlock 0x80000000 = (0, [.store 0]) := rfl
    simp only [lock_round_trips, run_lock_alone_zero, e, ih]
    rfl

/-- C12: the exclusive round trip.  From the free word 0 with no contention, `try_lock`
returns true and leaves 0x80000000, and the `unlock` that follows leaves 0; `lock()` from
0 returns after its first iteration holding the exclusive acquisition, the word being
0x80000000, and the `unlock` that follows leaves 0.  Repeated `n` times, for every `n`,
each round trip does the same and the word at the end is 0. -/
theorem exclusive_round_trip (n : Nat) :
    try_lock 0 0 = (true, 0x80000000, [.load 0, .cas 0 0x80000000 true]) ∧
    unlock (try_lock 0 0).2.1 = (0, [.store 0]) ∧
    run (alone 2) 0 (.l_load 0) =
      (0x80000000, .excl_held, [.load 0, .cas 0 0x80000000 true]) ∧
    yields (run (alone 2) 0 (.l_load 0)).2.2 = [] ∧
    unlock (run (alone 2) 0 (.l_load 0)).1 = (0, [.store 0]) ∧
    try_lock_round_trips n 0 = (List.replicate n (true, 0x80000000), 0) ∧
    lock_round_trips n 0 = (List.replicate n (.excl_held, 0x80000000), 0) := by
  refine ⟨try_lock_zero, ?_, run_lock_alone_zero, ?_, ?_, try_lock_round_trips_zero n,
    lock_round_trips_zero n⟩
  · rw [try_lock_zero]
    rfl
  · rw [run_lock_alone_zero]
    rfl
  · rw [run_lock_alone_zero]
    rfl

/-! ## The single-threaded scenario -/

/-- C13: the single-threaded scenario of the spec, for every number `n` of readers from 1
to 0x3FFFFFFF.  From the word 0: the `n` calls of `try_lock_shared` each return true; the
`try_lock` that follows returns false and leaves the word `n`; after `n` calls of
`unlock_shared` the word is 0 and `try_lock` returns true, leaving 0x80000000; and after
`unlock` the word is 0. -/
theorem single_thread_scenario_spec (n : Nat) (h1 : 1 ≤ n) (h2 : n ≤ 0x3FFFFFFF) :
    single_thread_scenario n =
      { readers := List.replicate n true, writer_early := false, word_early := n,
        word_released := 0, writer_late := true, word_held := 0x80000000, word_end := 0 } := by
  have a := try_lock_shared_calls_below n 0 (by omega)
  rw [Nat.zero_add] at a
  have hr : n &&& 0x3FFFFFFF ≠ 0 := by
    rw [and_mask30]
    omega
  have b := try_lock_busy n n (Or.inr hr)
  have c := unlock_shared_calls_below n n (Nat.le_refl _) h2
  rw [Nat.sub_self] at c
  have e : unlock 0x80000000 = (0, [.store 0]) := rfl
  unfold single_thread_scenario
  simp only [a, b, c, try_lock_zero, e]

/-- C13, the scenario of the spec: two readers. -/
theorem single_thread_scenario_spec_witness :
    single_thread_scenario 2 =
      { readers := [true, true], writer_early := false, word_early := 2,
        word_released := 0, writer_late := true, word_held := 0x80000000, word_end := 0 } :=
  single_thread_scenario_spec 2 (by norm_num) (by norm_num)

/-! ## The backoff decision -/

/-- C14: the backoff decision.  For every counter `k`, `yield_k` makes exactly one call: the
CPU pause and no sleep when `k` is below 49152, the thread sleep and no pause from 49152 on,
hence whenever the threshold is exceeded.  The decision is a function of `k` alone, and it
is monotone: if `yield_k k` sleeps, so does `yield_k k2` for every `k2` from `k` on. -/
theorem yield_k_decision (k k2 : Nat) :
    (yield_k k).length = 1 ∧
    (k < 49152 → yield_k k = [.sp_thread_pause]) ∧
    (49152 ≤ k → yield_k k = [.sp_thread_sleep]) ∧
    (49152 < k → yield_k k = [.sp_thread_sleep]) ∧
    (yield_k k = [.sp_thread_sleep] → k ≤ k2 → yield_k k2 = [.sp_thread_sleep]) := by
  have hlt : ∀ j, j < 49152 → yield_k j = [.sp_thread_pause] := by
    intro j hj
    unfold yield_k
    rw [if_pos hj]
  have hge : ∀ j, 49152 ≤ j → yield_k j = [.sp_thread_sleep] := by
    intro j hj
    unfold yield_k
    rw [if_neg (by omega)]
  refine ⟨?_, hlt k, hge k, fun h => hge k (by omega), ?_⟩
  · by_cases h : k < 49152
    · rw [hlt k h]
      rfl
    · rw [hge k (by omega)]
      rfl
  · intro hs hle
    by_cases h : k < 49152
    · rw [hlt k h] at hs
      simp at hs
    · exact hge k2 (by omega)

/-- C14, at the last pausing counter, at the threshold and at the largest counter. -/
theorem yield_k_decision_witness :
    yield_k 49151 = [.sp_thread_pause] ∧ yield_k 49152 = [.sp_thread_sleep] ∧
    yield_k 0xFFFFFFFF = [.sp_thread_sleep] :=
  ⟨(yield_k_decision 49151 0).2.1 (by norm_num),
    (yield_k_decision 49152 0).2.2.1 (by norm_num),
    (yield_k_decision 49152 0xFFFFFFFF).2.2.2.2
      ((yield_k_decision 49152 0).2.2.1 (by norm_num)) (by norm_num)⟩

/-! ## Which words admit a writer -/

theorem try_lock_true_iff (w : Nat) (hw : w < 2 ^ 32) :
    (try_lock w w).1 = true ↔ (w = 0 ∨ w = 0x40000000) := by
  by_cases h1 : w &&& 0x80000000 = 0
  · by_cases h2 : w &&& 0x3FFFFFFF = 0
    · rw [try_lock_free w w h1 h2]
      have b1 := (and_bit31_eq_zero w).1 h1
      rw [and_mask30] at h2
      simp only [decide_True, true_iff]
      omega
    · rw [try_lock_busy w w (Or.inr h2)]
      rw [and_mask30] at h2
      simp only [Bool.false_eq_true, false_iff]
      omega
  · rw [try_lock_busy w w (Or.inl h1)]
    have b1 : w / 2 ^ 31 % 2 ≠ 0 := fun hh => h1 ((and_bit31_eq_zero w).2 hh)
    simp only [Bool.false_eq_true, false_iff]
    omega

theorem lock_iteration_acquires (k w cur : Nat) :
    (lock_iteration k w cur).1 = (try_lock w cur).1 := by
  by_cases h1 : w &&& 0x80000000 = 0
  · by_cases h2 : w &&& 0x3FFFFFFF = 0
    · rw [lock_iteration_free k w cur h1 h2, try_lock_free w cur h1 h2]
    · rw [try_lock_busy w cur (Or.inr h2)]
      by_cases h3 : w &&& 0x4000000 = 0
      · rw [lock_iteration_pending k w cur h1 h2 h3]
      · rw [lock_iteration_skip k w cur h1 h2 h3]
  · rw [lock_iteration_excl k w cur h1, try_lock_busy w cur (Or.inl h1)]

/-- C17, the claim as stated fails: from the word 0x80000000 of the state ExclusiveLocked an
uncontended `try_lock` returns false and an iteration of `lock()` does not acquire, neither
attempting a compare-exchange. -/
theorem try_lock_fails_when_exclusive :
    try_lock 0x80000000 0x80000000 = (false, 0x80000000, [.load 0x80000000]) ∧
    lock_iteration 0 0x80000000 0x80000000 =
      (false, 0x80000000, [.load 0x80000000, .yield_k 0]) :=
  ⟨try_lock_busy 0x80000000 0x80000000 (Or.inl (by simp)),
    lock_iteration_excl 0 0x80000000 0x80000000 (by simp)⟩

/-- C17, amended: the words from which a writer can directly succeed.  Among all 32-bit
words, an uncontended `try_lock` returns true, and equivalently an iteration of `lock()`
acquires, exactly from the words with bit 31 clear and reader count zero, which are 0 (Free)
and 0x40000000 (writer pending, no reader); of the four conceptual states that is Free
alone.  From the word 0x80000000 (ExclusiveLocked) and from every word with bit 31 clear and
a nonzero reader count (SharedLocked, with or without the pending flag), `try_lock` returns
false and an iteration of `lock()` does not acquire. -/
theorem writer_succeeds_iff (k w : Nat) (hw : w < 2 ^ 32) :
    ((try_lock w w).1 = true ↔ (w = 0 ∨ w = 0x40000000)) ∧
    ((lock_iteration k w w).1 = true ↔ (w = 0 ∨ w = 0x40000000)) ∧
    ((try_lock w w).1 = true → (try_lock w w).2.1 = 0x80000000) ∧
    (w = 0x80000000 → (try_lock w w).1 = false ∧ (lock_iteration k w w).1 = false) ∧
    (w &&& 0x80000000 = 0 → w &&& 0x3FFFFFFF ≠ 0 →
      (try_lock w w).1 = false ∧ (lock_iteration k w w).1 = false) := by
  have t := try_lock_true_iff w hw
  have e := lock_iteration_acquires k w w
  refine ⟨t, by rw [e]; exact t, ?_, ?_, ?_⟩
  · intro h
    rcases t.1 h with h0 | h0
    · subst h0
      rw [try_lock_zero]
    · subst h0
      rw [try_lock_free 0x40000000 0x40000000 rfl rfl]
      rfl
  · intro h0
    subst h0
    rw [e, try_lock_busy 0x80000000 0x80000000 (Or.inl (by simp))]
    exact ⟨rfl, rfl⟩
  · intro h1 h2
    rw [e, try_lock_busy w w (Or.inr h2)]
    exact ⟨rfl, rfl⟩

/-- C17 amended, at the free word, at the exclusive word and at one reader with the
writer-pending flag. -/
theorem writer_succeeds_iff_witness :
    (try_lock 0 0).1 = true ∧ (try_lock 0x80000000 0x80000000).1 = false ∧
    (lock_iteration 0 0x40000001 0x40000001).1 = false :=
  ⟨(writer_succeeds_iff 0 0 (by norm_num)).1.2 (Or.inl rfl),
    ((writer_succeeds_iff 0 0x80000000 (by norm_num)).2.2.2.1 rfl).1,
    ((writer_succeeds_iff 0 0x40000001 (by norm_num)).2.2.2.2 rfl (by simp)).2⟩

/-! ## Unlocking what is not held -/

theorem exec_us_fetch_sub_zero (spurious : Bool) :
    exec spurious 0 .us_fetch_sub = (0xFFFFFFFF, .idle, [.fetch_sub 0]) := by
  simp [exec, fetch_sub, unlock_shared_test]

theorem run_unlock_shared_zero :
    run (alone 2) 0 .us_fetch_sub = (0xFFFFFFFF, .idle, [.fetch_sub 0]) := by
  rw [alone_succ, run_cons (false, id) (alone 1) 0 .us_fetch_sub rfl]
  simp only [id, exec_us_fetch_sub_zero]
  rw [run_quiescent _ _ .idle rfl]
  rfl

theorem run_unlock_shared_last :
    run (alone 2) 0x40000001 .us_fetch_sub =
      (0, .idle, [.fetch_sub 0x40000001, .cas 0x40000000 0 true]) := by
  have e1 := exec_us_fetch_sub false 0x40000001 (by norm_num) (by norm_num)
  have e3 := exec_us_cas_won
  rw [alone_succ, run_cons (false, id) (alone 1) _ .us_fetch_sub rfl]
  simp only [id, e1]
  norm_num
  rw [alone_succ, run_cons (false, id) (alone 0) _ (.us_cas 0x40000000) rfl]
  simp only [id, e3]
  rw [run_quiescent _ _ .idle rfl]
  simp

theorem run_unlock_shared_other (w : Nat) (hw : w < 2 ^ 32) (h : 1 ≤ w)
    (hc : ¬ w = 0x40000001) :
    run (alone 2) w .us_fetch_sub = (w - 1, .idle, [.fetch_sub w]) := by
  have hc2 : ¬ w - 1 = 0x40000000 := by omega
  have e1 := exec_us_fetch_sub false w hw h
  rw [if_neg hc2] at e1
  rw [alone_succ, run_cons (false, id) (alone 1) w .us_fetch_sub rfl]
  simp only [id, e1]
  rw [run_quiescent _ _ .idle rfl]
  rfl

theorem run_unlock_shared_returns (w : Nat) (hw : w < 2 ^ 32) :
    (run (alone 2) w .us_fetch_sub).2.1 = .idle := by
  by_cases h0 : w = 0
  · subst h0
    rw [run_unlock_shared_zero]
  · by_cases hc : w = 0x40000001
    · subst hc
      rw [run_unlock_shared_last]
    · rw [run_unlock_shared_other w hw (by omega) hc]

/-- C18: precondition violations are not detected and corrupt the word.  `unlock_shared`
and `unlock` have no result and no failure: on every 32-bit word, alone, each returns, after
at most two accesses and one access.  Called on the free word 0, `unlock_shared` leaves
0xFFFFFFFF by 32-bit wraparound, both flags set and the reader count at its maximum, and
makes no second write.  From that word, whatever the other threads do, `try_lock` and
`try_lock_shared` return false and an iteration of `lock()` or of `lock_shared()` does not
acquire, none of them writing; `unlock` then leaves 0. -/
theorem unlock_without_holding (k w cur : Nat) (hw : w < 2 ^ 32) :
    (run (alone 2) w .us_fetch_sub).2.1 = .idle ∧
    (exec false w .u_store).2.1 = .idle ∧
    unlock_shared 0 = (0xFFFFFFFF, [.fetch_sub 0]) ∧
    writes (unlock_shared 0).2 = [0xFFFFFFFF] ∧
    decode 0xFFFFFFFF = { exclusive := true, writer_pending := true, readers := 0x3FFFFFFF } ∧
    try_lock 0xFFFFFFFF cur = (false, 0xFFFFFFFF, [.load 0xFFFFFFFF]) ∧
    try_lock_shared 0xFFFFFFFF cur = (false, 0xFFFFFFFF, [.load 0xFFFFFFFF]) ∧
    lock_iteration k 0xFFFFFFFF cur = (false, 0xFFFFFFFF, [.load 0xFFFFFFFF, .yield_k k]) ∧
    lock_shared_iteration k 0xFFFFFFFF cur =
      (false, 0xFFFFFFFF, [.load 0xFFFFFFFF, .yield_k k]) ∧
    unlock 0xFFFFFFFF = (0, [.store 0]) := by
  have e : unlock_shared 0 = (0xFFFFFFFF, [.fetch_sub 0]) := by
    unfold unlock_shared
    rw [run_unlock_shared_zero]
  have hb : (0xFFFFFFFF : Nat) &&& 0x80000000 ≠ 0 := by simp
  refine ⟨run_unlock_shared_returns w hw, rfl, e, ?_, ?_, try_lock_busy _ _ (Or.inl hb),
    try_lock_shared_above _ _ (by norm_num), lock_iteration_excl _ _ _ hb,
    lock_shared_iteration_above _ _ _ (by norm_num), rfl⟩
  · rw [e]
    rfl
  · simp [decode, testBit31, testBit30]

/-- C18, at the free word. -/
theorem unlock_without_holding_witness :
    unlock_shared 0 = (0xFFFFFFFF, [.fetch_sub 0]) ∧
    try_lock 0xFFFFFFFF 0xFFFFFFFF = (false, 0xFFFFFFFF, [.load 0xFFFFFFFF]) :=
  ⟨(unlock_without_holding 0 0 0xFFFFFFFF (by norm_num)).2.2.1,
    (unlock_without_holding 0 0 0xFFFFFFFF (by norm_num)).2.2.2.2.2.1⟩

/-! ## What an iteration of `lock()` writes -/

theorem writes_lock_iteration (k w cur : Nat) :
    writes (lock_iteration k w cur).2.2 =
      if w &&& 0x80000000 ≠ 0 then []
      else if w &&& 0x3FFFFFFF = 0 then (if cur = w then [0x80000000] else [])
      else if w &&& 0x4000000 ≠ 0 then []
      else (if cur = w then [w ||| 0x40000000] else []) := by
  by_cases h1 : w &&& 0x80000000 = 0
  · by_cases h2 : w &&& 0x3FFFFFFF = 0
    · rw [lock_iteration_free k w cur h1 h2]
      by_cases hc : cur = w <;> simp [writes, hc, h1, h2]
    · by_cases h3 : w &&& 0x4000000 = 0
      · rw [lock_iteration_pending k w cur h1 h2 h3]
        by_cases hc : cur = w <;> simp [writes, hc, h1, h2, h3]
      · rw [lock_iteration_skip k w cur h1 h2 h3]
        simp [writes, h1, h2, h3]
  · rw [lock_iteration_excl k w cur h1]
    simp [writes, h1]

theorem or_bit30_of_set (w : Nat) (h : w &&& 0x40000000 ≠ 0) : w ||| 0x40000000 = w := by
  have hb : w / 2 ^ 30 % 2 ≠ 0 := fun hh => h ((and_bit30_eq_zero w).2 hh)
  rw [or_bit30]
  omega

/-- C22: re-setting the pending flag is harmless.  For every word `w` with bit 31 clear,
bit 30 set and a nonzero reader count, an iteration of `lock()` writes nothing or, its
compare-exchange having found `w`, writes `w` itself: the word is left as it was whether or
not the compare-exchange succeeds.  For every observed word `w` and every word `cur` found
by the compare-exchange, every word `v` the iteration writes is written over `w`, has the
low 30 bits of `w`, and has bit 31 set only if `w` has bit 31 clear and reader count
zero. -/
theorem lock_iteration_keeps_readers (k w cur : Nat) :
    (w &&& 0x80000000 = 0 → w &&& 0x40000000 ≠ 0 → w &&& 0x3FFFFFFF ≠ 0 →
      (writes (lock_iteration k w cur).2.2 = [] ∨
        (cur = w ∧ writes (lock_iteration k w cur).2.2 = [w])) ∧
      (lock_iteration k w w).2.1 = w) ∧
    (∀ v, v ∈ writes (lock_iteration k w cur).2.2 →
      cur = w ∧ v % 2 ^ 30 = w % 2 ^ 30 ∧
      (v / 2 ^ 31 % 2 = 1 → w / 2 ^ 31 % 2 = 0 ∧ w % 2 ^ 30 = 0 ∧ v = 0x80000000)) := by
  constructor
  · intro h1 h30 h2
    have e := or_bit30_of_set w h30
    by_cases h3 : w &&& 0x4000000 = 0
    · rw [lock_iteration_pending k w cur h1 h2 h3, lock_iteration_pending k w w h1 h2 h3, e]
      refine ⟨?_, by simp⟩
      by_cases hc : cur = w
      · right
        simp [hc, writes]
      · left
        simp [hc, writes]
    · rw [lock_iteration_skip k w cur h1 h2 h3, lock_iteration_skip k w w h1 h2 h3]
      exact ⟨Or.inl rfl, rfl⟩
  · intro v hv
    rw [writes_lock_iteration] at hv
    by_cases h1 : w &&& 0x80000000 = 0
    · have b1 := (and_bit31_eq_zero w).1 h1
      rw [if_neg (by simp [h1])] at hv
      by_cases h2 : w &&& 0x3FFFFFFF = 0
      · rw [if_pos h2] at hv
        rw [and_mask30] at h2
        by_cases hc : cur = w
        · rw [if_pos hc] at hv
          have hv2 : v = 0x80000000 := by simpa using hv
          subst hv2
          exact ⟨hc, by omega, fun _ => ⟨b1, h2, rfl⟩⟩
        · rw [if_neg hc] at hv
          simp at hv
      · rw [if_neg h2] at hv
        by_cases h3 : w &&& 0x4000000 = 0
        · rw [if_neg (by simp [h3])] at hv
          by_cases hc : cur = w
          · rw [if_pos hc] at hv
            have hv2 : v = w ||| 0x40000000 := by simpa using hv
            rw [or_bit30] at hv2
            refine ⟨hc, by omega, fun hb => ?_⟩
            omega
          · rw [if_neg hc] at hv
            simp at hv
        · rw [if_pos h3] at hv
          simp at hv
    · rw [if_pos h1] at hv
      simp at hv

/-- C22, at one reader with the writer-pending flag, and at the free word. -/
theorem lock_iteration_keeps_readers_witness :
    (lock_iteration 0 0x40000001 0x40000001).2.1 = 0x40000001 ∧
    (0x80000000 : Nat) % 2 ^ 30 = 0 % 2 ^ 30 :=
  ⟨((lock_iteration_keeps_readers 0 0x40000001 0x40000001).1 rfl (by simp) (by simp)).2,
    ((lock_iteration_keeps_readers 0 0 0).2 0x80000000 (by
      rw [writes_lock_iteration]
      simp)).2.1⟩

/-! ## The hand-off to a waiting writer -/

theorem unlock_shared_calls_pending (j : Nat) :
    ∀ w, 0x40000001 + j ≤ w → w < 0x80000000 → unlock_shared_calls j w = w - j := by
  induction j with
  | zero =>
    intro w _ _
    exact unlock_shared_calls_zero w
  | succ j ih =>
    intro w h1 h2
    have hw : w < 2 ^ 32 := by omega
    have h3 : 0x40000001 + j ≤ w - 1 := by omega
    have h4 : w - 1 < 0x80000000 := by omega
    have h5 : w - 1 - j = w - (j + 1) := by omega
    have e := unlock_shared_other w hw (by omega) (by omega)
    rw [unlock_shared_calls_succ, e, ih (w - 1) h3 h4, h5]

theorem unlock_shared_calls_add (n m w : Nat) :
    unlock_shared_calls (n + m) w = unlock_shared_calls m (unlock_shared_calls n w) := by
  unfold unlock_shared_calls
  rw [Nat.add_comm]
  exact Function.iterate_add_apply _ m n w

/-- C21: the hand-off to a waiting writer, at `n = 0x04000000` readers.  From the word
0x04000000, with no interference, an iteration of `lock()` attempts no compare-exchange and
leaves the word 0x04000000, not 0x44000000; the `try_lock_shared` that follows returns true.
For the numbers `n` of readers from 1 to 0x3FFFFFFF with bit 26 clear the hand-off is as
described: the iteration leaves `0x40000000 + n`; from that word `try_lock_shared` returns
false and an iteration of `lock_shared` does not acquire, the word unchanged; after `j`
calls of `unlock_shared`, `j` below `n`, the word is `0x40000000 + n - j`; after `n` of
them it is 0; and the next iteration of `lock()` acquires, leaving 0x80000000. -/
theorem writer_handoff (k n j cur : Nat) :
    lock_iteration k 0x04000000 0x04000000 =
      (false, 0x04000000, [.load 0x04000000, .yield_k k]) ∧
    (0x04000000 : Nat) ||| 0x40000000 = 0x44000000 ∧
    (try_lock_shared 0x04000000 0x04000000).1 = true ∧
    (1 ≤ n → n ≤ 0x3FFFFFFF → n &&& 0x4000000 = 0 →
      n ||| 0x40000000 = 0x40000000 + n ∧
      lock_iteration k n n =
        (false, 0x40000000 + n, [.load n, .cas n (0x40000000 + n) true, .yield_k k]) ∧
      try_lock_shared (0x40000000 + n) cur = (false, 0x40000000 + n, [.load (0x40000000 + n)]) ∧
      lock_shared_iteration k (0x40000000 + n) cur =
        (false, 0x40000000 + n, [.load (0x40000000 + n), .yield_k k]) ∧
      (j < n → unlock_shared_calls j (0x40000000 + n) = 0x40000000 + n - j) ∧
      unlock_shared_calls n (0x40000000 + n) = 0 ∧
      lock_iteration k 0 0 = (true, 0x80000000, [.load 0, .cas 0 0x80000000 true])) := by
  have h1 : (0x04000000 : Nat) &&& 0x80000000 = 0 := rfl
  have h2 : (0x04000000 : Nat) &&& 0x3FFFFFFF ≠ 0 := by simp
  have h3 : (0x04000000 : Nat) &&& 0x4000000 ≠ 0 := by simp
  refine ⟨lock_iteration_skip k _ _ h1 h2 h3, rfl, ?_, ?_⟩
  · rw [try_lock_shared_below _ _ (by norm_num)]
    simp
  · intro hn1 hn2 hn3
    have g1 : n &&& 0x80000000 = 0 := (and_bit31_eq_zero n).2 (by omega)
    have g2 : n &&& 0x3FFFFFFF ≠ 0 := by
      rw [and_mask30]
      omega
    have eo : n ||| 0x40000000 = 0x40000000 + n := by
      rw [or_bit30]
      omega
    have el := lock_iteration_pending k n n g1 g2 hn3
    rw [eo] at el
    have hp : ∀ i, i < n → unlock_shared_calls i (0x40000000 + n) = 0x40000000 + n - i :=
      fun i hi => unlock_shared_calls_pending i (0x40000000 + n) (by omega) (by omega)
    refine ⟨eo, ?_, try_lock_shared_above _ _ (by omega),
      lock_shared_iteration_above _ _ _ (by omega), hp j, ?_, ?_⟩
    · rw [el]
      simp
    · have e1 : n = (n - 1) + 1 := by omega
      have e2 : 0x40000000 + n - (n - 1) = 0x40000001 := by omega
      rw [e1, unlock_shared_calls_add, ← e1, hp (n - 1) (by omega), e2,
        unlock_shared_calls_succ, unlock_shared_last]
      exact unlock_shared_calls_zero 0
    · rw [lock_iteration_free k 0 0 rfl rfl]
      simp

/-- C21, with two readers. -/
theorem writer_handoff_witness :
    lock_iteration 0 2 2 = (false, 0x40000002, [.load 2, .cas 2 0x40000002 true, .yield_k 0]) ∧
    unlock_shared_calls 2 0x40000002 = 0 :=
  ⟨((writer_handoff 0 2 1 0).2.2.2 (by norm_num) (by norm_num) rfl).2.1,
    ((writer_handoff 0 2 1 0).2.2.2 (by norm_num) (by norm_num) rfl).2.2.2.2.2.1⟩

/-! ## The attempt counter -/

theorem yields_append (a b : List Event) : yields (a ++ b) = yields a ++ yields b := by
  induction a with
  | nil => rfl
  | cons e a ih =>
    cases e <;> simp [yields, ih]

theorem exec_spinning (spurious : Bool) (s : Nat) (l : Loc) (hl : l.spinning = true) :
    ((exec spurious s l).2.1.quiescent = true ∧ yields (exec spurious s l).2.2 = []) ∨
    ((exec spurious s l).2.1.spinning = true ∧
      (exec spurious s l).2.1.counter = l.counter ∧ yields (exec spurious s l).2.2 = []) ∨
    ((exec spurious s l).2.1.spinning = true ∧
      (exec spurious s l).2.1.counter = (l.counter + 1) % 2 ^ 32 ∧
      yields (exec spurious s l).2.2 = [l.counter]) := by
  cases l <;> simp [Loc.spinning, Loc.inLock, Loc.inLockShared] at hl
  case ls_load k =>
    by_cases h : s < 0x3FFFFFFF
    · right; left
      simp [exec, h, Loc.spinning, Loc.inLock, Loc.inLockShared, Loc.counter, yields]
    · right; right
      simp [exec, h, Loc.spinning, Loc.inLock, Loc.inLockShared, Loc.counter, yields]
  case ls_cas k st =>
    by_cases hc : s = st
    · left
      simp [exec, compare_exchange, hc, Loc.quiescent, yields]
    · right; right
      simp [exec, compare_exchange, hc, Loc.spinning, Loc.inLock, Loc.inLockShared,
        Loc.counter, yields]
  case l_load k =>
    by_cases h1 : s &&& 0x80000000 = 0
    · by_cases h2 : s &&& 0x3FFFFFFF = 0
      · right; left
        simp [exec, h1, h2, Loc.spinning, Loc.inLock, Loc.inLockShared, Loc.counter, yields]
      · by_cases h3 : s &&& 0x4000000 = 0
        · right; left
          simp [exec, h1, h2, h3, Loc.spinning, Loc.inLock, Loc.inLockShared, Loc.counter,
            yields]
        · right; right
          simp [exec, h1, h2, h3, Loc.spinning, Loc.inLock, Loc.inLockShared, Loc.counter,
            yields]
    · right; right
      simp [exec, h1, Loc.spinning, Loc.inLock, Loc.inLockShared, Loc.counter, yields]
  case l_cas_excl k st =>
    by_cases hc : s = st
    · left
      simp [exec, compare_exchange, hc, Loc.quiescent, yields]
    · right; right
      simp [exec, compare_exchange, hc, Loc.spinning, Loc.inLock, Loc.inLockShared,
        Loc.counter, yields]
  case l_cas_pending k st =>
    right; right
    simp [exec, Loc.spinning, Loc.inLock, Loc.inLockShared, Loc.counter, yields]

theorem range_map_shift (k m : Nat) :
    (List.range (m + 1)).map (fun i => (k + i) % 2 ^ 32) =
      k % 2 ^ 32 :: (List.range m).map (fun i => ((k + 1) % 2 ^ 32 + i) % 2 ^ 32) := by
  rw [List.range_succ_eq_map, List.map_cons, List.map_map]
  congr 1
  apply List.map_congr_left
  intro i _
  simp only [Function.comp, Nat.succ_eq_add_one]
  omega

theorem run_yields (env : List (Bool × (Nat → Nat))) :
    ∀ (s : Nat) (l : Loc), l.spinning = true → l.counter < 2 ^ 32 →
      ∃ m, yields (run env s l).2.2 = (List.range m).map (fun i => (l.counter + i) % 2 ^ 32) ∧
        ((run env s l).2.1.spinning = true →
          (run env s l).2.1.counter = (l.counter + m) % 2 ^ 32) := by
  induction env with
  | nil =>
    intro s l _ hk
    refine ⟨0, rfl, fun _ => ?_⟩
    show l.counter = (l.counter + 0) % 2 ^ 32
    omega
  | cons e env ih =>
    intro s l hl hk
    have hnq : l.quiescent = false := by
      cases l <;> simp [Loc.spinning, Loc.inLock, Loc.inLockShared] at hl <;> rfl
    rw [run_cons e env s l hnq]
    rcases exec_spinning e.1 (e.2 s) l hl with ⟨h1, h2⟩ | ⟨h1, h2, h3⟩ | ⟨h1, h2, h3⟩
    · rw [run_quiescent env _ _ h1]
      refine ⟨0, ?_, fun hsp => ?_⟩
      · simp only [List.append_nil, h2]
        rfl
      · exfalso
        revert h1 hsp
        cases (exec e.1 (e.2 s) l).2.1 <;>
          simp [Loc.quiescent, Loc.spinning, Loc.inLock, Loc.inLockShared]
    · obtain ⟨m, g1, g2⟩ := ih (exec e.1 (e.2 s) l).1 (exec e.1 (e.2 s) l).2.1 h1
        (by rw [h2]; exact hk)
      refine ⟨m, ?_, ?_⟩
      · simp only [yields_append, h3, g1, h2, List.nil_append]
      · intro hsp
        rw [g2 hsp, h2]
    · obtain ⟨m, g1, g2⟩ := ih (exec e.1 (e.2 s) l).1 (exec e.1 (e.2 s) l).2.1 h1
        (by rw [h2]; exact Nat.mod_lt _ (by norm_num))
      refine ⟨m + 1, ?_, ?_⟩
      · simp only [yields_append, h3, g1, h2]
        rw [range_map_shift, Nat.mod_eq_of_lt hk]
        rfl
      · intro hsp
        rw [g2 hsp, h2]
        omega

theorem held_succ (w n : Nat) : held w (n + 1) = (false, fun _ => w) :: held w n := rfl

theorem yields_run_held (n : Nat) :
    ∀ (s k : Nat), k < 2 ^ 32 →
      yields (run (held 0x80000000 n) s (.ls_load k)).2.2 =
        (List.range n).map (fun i => (k + i) % 2 ^ 32) := by
  induction n with
  | zero => intro s k _; rfl
  | succ n ih =>
    intro s k hk
    have e1 : exec false 0x80000000 (.ls_load k) =
        (0x80000000, .ls_load ((k + 1) % 2 ^ 32), [.load 0x80000000, .yield_k k]) := by
      simp [exec]
    rw [held_succ, run_cons _ _ s (.ls_load k) rfl]
    simp only [e1, yields_append]
    rw [ih _ _ (Nat.mod_lt _ (by norm_num)), range_map_shift, Nat.mod_eq_of_lt hk]
    rfl

theorem yields_run_held_get (n i v : Nat) (hi : i < n) (hv : v = i % 2 ^ 32) :
    (yields (run (held 0x80000000 n) 0 (.ls_load 0)).2.2)[i]? = some v := by
  rw [yields_run_held n 0 0 (by norm_num), List.getElem?_map, List.getElem?_range hi, hv]
  show some ((0 + i) % 2 ^ 32) = some (i % 2 ^ 32)
  rw [Nat.zero_add]

/-- C15, the claim as stated fails: in a call of `lock_shared()` that finds the lock held
exclusively at each of 4294967297 loads, the counter passed to `yield_k` at the iteration
of index 4294967295 is 4294967295 and the one passed at the next iteration is 0; the
sequence is not increasing. -/
theorem backoff_counter_wraps :
    (yields (run (held 0x80000000 4294967297) 0 (.ls_load 0)).2.2)[4294967295]? =
      some 4294967295 ∧
    (yields (run (held 0x80000000 4294967297) 0 (.ls_load 0)).2.2)[4294967296]? = some 0 :=
  ⟨yields_run_held_get 4294967297 4294967295 4294967295 (by norm_num) (by norm_num),
    yields_run_held_get 4294967297 4294967296 0 (by norm_num) (by norm_num)⟩

theorem yields_lock_shared_iteration (k w cur : Nat) :
    yields (lock_shared_iteration k w cur).2.2 =
      if (lock_shared_iteration k w cur).1 = true then [] else [k] := by
  by_cases h : w < 0x3FFFFFFF
  · rw [lock_shared_iteration_below k w cur h]
    by_cases hc : cur = w <;> simp [hc, yields]
  · rw [lock_shared_iteration_above k w cur (by omega)]
    simp [yields]

theorem yields_lock_iteration (k w cur : Nat) :
    yields (lock_iteration k w cur).2.2 =
      if (lock_iteration k w cur).1 = true then [] else [k] := by
  by_cases h1 : w &&& 0x80000000 = 0
  · by_cases h2 : w &&& 0x3FFFFFFF = 0
    · rw [lock_iteration_free k w cur h1 h2]
      by_cases hc : cur = w <;> simp [hc, yields]
    · by_cases h3 : w &&& 0x4000000 = 0
      · rw [lock_iteration_pending k w cur h1 h2 h3]
        simp [yields]
      · rw [lock_iteration_skip k w cur h1 h2 h3]
        simp [yields]
  · rw [lock_iteration_excl k w cur h1]
    simp [yields]

theorem range_map_mod (m : Nat) (h : m ≤ 2 ^ 32) :
    (List.range m).map (fun i => (0 + i) % 2 ^ 32) = List.range m := by
  have e : ∀ i ∈ List.range m, (fun i => (0 + i) % 2 ^ 32) i = id i := by
    intro i hi
    have hlt : i < m := List.mem_range.1 hi
    show (0 + i) % 2 ^ 32 = i
    omega
  rw [List.map_congr_left e, List.map_id]

/-- C15, amended: the attempt counter of the spin loops.  In every call of `lock()` and of
`lock_shared()` the counter starts at zero; an iteration that does not acquire calls
`yield_k` exactly once, with the current counter, and an acquiring iteration does not call
it; under any interference and after any number of accesses, the counters passed by one
call so far are `0 % 2^32, 1 % 2^32, ..., (m - 1) % 2^32` for some `m`, the counter being a
32-bit unsigned integer incremented once per iteration: they are `0, 1, ..., m - 1`,
increasing, as long as `m` is at most 2^32, and after 4294967295 the counter is 0
again. -/
theorem backoff_counter (k w cur s : Nat) (env : List (Bool × (Nat → Nat))) :
    start .lock_shared .idle = some (.ls_load 0) ∧
    start .lock .idle = some (.l_load 0) ∧
    yields (lock_shared_iteration k w cur).2.2 =
      (if (lock_shared_iteration k w cur).1 = true then [] else [k]) ∧
    yields (lock_iteration k w cur).2.2 =
      (if (lock_iteration k w cur).1 = true then [] else [k]) ∧
    (∃ m, yields (run env s (.ls_load 0)).2.2 = (List.range m).map (fun i => i % 2 ^ 32) ∧
      (m ≤ 2 ^ 32 → yields (run env s (.ls_load 0)).2.2 = List.range m) ∧
      ((run env s (.ls_load 0)).2.1.spinning = true →
        (run env s (.ls_load 0)).2.1.counter = m % 2 ^ 32)) ∧
    (∃ m, yields (run env s (.l_load 0)).2.2 = (List.range m).map (fun i => i % 2 ^ 32) ∧
      (m ≤ 2 ^ 32 → yields (run env s (.l_load 0)).2.2 = List.range m) ∧
      ((run env s (.l_load 0)).2.1.spinning = true →
        (run env s (.l_load 0)).2.1.counter = m % 2 ^ 32)) := by
  have key : ∀ l : Loc, l.spinning = true → l.counter = 0 →
      ∃ m, yields (run env s l).2.2 = (List.range m).map (fun i => i % 2 ^ 32) ∧
        (m ≤ 2 ^ 32 → yields (run env s l).2.2 = List.range m) ∧
        ((run env s l).2.1.spinning = true → (run env s l).2.1.counter = m % 2 ^ 32) := by
    intro l hl hk
    obtain ⟨m, g1, g2⟩ := run_yields env s l hl (by rw [hk]; norm_num)
    rw [hk] at g1 g2
    have e0 : (fun i => (0 + i) % 2 ^ 32) = (fun i => i % 2 ^ 32) := by
      funext i
      rw [Nat.zero_add]
    refine ⟨m, ?_, ?_, ?_⟩
    · rw [g1, e0]
    · intro hm
      rw [g1, range_map_mod m hm]
    · intro hsp
      rw [g2 hsp, Nat.zero_add]
  exact ⟨rfl, rfl, yields_lock_shared_iteration k w cur, yields_lock_iteration k w cur,
    key (.ls_load 0) rfl rfl, key (.l_load 0) rfl rfl⟩

end rw_spinlock

namespace test_word_count

/-! ## The work split -/

theorem start_eq (W Th i : Nat) (hW : W < 2 ^ 64) (hi : i < Th) :
    start W Th i = i * (W / Th) := by
  have h1 : W / Th * Th ≤ W := Nat.div_mul_le_self W Th
  have h2 : i * (W / Th) ≤ Th * (W / Th) := Nat.mul_le_mul_right _ (Nat.le_of_lt hi)
  have h3 : Th * (W / Th) = W / Th * Th := Nat.mul_comm _ _
  unfold start m
  exact Nat.mod_eq_of_lt (by omega)

theorem end_eq (W Th i : Nat) (hW : W < 2 ^ 64) (hTh : Th < 2 ^ 64) (hi : i < Th) :
    end_ W Th i = if i = Th - 1 then W else (i + 1) * (W / Th) := by
  have h1 : W / Th * Th ≤ W := Nat.div_mul_le_self W Th
  have h2 : (i + 1) * (W / Th) ≤ Th * (W / Th) := Nat.mul_le_mul_right _ hi
  have h3 : Th * (W / Th) = W / Th * Th := Nat.mul_comm _ _
  have e1 : (Th + (2 ^ 64 - 1)) % 2 ^ 64 = Th - 1 := by omega
  have e2 : (i + 1) % 2 ^ 64 = i + 1 := Nat.mod_eq_of_lt (by omega)
  unfold end_ m
  rw [e1, e2]
  by_cases hc : i = Th - 1
  · rw [if_pos hc, if_pos hc]
  · rw [if_neg hc, if_neg hc]
    exact Nat.mod_eq_of_lt (by omega)

theorem mem_indices (W Th i j : Nat) (hW : W < 2 ^ 64) (hTh : Th < 2 ^ 64) (hi : i < Th) :
    j ∈ indices W Th i ↔
      i * (W / Th) ≤ j ∧ j < (if i = Th - 1 then W else (i + 1) * (W / Th)) := by
  unfold indices
  rw [List.mem_range'_1, start_eq W Th i hW hi, end_eq W Th i hW hTh hi]
  constructor
  · rintro ⟨h1, h2⟩
    exact ⟨h1, by omega⟩
  · rintro ⟨h1, h2⟩
    exact ⟨h1, by omega⟩

theorem owner_unique (W Th j : Nat) (hW : W < 2 ^ 64) (hTh : Th < 2 ^ 64) (h1 : 1 ≤ Th)
    (hj : j < W) :
    ∃ i, (i < Th ∧ j ∈ indices W Th i) ∧ ∀ i2, i2 < Th ∧ j ∈ indices W Th i2 → i2 = i := by
  by_cases hM : W / Th = 0
  · refine ⟨Th - 1, ⟨by omega, ?_⟩, ?_⟩
    · rw [mem_indices W Th (Th - 1) j hW hTh (by omega), if_pos rfl, hM]
      exact ⟨by omega, hj⟩
    · rintro i2 ⟨hi2, hmem⟩
      rw [mem_indices W Th i2 j hW hTh hi2, hM] at hmem
      by_cases hc : i2 = Th - 1
      · exact hc
      · rw [if_neg hc] at hmem
        omega
  · have hpos : 0 < W / Th := Nat.pos_of_ne_zero hM
    by_cases hq : j / (W / Th) < Th - 1
    · refine ⟨j / (W / Th), ⟨by omega, ?_⟩, ?_⟩
      · rw [mem_indices W Th _ j hW hTh (by omega), if_neg (by omega)]
        exact ⟨Nat.div_mul_le_self j (W / Th), (Nat.div_lt_iff_lt_mul hpos).1 (Nat.lt_succ_self _)⟩
      · rintro i2 ⟨hi2, hmem⟩
        rw [mem_indices W Th i2 j hW hTh hi2] at hmem
        by_cases hc : i2 = Th - 1
        · have h3 : Th - 1 ≤ j / (W / Th) := by
            rw [Nat.le_div_iff_mul_le hpos, ← hc]
            exact hmem.1
          omega
        · rw [if_neg hc] at hmem
          have h3 : i2 ≤ j / (W / Th) := (Nat.le_div_iff_mul_le hpos).2 hmem.1
          have h4 : j / (W / Th) < i2 + 1 := (Nat.div_lt_iff_lt_mul hpos).2 hmem.2
          omega
    · have hq2 : Th - 1 ≤ j / (W / Th) := by omega
      refine ⟨Th - 1, ⟨by omega, ?_⟩, ?_⟩
      · rw [mem_indices W Th (Th - 1) j hW hTh (by omega), if_pos rfl]
        exact ⟨(Nat.le_div_iff_mul_le hpos).1 hq2, hj⟩
      · rintro i2 ⟨hi2, hmem⟩
        rw [mem_indices W Th i2 j hW hTh hi2] at hmem
        by_cases hc : i2 = Th - 1
        · exact hc
        · rw [if_neg hc] at hmem
          have h4 : j / (W / Th) < i2 + 1 := (Nat.div_lt_iff_lt_mul hpos).2 hmem.2
          omega

theorem s2_eq (W Th i : Nat) (hW : W < 2 ^ 64) (hTh : Th < 2 ^ 64) (hi : i < Th) :
    s2 W Th i = if i = Th - 1 then W - (Th - 1) * (W / Th) else W / Th := by
  have h1 : W / Th * Th ≤ W := Nat.div_mul_le_self W Th
  have h2 : (i + 1) * (W / Th) ≤ Th * (W / Th) := Nat.mul_le_mul_right _ hi
  have h3 : Th * (W / Th) = W / Th * Th := Nat.mul_comm _ _
  have h4 : (i + 1) * (W / Th) = i * (W / Th) + W / Th := Nat.succ_mul _ _
  unfold s2 indices
  rw [List.length_range', start_eq W Th i hW hi, end_eq W Th i hW hTh hi]
  by_cases hc : i = Th - 1
  · rw [if_pos hc, if_pos hc, ← hc]
    exact Nat.mod_eq_of_lt (by omega)
  · rw [if_neg hc, if_neg hc]
    have e : (i + 1) * (W / Th) - i * (W / Th) = W / Th := by
      rw [h4]
      exact Nat.add_sub_cancel_left _ _
    rw [e]
    exact Nat.mod_eq_of_lt (Nat.lt_of_le_of_lt (Nat.div_le_self W Th) hW)

theorem sum_s2_prefix (W Th : Nat) (hW : W < 2 ^ 64) (hTh : Th < 2 ^ 64) (n : Nat) :
    n ≤ Th - 1 → ((List.range n).map (s2 W Th)).sum = n * (W / Th) := by
  induction n with
  | zero =>
    intro _
    simp
  | succ n ih =>
    intro hn
    rw [List.range_succ, List.map_append, List.sum_append, ih (by omega),
      List.map_singleton, List.sum_singleton, s2_eq W Th n hW hTh (by omega),
      if_neg (by omega), Nat.succ_mul]

theorem checksum_eq (W Th : Nat) (hW : W < 2 ^ 64) (hTh : Th < 2 ^ 64) (h1 : 1 ≤ Th) :
    checksum W Th = W := by
  have h2 : W / Th * Th ≤ W := Nat.div_mul_le_self W Th
  have h3 : (Th - 1) * (W / Th) ≤ Th * (W / Th) := Nat.mul_le_mul_right _ (by omega)
  have h4 : Th * (W / Th) = W / Th * Th := Nat.mul_comm _ _
  have e : List.range Th = List.range (Th - 1) ++ [Th - 1] := by
    have e0 : Th = (Th - 1) + 1 := by omega
    conv_lhs => rw [e0]
    exact List.range_succ (Th - 1)
  unfold checksum
  rw [e, List.map_append, List.sum_append,
    sum_s2_prefix W Th hW hTh (Th - 1) (Nat.le_refl _), List.map_singleton,
    List.sum_singleton, s2_eq W Th (Th - 1) hW hTh (by omega), if_pos rfl]
  have e2 : (Th - 1) * (W / Th) + (W - (Th - 1) * (W / Th)) = W := by omega
  rw [e2]
  exact Nat.mod_eq_of_lt hW

/-- C25: the work split of `test_word_count` covers every word exactly once.  For every
word count `W` and every thread count `Th` of at least one (both of type `std::size_t`),
with `m = W / Th`: thread `i` runs over `[i * m, (i + 1) * m)`, the last thread over
`[(Th - 1) * m, W)`, none of the products wrapping around; every index below `W` is visited
by exactly one thread, every index visited is below `W`, and no thread visits an index
twice; hence the checksum `s`, the sum of the iteration counts of the threads, is `W`. -/
theorem work_split_covers (W Th : Nat) (hW : W < 2 ^ 64) (hTh : Th < 2 ^ 64) (h1 : 1 ≤ Th) :
    (∀ i, i < Th → start W Th i = i * (W / Th) ∧
      end_ W Th i = (if i = Th - 1 then W else (i + 1) * (W / Th))) ∧
    (∀ i j, i < Th → (j ∈ indices W Th i ↔ start W Th i ≤ j ∧ j < end_ W Th i)) ∧
    (∀ j, j < W →
      ∃ i, (i < Th ∧ j ∈ indices W Th i) ∧ ∀ i2, i2 < Th ∧ j ∈ indices W Th i2 → i2 = i) ∧
    (∀ i j, i < Th → j ∈ indices W Th i → j < W) ∧
    (∀ i, (indices W Th i).Nodup) ∧
    checksum W Th = W := by
  refine ⟨fun i hi => ⟨start_eq W Th i hW hi, end_eq W Th i hW hTh hi⟩, ?_,
    fun j hj => owner_unique W Th j hW hTh h1 hj, ?_, ?_, checksum_eq W Th hW hTh h1⟩
  · intro i j hi
    rw [mem_indices W Th i j hW hTh hi, start_eq W Th i hW hi, end_eq W Th i hW hTh hi]
  · intro i j hi hmem
    have h2 : W / Th * Th ≤ W := Nat.div_mul_le_self W Th
    have h3 : (i + 1) * (W / Th) ≤ Th * (W / Th) := Nat.mul_le_mul_right _ hi
    have h4 : Th * (W / Th) = W / Th * Th := Nat.mul_comm _ _
    rw [mem_indices W Th i j hW hTh hi] at hmem
    by_cases hc : i = Th - 1
    · rw [if_pos hc] at hmem
      exact hmem.2
    · rw [if_neg hc] at hmem
      omega
  · intro i
    exact List.nodup_range' _ _

/-- C25, with ten words and three threads: the threads run over [0, 3), [3, 6) and
[6, 10), and the checksum is 10. -/
theorem work_split_covers_witness :
    (start 10 3 2 = 2 * (10 / 3) ∧ end_ 10 3 2 = (if 2 = 3 - 1 then 10 else (2 + 1) * (10 / 3))) ∧
    checksum 10 3 = 10 :=
  ⟨(work_split_covers 10 3 (by norm_num) (by norm_num) (by norm_num)).1 2 (by norm_num),
    (work_split_covers 10 3 (by norm_num) (by norm_num) (by norm_num)).2.2.2.2.2⟩

end test_word_count

namespace rw_spinlock

/-! ## The invariant of the lock -/

theorem exec_inv_tls (sp : Bool) (w : Nat) (a : Loc) (ha : a = .tls_load ∨ ∃ st, a = .tls_cas st)
    (hwf : a.wf) (E R C L E' R' C' L' : Nat) (hI : Inv w E R C L)
    (hE : E' + a.holdsExcl.toNat = E + (exec sp w a).2.1.holdsExcl.toNat)
    (hR : R' + a.holdsShared.toNat = R + (exec sp w a).2.1.holdsShared.toNat)
    (hC : C' + a.inCleanup.toNat = C + (exec sp w a).2.1.inCleanup.toNat)
    (hL : L' + a.inLock.toNat = L + (exec sp w a).2.1.inLock.toNat) :
    Inv (exec sp w a).1 E' R' C' L' ∧ (exec sp w a).2.1.wf := by
  obtain ⟨h0, h1, h2, h3, h4, h5⟩ := hI
  rcases ha with ha | ⟨st, ha⟩
  · subst ha
    by_cases h : w ≥ 0x3FFFFFFF
    · have he : exec sp w .tls_load = (w, .idle, [.load w]) := by simp [exec, h]
      rw [he] at hE hR hC hL
      rw [he]
      simp [Loc.holdsExcl, Loc.holdsShared, Loc.inCleanup, Loc.inLock] at hE hR hC hL
      subst hE hR hC hL
      exact ⟨⟨h0, h1, h2, h3, h4, h5⟩, trivial⟩
    · have he : exec sp w .tls_load = (w, .tls_cas w, [.load w]) := by simp [exec, h]
      rw [he] at hE hR hC hL
      rw [he]
      simp [Loc.holdsExcl, Loc.holdsShared, Loc.inCleanup, Loc.inLock] at hE hR hC hL
      subst hE hR hC hL
      refine ⟨⟨h0, h1, h2, h3, h4, h5⟩, ?_⟩
      show w < 0x3FFFFFFF
      omega
  · subst ha
    have hst : st < 0x3FFFFFFF := hwf
    have e : (st + 1) % 2 ^ 32 = st + 1 := Nat.mod_eq_of_lt (by omega)
    by_cases hc : w = st
    · subst hc
      have he : exec sp w (.tls_cas w) = (w + 1, .shared_held, [.cas w (w + 1) true]) := by
        simp only [exec, compare_exchange, and_self, if_true, e]
      rw [he] at hE hR hC hL
      rw [he]
      simp [Loc.holdsExcl, Loc.holdsShared, Loc.inCleanup, Loc.inLock] at hE hR hC hL
      subst hE hR hC hL
      refine ⟨⟨?_, h1, ?_, ?_, ?_, ?_⟩, trivial⟩
      · show w + 1 < 2 ^ 32
        omega
      · intro hh
        show w + 1 = 0x80000000 ∧ R + 1 = 0
        omega
      · intro hh
        show w + 1 < 0x80000000 ∧ (w + 1) % 2 ^ 30 = R + 1
        omega
      · intro hh
        have : w + 1 = 0x40000000 := hh
        omega
      · intro hh
        have : (w + 1) / 2 ^ 30 % 2 = 1 := hh
        omega
    · have e0 : st + 1 < 4294967296 := by omega
      have he : exec sp w (.tls_cas st) =
          (w, .idle, [.cas st (st + 1) false]) := by
        simp [exec, compare_exchange, hc, e0]
      rw [he] at hE hR hC hL
      rw [he]
      simp [Loc.holdsExcl, Loc.holdsShared, Loc.inCleanup, Loc.inLock] at hE hR hC hL
      subst hE hR hC hL
      exact ⟨⟨h0, h1, h2, h3, h4, h5⟩, trivial⟩

theorem exec_inv_ls (sp : Bool) (w : Nat) (a : Loc)
    (ha : (∃ k, a = .ls_load k) ∨ ∃ k st, a = .ls_cas k st)
    (hwf : a.wf) (E R C L E' R' C' L' : Nat) (hI : Inv w E R C L)
    (hE : E' + a.holdsExcl.toNat = E + (exec sp w a).2.1.holdsExcl.toNat)
    (hR : R' + a.holdsShared.toNat = R + (exec sp w a).2.1.holdsShared.toNat)
    (hC : C' + a.inCleanup.toNat = C + (exec sp w a).2.1.inCleanup.toNat)
    (hL : L' + a.inLock.toNat = L + (exec sp w a).2.1.inLock.toNat) :
    Inv (exec sp w a).1 E' R' C' L' ∧ (exec sp w a).2.1.wf := by
  obtain ⟨h0, h1, h2, h3, h4, h5⟩ := hI
  rcases ha with ⟨k, ha⟩ | ⟨k, st, ha⟩
  · subst ha
    by_cases h : w < 0x3FFFFFFF
    · have he : exec sp w (.ls_load k) = (w, .ls_cas k w, [.load w]) := by simp [exec, h]
      rw [he] at hE hR hC hL
      rw [he]
      simp [Loc.holdsExcl, Loc.holdsShared, Loc.inCleanup, Loc.inLock] at hE hR hC hL
      subst hE hR hC hL
      exact ⟨⟨h0, h1, h2, h3, h4, h5⟩, h⟩
    · have he : exec sp w (.ls_load k) =
          (w, .ls_load ((k + 1) % 2 ^ 32), [.load w, .yield_k k]) := by simp [exec, h]
      rw [he] at hE hR hC hL
      rw [he]
      simp [Loc.holdsExcl, Loc.holdsShared, Loc.inCleanup, Loc.inLock] at hE hR hC hL
      subst hE hR hC hL
      exact ⟨⟨h0, h1, h2, h3, h4, h5⟩, trivial⟩
  · subst ha
    have hst : st < 0x3FFFFFFF := hwf
    have e : (st + 1) % 2 ^ 32 = st + 1 := Nat.mod_eq_of_lt (by omega)
    have e0 : st + 1 < 4294967296 := by omega
    by_cases hc : w = st
    · subst hc
      have he : exec sp w (.ls_cas k w) = (w + 1, .shared_held, [.cas w (w + 1) true]) := by
        simp [exec, compare_exchange, e0]
      rw [he] at hE hR hC hL
      rw [he]
      simp [Loc.holdsExcl, Loc.holdsShared, Loc.inCleanup, Loc.inLock] at hE hR hC hL
      subst hE hR hC hL
      refine ⟨⟨?_, h1, ?_, ?_, ?_, ?_⟩, trivial⟩
      · show w + 1 < 2 ^ 32
        omega
      · intro hh
        show w + 1 = 0x80000000 ∧ R + 1 = 0
        omega
      · intro hh
        show w + 1 < 0x80000000 ∧ (w + 1) % 2 ^ 30 = R + 1
        omega
      · intro hh
        have : w + 1 = 0x40000000 := hh
        omega
      · intro hh
        have : (w + 1) / 2 ^ 30 % 2 = 1 := hh
        omega
    · have he : exec sp w (.ls_cas k st) =
          (w, .ls_load ((k + 1) % 2 ^ 32), [.cas st (st + 1) false, .yield_k k]) := by
        simp [exec, compare_exchange, hc, e0]
      rw [he] at hE hR hC hL
      rw [he]
      simp [Loc.holdsExcl, Loc.holdsShared, Loc.inCleanup, Loc.inLock] at hE hR hC hL
      subst hE hR hC hL
      exact ⟨⟨h0, h1, h2, h3, h4, h5⟩, trivial⟩

theorem exec_inv_us (sp : Bool) (w : Nat) (a : Loc)
    (ha : a = .us_fetch_sub ∨ ∃ st, a = .us_cas st)
    (hwf : a.wf) (E R C L E' R' C' L' : Nat) (hI : Inv w E R C L)
    (hE : E' + a.holdsExcl.toNat = E + (exec sp w a).2.1.holdsExcl.toNat)
    (hR : R' + a.holdsShared.toNat = R + (exec sp w a).2.1.holdsShared.toNat)
    (hC : C' + a.inCleanup.toNat = C + (exec sp w a).2.1.inCleanup.toNat)
    (hL : L' + a.inLock.toNat = L + (exec sp w a).2.1.inLock.toNat)
    (hRa : a.holdsShared = true → 1 ≤ R) :
    Inv (exec sp w a).1 E' R' C' L' ∧ (exec sp w a).2.1.wf := by
  obtain ⟨h0, h1, h2, h3, h4, h5⟩ := hI
  rcases ha with ha | ⟨st, ha⟩
  · subst ha
    have hR1 : 1 ≤ R := hRa rfl
    have hw1 : 1 ≤ w := by omega
    have he := exec_us_fetch_sub sp w h0 hw1
    by_cases hc : w - 1 = 0x40000000
    · rw [if_pos hc] at he
      rw [he] at hE hR hC hL
      rw [he]
      simp [Loc.holdsExcl, Loc.holdsShared, Loc.inCleanup, Loc.inLock] at hE hR hC hL
      subst hE hC hL
      refine ⟨⟨?_, h1, ?_, ?_, ?_, ?_⟩, rfl⟩
      · show w - 1 < 2 ^ 32
        omega
      · intro hh
        show w - 1 = 0x80000000 ∧ R' = 0
        omega
      · intro hh
        show w - 1 < 0x80000000 ∧ (w - 1) % 2 ^ 30 = R'
        omega
      · intro _
        omega
      · intro hh
        have : (w - 1) / 2 ^ 30 % 2 = 1 := hh
        omega
    · rw [if_neg hc] at he
      rw [he] at hE hR hC hL
      rw [he]
      simp [Loc.holdsExcl, Loc.holdsShared, Loc.inCleanup, Loc.inLock] at hE hR hC hL
      subst hE hC hL
      refine ⟨⟨?_, h1, ?_, ?_, ?_, ?_⟩, trivial⟩
      · show w - 1 < 2 ^ 32
        omega
      · intro hh
        show w - 1 = 0x80000000 ∧ R' = 0
        omega
      · intro hh
        show w - 1 < 0x80000000 ∧ (w - 1) % 2 ^ 30 = R'
        omega
      · intro hh
        exact absurd hh hc
      · intro hh
        have : (w - 1) / 2 ^ 30 % 2 = 1 := hh
        omega
  · subst ha
    have hst : st = 0x40000000 := hwf
    subst hst
    by_cases hc : w = 0x40000000
    · subst hc
      cases sp with
      | false =>
        have he := exec_us_cas_won
        rw [he] at hE hR hC hL
        rw [he]
        simp [Loc.holdsExcl, Loc.holdsShared, Loc.inCleanup, Loc.inLock] at hE hR hC hL
        subst hE hR hL
        refine ⟨⟨?_, h1, ?_, ?_, ?_, ?_⟩, trivial⟩
        · show 0 < 2 ^ 32
          omega
        · intro hh
          show (0 : Nat) = 0x80000000 ∧ R' = 0
          omega
        · intro hh
          show (0 : Nat) < 0x80000000 ∧ 0 % 2 ^ 30 = R'
          omega
        · intro hh
          have : (0 : Nat) = 0x40000000 := hh
          omega
        · intro hh
          have : (0 : Nat) / 2 ^ 30 % 2 = 1 := hh
          omega
      | true =>
        have he : exec true 0x40000000 (.us_cas 0x40000000) =
            (0x40000000, .us_cas 0x40000000, [.cas 0x40000000 0 false]) := by
          simp [exec, compare_exchange, unlock_shared_test]
        rw [he] at hE hR hC hL
        rw [he]
        simp [Loc.holdsExcl, Loc.holdsShared, Loc.inCleanup, Loc.inLock] at hE hR hC hL
        subst hE hR hC hL
        exact ⟨⟨h0, h1, h2, h3, h4, h5⟩, rfl⟩
    · have he := exec_us_cas_lost sp w hc
      rw [he] at hE hR hC hL
      rw [he]
      simp [Loc.holdsExcl, Loc.holdsShared, Loc.inCleanup, Loc.inLock] at hE hR hC hL
      subst hE hR hL
      exact ⟨⟨h0, h1, h2, h3, fun hh => absurd hh hc, h5⟩, trivial⟩

theorem exec_inv_tl (sp : Bool) (w : Nat) (a : Loc)
    (ha : a = .tl_load ∨ ∃ st, a = .tl_cas st)
    (hwf : a.wf) (E R C L E' R' C' L' : Nat) (hI : Inv w E R C L)
    (hE : E' + a.holdsExcl.toNat = E + (exec sp w a).2.1.holdsExcl.toNat)
    (hR : R' + a.holdsShared.toNat = R + (exec sp w a).2.1.holdsShared.toNat)
    (hC : C' + a.inCleanup.toNat = C + (exec sp w a).2.1.inCleanup.toNat)
    (hL : L' + a.inLock.toNat = L + (exec sp w a).2.1.inLock.toNat) :
    Inv (exec sp w a).1 E' R' C' L' ∧ (exec sp w a).2.1.wf := by
  obtain ⟨h0, h1, h2, h3, h4, h5⟩ := hI
  rcases ha with ha | ⟨st, ha⟩
  · subst ha
    by_cases g1 : w &&& 0x80000000 = 0
    · by_cases g2 : w &&& 0x3FFFFFFF = 0
      · have he : exec sp w .tl_load = (w, .tl_cas w, [.load w]) := by simp [exec, g1, g2]
        rw [he] at hE hR hC hL
        rw [he]
        simp [Loc.holdsExcl, Loc.holdsShared, Loc.inCleanup, Loc.inLock] at hE hR hC hL
        subst hE hR hC hL
        exact ⟨⟨h0, h1, h2, h3, h4, h5⟩, g1, g2⟩
      · have he : exec sp w .tl_load = (w, .idle, [.load w]) := by simp [exec, g1, g2]
        rw [he] at hE hR hC hL
        rw [he]
        simp [Loc.holdsExcl, Loc.holdsShared, Loc.inCleanup, Loc.inLock] at hE hR hC hL
        subst hE hR hC hL
        exact ⟨⟨h0, h1, h2, h3, h4, h5⟩, trivial⟩
    · have he : exec sp w .tl_load = (w, .idle, [.load w]) := by simp [exec, g1]
      rw [he] at hE hR hC hL
      rw [he]
      simp [Loc.holdsExcl, Loc.holdsShared, Loc.inCleanup, Loc.inLock] at hE hR hC hL
      subst hE hR hC hL
      exact ⟨⟨h0, h1, h2, h3, h4, h5⟩, trivial⟩
  · subst ha
    have hst : st &&& 0x80000000 = 0 ∧ st &&& 0x3FFFFFFF = 0 := hwf
    by_cases hc : w = st
    · subst hc
      have b1 := (and_bit31_eq_zero w).1 hst.1
      have b2 : w % 2 ^ 30 = 0 := by
        rw [← and_mask30]
        exact hst.2
      have he : exec sp w (.tl_cas w) =
          (0x80000000, .excl_held, [.cas w 0x80000000 true]) := by
        simp [exec, compare_exchange]
      rw [he] at hE hR hC hL
      rw [he]
      simp [Loc.holdsExcl, Loc.holdsShared, Loc.inCleanup, Loc.inLock] at hE hR hC hL
      subst hE hR hC hL
      refine ⟨⟨?_, ?_, ?_, ?_, ?_, ?_⟩, trivial⟩
      · show (0x80000000 : Nat) < 2 ^ 32
        omega
      · omega
      · intro hh
        show (0x80000000 : Nat) = 0x80000000 ∧ R' = 0
        omega
      · intro hh
        omega
      · intro hh
        have : (0x80000000 : Nat) = 0x40000000 := hh
        omega
      · intro hh
        have : (0x80000000 : Nat) / 2 ^ 30 % 2 = 1 := hh
        omega
    · have he : exec sp w (.tl_cas st) = (w, .idle, [.cas st 0x80000000 false]) := by
        simp [exec, compare_exchange, hc]
      rw [he] at hE hR hC hL
      rw [he]
      simp [Loc.holdsExcl, Loc.holdsShared, Loc.inCleanup, Loc.inLock] at hE hR hC hL
      subst hE hR hC hL
      exact ⟨⟨h0, h1, h2, h3, h4, h5⟩, trivial⟩

theorem exec_inv_u (sp : Bool) (w : Nat) (E R C L E' R' C' L' : Nat) (hI : Inv w E R C L)
    (hE : E' + (Loc.u_store).holdsExcl.toNat = E + (exec sp w .u_store).2.1.holdsExcl.toNat)
    (hR : R' + (Loc.u_store).holdsShared.toNat
      = R + (exec sp w .u_store).2.1.holdsShared.toNat)
    (hC : C' + (Loc.u_store).inCleanup.toNat = C + (exec sp w .u_store).2.1.inCleanup.toNat)
    (hL : L' + (Loc.u_store).inLock.toNat = L + (exec sp w .u_store).2.1.inLock.toNat)
    (hEa : 1 ≤ E) :
    Inv (exec sp w .u_store).1 E' R' C' L' ∧ (exec sp w .u_store).2.1.wf := by
  obtain ⟨h0, h1, h2, h3, h4, h5⟩ := hI
  have he : exec sp w .u_store = (0, .idle, [.store 0]) := rfl
  rw [he] at hE hR hC hL
  rw [he]
  simp [Loc.holdsExcl, Loc.holdsShared, Loc.inCleanup, Loc.inLock] at hE hR hC hL
  subst hR hC hL
  refine ⟨⟨?_, ?_, ?_, ?_, ?_, ?_⟩, trivial⟩
  · show (0 : Nat) < 2 ^ 32
    omega
  · omega
  · intro hh
    omega
  · intro hh
    show (0 : Nat) < 0x80000000 ∧ 0 % 2 ^ 30 = R'
    omega
  · intro hh
    have : (0 : Nat) = 0x40000000 := hh
    omega
  · intro hh
    have : (0 : Nat) / 2 ^ 30 % 2 = 1 := hh
    omega

theorem exec_inv_l_load (sp : Bool) (w k : Nat) (E R C L E' R' C' L' : Nat)
    (hI : Inv w E R C L)
    (hE : E' + (Loc.l_load k).holdsExcl.toNat = E + (exec sp w (.l_load k)).2.1.holdsExcl.toNat)
    (hR : R' + (Loc.l_load k).holdsShared.toNat
      = R + (exec sp w (.l_load k)).2.1.holdsShared.toNat)
    (hC : C' + (Loc.l_load k).inCleanup.toNat = C + (exec sp w (.l_load k)).2.1.inCleanup.toNat)
    (hL : L' + (Loc.l_load k).inLock.toNat = L + (exec sp w (.l_load k)).2.1.inLock.toNat) :
    Inv (exec sp w (.l_load k)).1 E' R' C' L' ∧ (exec sp w (.l_load k)).2.1.wf := by
  obtain ⟨h0, h1, h2, h3, h4, h5⟩ := hI
  by_cases g1 : w &&& 0x80000000 = 0
  · by_cases g2 : w &&& 0x3FFFFFFF = 0
    · have he : exec sp w (.l_load k) = (w, .l_cas_excl k w, [.load w]) := by
        simp [exec, g1, g2]
      rw [he] at hE hR hC hL
      rw [he]
      simp [Loc.holdsExcl, Loc.holdsShared, Loc.inCleanup, Loc.inLock] at hE hR hC hL
      subst hE hR hC hL
      exact ⟨⟨h0, h1, h2, h3, h4, h5⟩, g1, g2⟩
    · by_cases g3 : w &&& 0x4000000 = 0
      · have he : exec sp w (.l_load k) = (w, .l_cas_pending k w, [.load w]) := by
          simp [exec, g1, g2, g3]
        rw [he] at hE hR hC hL
        rw [he]
        simp [Loc.holdsExcl, Loc.holdsShared, Loc.inCleanup, Loc.inLock] at hE hR hC hL
        subst hE hR hC hL
        exact ⟨⟨h0, h1, h2, h3, h4, h5⟩, g1, g2, g3⟩
      · have he : exec sp w (.l_load k) =
            (w, .l_load ((k + 1) % 2 ^ 32), [.load w, .yield_k k]) := by
          simp [exec, g1, g2, g3]
        rw [he] at hE hR hC hL
        rw [he]
        simp [Loc.holdsExcl, Loc.holdsShared, Loc.inCleanup, Loc.inLock] at hE hR hC hL
        subst hE hR hC hL
        exact ⟨⟨h0, h1, h2, h3, h4, h5⟩, trivial⟩
  · have he : exec sp w (.l_load k) =
        (w, .l_load ((k + 1) % 2 ^ 32), [.load w, .yield_k k]) := by
      simp [exec, g1]
    rw [he] at hE hR hC hL
    rw [he]
    simp [Loc.holdsExcl, Loc.holdsShared, Loc.inCleanup, Loc.inLock] at hE hR hC hL
    subst hE hR hC hL
    exact ⟨⟨h0, h1, h2, h3, h4, h5⟩, trivial⟩

theorem exec_inv_l_cas (sp : Bool) (w : Nat) (a : Loc)
    (ha : (∃ k st, a = .l_cas_excl k st) ∨ ∃ k st, a = .l_cas_pending k st)
    (hwf : a.wf) (E R C L E' R' C' L' : Nat) (hI : Inv w E R C L)
    (hE : E' + a.holdsExcl.toNat = E + (exec sp w a).2.1.holdsExcl.toNat)
    (hR : R' + a.holdsShared.toNat = R + (exec sp w a).2.1.holdsShared.toNat)
    (hC : C' + a.inCleanup.toNat = C + (exec sp w a).2.1.inCleanup.toNat)
    (hL : L' + a.inLock.toNat = L + (exec sp w a).2.1.inLock.toNat)
    (hLa : a.inLock = true → 1 ≤ L) :
    Inv (exec sp w a).1 E' R' C' L' ∧ (exec sp w a).2.1.wf := by
  obtain ⟨h0, h1, h2, h3, h4, h5⟩ := hI
  rcases ha with ⟨k, st, ha⟩ | ⟨k, st, ha⟩
  · subst ha
    have hst : st &&& 0x80000000 = 0 ∧ st &&& 0x3FFFFFFF = 0 := hwf
    by_cases hc : w = st
    · subst hc
      have b1 := (and_bit31_eq_zero w).1 hst.1
      have b2 : w % 2 ^ 30 = 0 := by
        rw [← and_mask30]
        exact hst.2
      have he : exec sp w (.l_cas_excl k w) =
          (0x80000000, .excl_held, [.cas w 0x80000000 true]) := by
        simp [exec, compare_exchange]
      rw [he] at hE hR hC hL
      rw [he]
      simp [Loc.holdsExcl, Loc.holdsShared, Loc.inCleanup, Loc.inLock] at hE hR hC hL
      refine ⟨⟨?_, ?_, ?_, ?_, ?_, ?_⟩, trivial⟩
      · show (0x80000000 : Nat) < 2 ^ 32
        omega
      · omega
      · intro hh
        show (0x80000000 : Nat) = 0x80000000 ∧ R' = 0
        omega
      · intro hh
        omega
      · intro hh
        have : (0x80000000 : Nat) = 0x40000000 := hh
        omega
      · intro hh
        have : (0x80000000 : Nat) / 2 ^ 30 % 2 = 1 := hh
        omega
    · have he : exec sp w (.l_cas_excl k st) =
          (w, .l_load ((k + 1) % 2 ^ 32), [.cas st 0x80000000 false, .yield_k k]) := by
        simp [exec, compare_exchange, hc]
      rw [he] at hE hR hC hL
      rw [he]
      simp [Loc.holdsExcl, Loc.holdsShared, Loc.inCleanup, Loc.inLock] at hE hR hC hL
      subst hE hR hC hL
      exact ⟨⟨h0, h1, h2, h3, h4, h5⟩, trivial⟩
  · subst ha
    have hst : st &&& 0x80000000 = 0 ∧ st &&& 0x3FFFFFFF ≠ 0 ∧ st &&& 0x4000000 = 0 := hwf
    have hL1 : 1 ≤ L := hLa rfl
    by_cases hc : w = st
    · subst hc
      have b1 := (and_bit31_eq_zero w).1 hst.1
      have b2 : w % 2 ^ 30 ≠ 0 := by
        rw [← and_mask30]
        exact hst.2.1
      have he : exec sp w (.l_cas_pending k w) =
          (w ||| 0x40000000, .l_load ((k + 1) % 2 ^ 32),
            [.cas w (w ||| 0x40000000) true, .yield_k k]) := by
        simp [exec, compare_exchange]
      have eo := or_bit30 w
      rw [he] at hE hR hC hL
      rw [he]
      simp [Loc.holdsExcl, Loc.holdsShared, Loc.inCleanup, Loc.inLock] at hE hR hC hL
      refine ⟨⟨?_, by omega, ?_, ?_, ?_, ?_⟩, trivial⟩
      · show w ||| 0x40000000 < 2 ^ 32
        omega
      · intro hh
        show w ||| 0x40000000 = 0x80000000 ∧ R' = 0
        omega
      · intro hh
        show w ||| 0x40000000 < 0x80000000 ∧ (w ||| 0x40000000) % 2 ^ 30 = R'
        omega
      · intro hh
        have : w ||| 0x40000000 = 0x40000000 := hh
        omega
      · intro _
        omega
    · have he : exec sp w (.l_cas_pending k st) =
          (w, .l_load ((k + 1) % 2 ^ 32),
            [.cas st (st ||| 0x40000000) false, .yield_k k]) := by
        simp [exec, compare_exchange, hc]
      rw [he] at hE hR hC hL
      rw [he]
      simp [Loc.holdsExcl, Loc.holdsShared, Loc.inCleanup, Loc.inLock] at hE hR hC hL
      subst hE hR hC hL
      exact ⟨⟨h0, h1, h2, h3, h4, h5⟩, trivial⟩

theorem exec_inv (sp : Bool) (w : Nat) (a : Loc) (hq : a.quiescent = false)
    (hwf : a.wf) (E R C L E' R' C' L' : Nat) (hI : Inv w E R C L)
    (hE : E' + a.holdsExcl.toNat = E + (exec sp w a).2.1.holdsExcl.toNat)
    (hR : R' + a.holdsShared.toNat = R + (exec sp w a).2.1.holdsShared.toNat)
    (hC : C' + a.inCleanup.toNat = C + (exec sp w a).2.1.inCleanup.toNat)
    (hL : L' + a.inLock.toNat = L + (exec sp w a).2.1.inLock.toNat)
    (hEa : a.holdsExcl = true → 1 ≤ E) (hRa : a.holdsShared = true → 1 ≤ R)
    (hLa : a.inLock = true → 1 ≤ L) :
    Inv (exec sp w a).1 E' R' C' L' ∧ (exec sp w a).2.1.wf := by
  cases a with
  | idle => simp [Loc.quiescent] at hq
  | shared_held => simp [Loc.quiescent] at hq
  | excl_held => simp [Loc.quiescent] at hq
  | tls_load => exact exec_inv_tls sp w _ (Or.inl rfl) hwf E R C L E' R' C' L' hI hE hR hC hL
  | tls_cas st =>
    exact exec_inv_tls sp w _ (Or.inr ⟨st, rfl⟩) hwf E R C L E' R' C' L' hI hE hR hC hL
  | ls_load k =>
    exact exec_inv_ls sp w _ (Or.inl ⟨k, rfl⟩) hwf E R C L E' R' C' L' hI hE hR hC hL
  | ls_cas k st =>
    exact exec_inv_ls sp w _ (Or.inr ⟨k, st, rfl⟩) hwf E R C L E' R' C' L' hI hE hR hC hL
  | us_fetch_sub =>
    exact exec_inv_us sp w _ (Or.inl rfl) hwf E R C L E' R' C' L' hI hE hR hC hL hRa
  | us_cas st =>
    exact exec_inv_us sp w _ (Or.inr ⟨st, rfl⟩) hwf E R C L E' R' C' L' hI hE hR hC hL hRa
  | tl_load => exact exec_inv_tl sp w _ (Or.inl rfl) hwf E R C L E' R' C' L' hI hE hR hC hL
  | tl_cas st =>
    exact exec_inv_tl sp w _ (Or.inr ⟨st, rfl⟩) hwf E R C L E' R' C' L' hI hE hR hC hL
  | l_load k => exact exec_inv_l_load sp w k E R C L E' R' C' L' hI hE hR hC hL
  | l_cas_excl k st =>
    exact exec_inv_l_cas sp w _ (Or.inl ⟨k, st, rfl⟩) hwf E R C L E' R' C' L' hI hE hR hC hL hLa
  | l_cas_pending k st =>
    exact exec_inv_l_cas sp w _ (Or.inr ⟨k, st, rfl⟩) hwf E R C L E' R' C' L' hI hE hR hC hL hLa
  | u_store => exact exec_inv_u sp w E R C L E' R' C' L' hI hE hR hC hL (hEa rfl)

theorem starve_at_step (q r : Nat) (hr : r < 5) :
    Step (starve_at q r) (starve_at q (r + 1)) := by
  have hr2 : r = 0 ∨ r = 1 ∨ r = 2 ∨ r = 3 ∨ r = 4 := by omega
  rcases hr2 with h | h | h | h | h <;> subst h
  · exact Or.inl ⟨1, .lock, rfl⟩
  · refine Or.inr ⟨1, false, ?_⟩
    simp [starve_at, Machine.access, Loc.quiescent, exec]
  · refine Or.inr ⟨1, false, ?_⟩
    simp [starve_at, Machine.access, Loc.quiescent, exec, compare_exchange]
  · refine Or.inr ⟨0, false, ?_⟩
    simp [starve_at, Machine.access, Loc.quiescent, exec]
  · exact Or.inl ⟨1, .unlock, rfl⟩

theorem starve_at_wrap (q : Nat) : Step (starve_at q 5) (starve_at (q + 1) 0) := by
  refine Or.inr ⟨1, false, ?_⟩
  simp [starve_at, Machine.access, Loc.quiescent, exec]

theorem starve_step (i : Nat) : Step (starve i) (starve (i + 1)) := by
  unfold starve
  by_cases h : i % 6 < 5
  · have e1 : (i + 1) / 6 = i / 6 := by omega
    have e2 : (i + 1) % 6 = i % 6 + 1 := by omega
    rw [e1, e2]
    exact starve_at_step (i / 6) (i % 6) h
  · have e1 : (i + 1) / 6 = i / 6 + 1 := by omega
    have e2 : (i + 1) % 6 = 0 := by omega
    have e3 : i % 6 = 5 := by omega
    rw [e1, e2, e3]
    exact starve_at_wrap (i / 6)

theorem starve_thread0 (i : Nat) : ∃ k, (starve i).threads[0]? = some (.ls_load k) := by
  unfold starve
  have hr : i % 6 = 0 ∨ i % 6 = 1 ∨ i % 6 = 2 ∨ i % 6 = 3 ∨ i % 6 = 4 ∨ i % 6 = 5 := by omega
  rcases hr with h | h | h | h | h | h <;> rw [h]
  · exact ⟨_, rfl⟩
  · exact ⟨_, rfl⟩
  · exact ⟨_, rfl⟩
  · exact ⟨_, rfl⟩
  · exact ⟨_, rfl⟩
  · exact ⟨_, rfl⟩

theorem starve_phase (q r : Nat) (hr : r < 6) : starve (6 * q + r) = starve_at q r := by
  unfold starve
  have e1 : (6 * q + r) / 6 = q := by omega
  have e2 : (6 * q + r) % 6 = r := by omega
  rw [e1, e2]

/-- C19, the claim as stated fails: there is an execution of two threads, `starve`, every
step of which is a step of the machine from a reachable state, in which thread 1 acquires
the lock by `lock()` and releases it by `unlock()` in every period of six steps, holding it
for three steps at a time and never forever, and thread 0, inside `lock_shared()` at every
moment, performs a load in every period, finds the lock held exclusively each time, and
never acquires. -/
theorem waiting_reader_starves :
    Reachable 2 (starve 0) ∧
    (∀ i, Step (starve i) (starve (i + 1))) ∧
    (∀ i, ∃ k, (starve i).threads[0]? = some (.ls_load k)) ∧
    (∀ q, (starve (6 * q + 3)).access 0 false = some (starve (6 * q + 4))) ∧
    (∀ q, (starve (6 * q + 2)).access 1 false = some (starve (6 * q + 3)) ∧
      (starve (6 * q + 3)).threads[1]? = some .excl_held ∧
      (starve (6 * q + 5)).access 1 false = some (starve (6 * q + 6)) ∧
      (starve (6 * q + 6)).threads[1]? = some .idle) := by
  refine ⟨?_, starve_step, starve_thread0, ?_, ?_⟩
  · exact Reachable.step Reachable.init (Or.inl ⟨0, .lock_shared, rfl⟩)
  · intro q
    rw [starve_phase q 3 (by norm_num), starve_phase q 4 (by norm_num)]
    simp [starve_at, Machine.access, Loc.quiescent, exec]
  · intro q
    have e6 : 6 * q + 6 = 6 * (q + 1) + 0 := by omega
    rw [starve_phase q 2 (by norm_num), starve_phase q 3 (by norm_num),
      starve_phase q 5 (by norm_num), e6, starve_phase (q + 1) 0 (by norm_num)]
    refine ⟨?_, rfl, ?_, rfl⟩
    · simp [starve_at, Machine.access, Loc.quiescent, exec, compare_exchange]
    · simp [starve_at, Machine.access, Loc.quiescent, exec]

theorem run_lock_shared_alone_at (k w : Nat) (h : w < 0x3FFFFFFF) :
    run (alone 2) w (.ls_load k) = (w + 1, .shared_held, [.load w, .cas w (w + 1) true]) := by
  have e0 : w + 1 < 4294967296 := by omega
  have e1 : exec false w (.ls_load k) = (w, .ls_cas k w, [.load w]) := by
    simp only [exec, if_pos h]
  have e2 : exec false w (.ls_cas k w) = (w + 1, .shared_held, [.cas w (w + 1) true]) := by
    simp [exec, compare_exchange, e0]
  rw [alone_succ, run_cons (false, id) (alone 1) w (.ls_load k) rfl]
  simp only [id, e1]
  rw [alone_succ, run_cons (false, id) (alone 0) w (.ls_cas k w) rfl]
  simp only [id, e2]
  rw [run_quiescent _ _ .shared_held rfl]
  rfl

theorem run_lock_alone_at (k w : Nat) (h1 : w &&& 0x80000000 = 0) (h2 : w &&& 0x3FFFFFFF = 0) :
    run (alone 2) w (.l_load k) =
      (0x80000000, .excl_held, [.load w, .cas w 0x80000000 true]) := by
  have e1 : exec false w (.l_load k) = (w, .l_cas_excl k w, [.load w]) := by
    simp [exec, h1, h2]
  have e2 : exec false w (.l_cas_excl k w) =
      (0x80000000, .excl_held, [.cas w 0x80000000 true]) := by
    simp [exec, compare_exchange]
  rw [alone_succ, run_cons (false, id) (alone 1) w (.l_load k) rfl]
  simp only [id, e1]
  rw [alone_succ, run_cons (false, id) (alone 0) w (.l_cas_excl k w) rfl]
  simp only [id, e2]
  rw [run_quiescent _ _ .excl_held rfl]
  rfl

/-- C19, amended: progress, on condition of the schedule.  A thread waiting in
`lock_shared()`, at any iteration `k`, acquires within two of its own accesses, a load and
the compare-exchange, when no other thread writes in between and the word is below
0x3FFFFFFF; a thread waiting in `lock()` does when the word has bit 31 clear and reader
count zero, as the free word left by `unlock` has.  Under any interference, a call of
`lock_shared()` or `lock()` that has returned has acquired. -/
theorem progress_when_undisturbed (k w : Nat) :
    (w < 0x3FFFFFFF →
      run (alone 2) w (.ls_load k) = (w + 1, .shared_held, [.load w, .cas w (w + 1) true])) ∧
    (w &&& 0x80000000 = 0 → w &&& 0x3FFFFFFF = 0 →
      run (alone 2) w (.l_load k) =
        (0x80000000, .excl_held, [.load w, .cas w 0x80000000 true])) ∧
    run (alone 2) (unlock w).1 (.l_load k) =
      (0x80000000, .excl_held, [.load 0, .cas 0 0x80000000 true]) ∧
    (∀ (env : List (Bool × (Nat → Nat))) (s : Nat),
      (run env s (.ls_load 0)).2.1.quiescent = true →
        (run env s (.ls_load 0)).2.1 = .shared_held) ∧
    (∀ (env : List (Bool × (Nat → Nat))) (s : Nat),
      (run env s (.l_load 0)).2.1.quiescent = true →
        (run env s (.l_load 0)).2.1 = .excl_held) :=
  ⟨run_lock_shared_alone_at k w, run_lock_alone_at k w, run_lock_alone_at k 0 rfl rfl,
    fun env s hq => (run_inLockShared env s (.ls_load 0) rfl trivial hq).1,
    fun env s hq => (run_inLock env s (.l_load 0) rfl trivial hq).1⟩

/-- C19 amended, at the word 3 for a reader and at the word 0x40000000 for a writer. -/
theorem progress_when_undisturbed_witness :
    run (alone 2) 3 (.ls_load 7) = (4, .shared_held, [.load 3, .cas 3 4 true]) ∧
    run (alone 2) 0x40000000 (.l_load 7) =
      (0x80000000, .excl_held, [.load 0x40000000, .cas 0x40000000 0x80000000 true]) :=
  ⟨(progress_when_undisturbed 7 3).1 (by norm_num),
    (progress_when_undisturbed 7 0x40000000).2.1 rfl rfl⟩

/-! ## Mutual exclusion for every client -/

theorem sum_set_add (f : Thread → Nat) (l : List Thread) :
    ∀ (i : Nat) (a b : Thread), l[i]? = some a →
      ((l.set i b).map f).sum + f a = (l.map f).sum + f b := by
  induction l with
  | nil =>
    intro i a b h
    simp at h
  | cons x xs ih =>
    intro i a b h
    cases i with
    | zero =>
      have hx : x = a := by simpa using h
      subst hx
      simp only [List.set_cons_zero, List.map_cons, List.sum_cons]
      omega
    | succ i =>
      have h2 : xs[i]? = some a := by simpa using h
      have := ih i a b h2
      simp only [List.set_cons_succ, List.map_cons, List.sum_cons]
      omega

theorem countP_set_add_thread (p : Thread → Bool) (l : List Thread) :
    ∀ (i : Nat) (a b : Thread), l[i]? = some a →
      (l.set i b).countP p + (p a).toNat = l.countP p + (p b).toNat := by
  induction l with
  | nil =>
    intro i a b h
    simp at h
  | cons x xs ih =>
    intro i a b h
    cases i with
    | zero =>
      have hx : x = a := by simpa using h
      subst hx
      simp only [List.set_cons_zero, List.countP_cons]
      cases p x <;> cases p b <;> simp
    | succ i =>
      have h2 : xs[i]? = some a := by simpa using h
      have := ih i a b h2
      simp only [List.set_cons_succ, List.countP_cons]
      omega

theorem le_sum_of_mem (f : Thread → Nat) (l : List Thread) (a : Thread) (h : a ∈ l) :
    f a ≤ (l.map f).sum := by
  induction l with
  | nil => simp at h
  | cons x xs ih =>
    simp only [List.map_cons, List.sum_cons]
    rcases List.mem_cons.1 h with h1 | h1
    · rw [h1]
      omega
    · have := ih h1
      omega

theorem countP_le_sum (f : Thread → Nat) (l : List Thread) :
    l.countP (fun t => decide (1 ≤ f t)) ≤ (l.map f).sum := by
  induction l with
  | nil => simp
  | cons x xs ih =>
    simp only [List.countP_cons, List.map_cons, List.sum_cons]
    by_cases h : 1 ≤ f x
    · simp only [h, decide_True, if_true]
      omega
    · simp only [h, decide_False, Bool.false_eq_true, if_false]
      omega

theorem countP_eq_sum (f : Thread → Nat) (l : List Thread) (h : ∀ t ∈ l, f t ≤ 1) :
    l.countP (fun t => decide (1 ≤ f t)) = (l.map f).sum := by
  induction l with
  | nil => simp
  | cons x xs ih =>
    have hx : f x ≤ 1 := h x (List.mem_cons_self _ _)
    have hxs := ih (fun t ht => h t (List.mem_cons_of_mem _ ht))
    simp only [List.countP_cons, List.map_cons, List.sum_cons]
    by_cases h1 : 1 ≤ f x
    · simp only [h1, decide_True, if_true]
      omega
    · simp only [h1, decide_False, Bool.false_eq_true, if_false]
      omega

theorem countP_pos_of_sum_pos (f : Thread → Nat) (l : List Thread)
    (h : 1 ≤ (l.map f).sum) : 1 ≤ l.countP (fun t => decide (1 ≤ f t)) := by
  induction l with
  | nil => simp at h
  | cons x xs ih =>
    simp only [List.countP_cons, List.map_cons, List.sum_cons] at h ⊢
    by_cases h1 : 1 ≤ f x
    · simp only [h1, decide_True, if_true]
      omega
    · simp only [h1, decide_False, Bool.false_eq_true, if_false]
      have := ih (by omega)
      omega

theorem exec_next_ne (sp : Bool) (w : Nat) (a : Loc) (hq : a.quiescent = false) :
    (exec sp w a).2.1 ≠ .u_store ∧ (exec sp w a).2.1 ≠ .us_fetch_sub := by
  cases a with
  | idle => simp [Loc.quiescent] at hq
  | shared_held => simp [Loc.quiescent] at hq
  | excl_held => simp [Loc.quiescent] at hq
  | tls_load =>
    by_cases h : w ≥ 0x3FFFFFFF <;> simp [exec, h]
  | tls_cas st =>
    by_cases h : w = st <;> simp [exec, compare_exchange, h]
  | ls_load k =>
    by_cases h : w < 0x3FFFFFFF <;> simp [exec, h]
  | ls_cas k st =>
    by_cases h : w = st <;> simp [exec, compare_exchange, h]
  | us_fetch_sub =>
    by_cases h : (w + 4294967295) % 4294967296 = 0x40000000 <;>
      simp [exec, fetch_sub, unlock_shared_test, h]
  | us_cas st =>
    by_cases h : w = st ∧ sp = false
    · have e : compare_exchange sp w st 0 = (true, 0, st) := by
        unfold compare_exchange
        rw [if_pos h]
      simp [exec, e]
    · by_cases h2 : w = 0x40000000
      · subst h2
        have e : compare_exchange sp 0x40000000 st 0 = (false, 0x40000000, 0x40000000) := by
          unfold compare_exchange
          rw [if_neg h]
        simp [exec, e, unlock_shared_test]
      · have e : compare_exchange sp w st 0 = (false, w, w) := by
          unfold compare_exchange
          rw [if_neg h]
        simp [exec, e, unlock_shared_test, h2]
  | tl_load =>
    by_cases h1 : w &&& 0x80000000 = 0
    · by_cases h2 : w &&& 0x3FFFFFFF = 0 <;> simp [exec, h1, h2]
    · simp [exec, h1]
  | tl_cas st =>
    by_cases h : w = st <;> simp [exec, compare_exchange, h]
  | l_load k =>
    by_cases h1 : w &&& 0x80000000 = 0
    · by_cases h2 : w &&& 0x3FFFFFFF = 0
      · simp [exec, h1, h2]
      · by_cases h3 : w &&& 0x4000000 = 0 <;> simp [exec, h1, h2, h3]
    · simp [exec, h1]
  | l_cas_excl k st =>
    by_cases h : w = st <;> simp [exec, compare_exchange, h]
  | l_cas_pending k st => simp [exec]
  | u_store => simp [exec]

theorem holds_in_operation (a : Loc) (hq : a.quiescent = false) :
    a.holdsExcl.toNat = (if a = .u_store then 1 else 0) ∧
    a.holdsShared.toNat = (if a = .us_fetch_sub then 1 else 0) := by
  cases a <;> simp [Loc.quiescent] at hq <;> simp [Loc.holdsExcl, Loc.holdsShared]

theorem holds_after_access (b : Loc) (h1 : b ≠ .u_store) (h2 : b ≠ .us_fetch_sub) :
    b.holdsExcl.toNat = (if b = .excl_held then 1 else 0) ∧
    b.holdsShared.toNat = (if b = .shared_held then 1 else 0) := by
  cases b <;> simp [Loc.holdsExcl, Loc.holdsShared] at h1 h2 ⊢

theorem after_excl (t : Thread) (b : Loc) (h : t.loc = .u_store → 1 ≤ t.excl) :
    (t.after b).excl + (if t.loc = .u_store then 1 else 0) =
      t.excl + (if b = .excl_held then 1 else 0) := by
  unfold Thread.after
  by_cases h1 : t.loc = .u_store
  · have := h h1
    simp only [h1, if_true]
    omega
  · simp only [h1, if_false]
    omega

theorem after_shared (t : Thread) (b : Loc) (h : t.loc = .us_fetch_sub → 1 ≤ t.shared) :
    (t.after b).shared + (if t.loc = .us_fetch_sub then 1 else 0) =
      t.shared + (if b = .shared_held then 1 else 0) := by
  unfold Thread.after
  by_cases h1 : t.loc = .us_fetch_sub
  · have := h h1
    simp only [h1, if_true]
    omega
  · simp only [h1, if_false]
    omega

theorem world_inv_access (s s' : World) (i : Nat) (sp : Bool) (hI : s.inv)
    (h : s.access i sp = some s') : s'.inv := by
  unfold World.access at h
  cases hg : s.threads[i]? with
  | none =>
    rw [hg] at h
    exact absurd h (by simp)
  | some t =>
    rw [hg] at h
    cases hq : t.loc.quiescent with
    | true =>
      simp only [hq, if_true] at h
      exact absurd h (by simp)
    | false =>
      simp only [hq, Bool.false_eq_true, if_false, Option.some.injEq] at h
      subst h
      obtain ⟨hinv, hwf⟩ := hI
      have hm : t ∈ s.threads := List.getElem?_mem hg
      obtain ⟨w1, w2, w3⟩ := hwf t hm
      obtain ⟨n1, n2⟩ := exec_next_ne sp s.state_ t.loc hq
      obtain ⟨a1, a2⟩ := holds_in_operation t.loc hq
      obtain ⟨b1, b2⟩ := holds_after_access _ n1 n2
      have sE := sum_set_add Thread.excl s.threads i t (t.after (exec sp s.state_ t.loc).2.1) hg
      have sR := sum_set_add Thread.shared s.threads i t (t.after (exec sp s.state_ t.loc).2.1) hg
      have tE := after_excl t (exec sp s.state_ t.loc).2.1 w3
      have tR := after_shared t (exec sp s.state_ t.loc).2.1 w2
      have lE := le_sum_of_mem Thread.excl s.threads t hm
      have lR := le_sum_of_mem Thread.shared s.threads t hm
      have key := exec_inv sp s.state_ t.loc hq w1
        (s.threads.map Thread.excl).sum (s.threads.map Thread.shared).sum
        (s.threads.countP fun t : Thread => t.loc.inCleanup)
        (s.threads.countP fun t : Thread => t.loc.inLock)
        (((s.threads.set i (t.after (exec sp s.state_ t.loc).2.1)).map Thread.excl).sum)
        (((s.threads.set i (t.after (exec sp s.state_ t.loc).2.1)).map Thread.shared).sum)
        ((s.threads.set i (t.after (exec sp s.state_ t.loc).2.1)).countP
          fun t : Thread => t.loc.inCleanup)
        ((s.threads.set i (t.after (exec sp s.state_ t.loc).2.1)).countP
          fun t : Thread => t.loc.inLock)
        hinv
        (by rw [a1, b1]; omega)
        (by rw [a2, b2]; omega)
        (countP_set_add_thread (fun t => t.loc.inCleanup) s.threads i t _ hg)
        (countP_set_add_thread (fun t => t.loc.inLock) s.threads i t _ hg)
        (by
          intro hh
          rw [hh] at a1
          have : t.loc = .u_store := by
            by_contra hc
            rw [if_neg hc] at a1
            simp at a1
          have := w3 this
          omega)
        (by
          intro hh
          rw [hh] at a2
          have : t.loc = .us_fetch_sub := by
            by_contra hc
            rw [if_neg hc] at a2
            simp at a2
          have := w2 this
          omega)
        (fun hh => List.countP_pos_iff.2 ⟨t, hm, hh⟩)
      refine ⟨key.1, ?_⟩
      intro l hl
      rcases List.mem_or_eq_of_mem_set hl with h1 | h1
      · exact hwf l h1
      · rw [h1]
        exact ⟨key.2, fun hh => absurd hh n2, fun hh => absurd hh n1⟩

theorem call_effect (t t' : Thread) (op : Op) (h : t.call op = some t') :
    t'.shared = t.shared ∧ t'.excl = t.excl ∧ t'.loc.inCleanup = false ∧
    t.loc.inCleanup = false ∧ t.loc.inLock = false ∧ t'.wf ∧ t'.loc = op.entry := by
  unfold Thread.call at h
  by_cases hc : t.loc.quiescent = true ∧ (op = .unlock_shared → 1 ≤ t.shared) ∧
      (op = .unlock → 1 ≤ t.excl)
  · rw [if_pos hc] at h
    have e : t' = { t with loc := op.entry } := by
      simpa using h.symm
    subst e
    obtain ⟨c1, c2, c3⟩ := hc
    have q1 : t.loc.inCleanup = false ∧ t.loc.inLock = false := by
      revert c1
      cases t.loc <;> simp [Loc.quiescent, Loc.inCleanup, Loc.inLock]
    refine ⟨rfl, rfl, ?_, q1.1, q1.2, ⟨?_, ?_, ?_⟩, rfl⟩
    · cases op <;> rfl
    · cases op <;> trivial
    · intro hh
      have : op = .unlock_shared := by
        revert hh
        cases op <;> simp [Op.entry]
      exact c2 this
    · intro hh
      have : op = .unlock := by
        revert hh
        cases op <;> simp [Op.entry]
      exact c3 this
  · rw [if_neg hc] at h
    exact absurd h (by simp)

theorem world_inv_call (s s' : World) (i : Nat) (op : Op) (hI : s.inv)
    (h : s.call i op = some s') : s'.inv := by
  unfold World.call at h
  cases hg : s.threads[i]? with
  | none =>
    rw [hg] at h
    exact absurd h (by simp)
  | some t =>
    rw [hg] at h
    dsimp only at h
    cases hs : t.call op with
    | none =>
      rw [hs] at h
      exact absurd h (by simp)
    | some t' =>
      rw [hs] at h
      simp only [Option.map_some', Option.some.injEq] at h
      subst h
      obtain ⟨⟨h0, h1, h2, h3, h4, h5⟩, hwf⟩ := hI
      obtain ⟨e1, e2, e3, e4, e5, e6, _⟩ := call_effect t t' op hs
      have sE := sum_set_add Thread.excl s.threads i t t' hg
      have sR := sum_set_add Thread.shared s.threads i t t' hg
      have cC := countP_set_add_thread (fun t : Thread => t.loc.inCleanup) s.threads i t t' hg
      have cL := countP_set_add_thread (fun t : Thread => t.loc.inLock) s.threads i t t' hg
      simp only [e3, e4, Bool.toNat_false, Nat.add_zero] at cC
      simp only [e5, Bool.toNat_false, Nat.add_zero] at cL
      rw [e1] at sR
      rw [e2] at sE
      have gE : ((s.threads.set i t').map Thread.excl).sum = (s.threads.map Thread.excl).sum := by
        omega
      have gR : ((s.threads.set i t').map Thread.shared).sum
          = (s.threads.map Thread.shared).sum := by
        omega
      have gL : s.threads.countP (fun t : Thread => t.loc.inLock) ≤
          (s.threads.set i t').countP (fun t : Thread => t.loc.inLock) := by
        omega
      refine ⟨?_, ?_⟩
      · unfold World.exclHeld World.sharedHeld at *
        show Inv s.state_ ((s.threads.set i t').map Thread.excl).sum
          ((s.threads.set i t').map Thread.shared).sum
          ((s.threads.set i t').countP fun t : Thread => t.loc.inCleanup)
          ((s.threads.set i t').countP fun t : Thread => t.loc.inLock)
        rw [gE, gR, cC]
        exact ⟨h0, h1, h2, h3, h4, fun hh => Nat.le_trans (h5 hh) gL⟩
      · intro l hl
        rcases List.mem_or_eq_of_mem_set hl with g | g
        · exact hwf l g
        · rw [g]
          exact e6

theorem world_inv_init (n : Nat) : (World.init n).inv := by
  have hs : ∀ f : Thread → Nat, f { shared := 0, excl := 0, loc := .idle } = 0 →
      ((List.replicate n ({ shared := 0, excl := 0, loc := .idle } : Thread)).map f).sum
        = 0 := by
    intro f hf
    rw [List.map_replicate, List.sum_replicate, hf]
    simp
  have hc : ∀ p : Thread → Bool, p { shared := 0, excl := 0, loc := .idle } = false →
      List.countP p (List.replicate n ({ shared := 0, excl := 0, loc := .idle } : Thread))
        = 0 := by
    intro p hp
    rw [List.countP_eq_zero]
    intro a ha
    rw [List.eq_of_mem_replicate ha, hp]
    simp
  refine ⟨?_, ?_⟩
  · show Inv 0 ((List.replicate n ({ shared := 0, excl := 0, loc := .idle } : Thread)).map
        Thread.excl).sum
      ((List.replicate n ({ shared := 0, excl := 0, loc := .idle } : Thread)).map
        Thread.shared).sum
      (List.countP (fun t : Thread => t.loc.inCleanup)
        (List.replicate n ({ shared := 0, excl := 0, loc := .idle } : Thread)))
      (List.countP (fun t : Thread => t.loc.inLock)
        (List.replicate n ({ shared := 0, excl := 0, loc := .idle } : Thread)))
    rw [hs _ rfl, hs _ rfl, hc _ rfl, hc _ rfl]
    refine ⟨by norm_num, by omega, ?_, ?_, ?_, ?_⟩
    · intro hh
      omega
    · intro _
      exact ⟨by norm_num, rfl⟩
    · intro hh
      omega
    · intro hh
      omega
  · intro l hl
    have hl2 : l ∈ List.replicate n ({ shared := 0, excl := 0, loc := .idle } : Thread) := hl
    rw [List.eq_of_mem_replicate hl2]
    exact ⟨trivial, fun hh => absurd hh (by simp), fun hh => absurd hh (by simp)⟩

theorem world_reachable_inv (n : Nat) (s : World) (h : World.Reachable n s) : s.inv := by
  induction h with
  | init => exact world_inv_init n
  | step _ hs ih =>
    rcases hs with ⟨i, op, hc⟩ | ⟨i, sp, ha⟩
    · exact world_inv_call _ _ i op ih hc
    · exact world_inv_access _ _ i sp ih ha

theorem world_call (n : Nat) (s s' : World) (i : Nat) (op : Op) (h : World.Reachable n s)
    (hc : s.call i op = some s') : World.Reachable n s' :=
  World.Reachable.step h (Or.inl ⟨i, op, hc⟩)

theorem world_access (n : Nat) (s s' : World) (i : Nat) (sp : Bool) (h : World.Reachable n s)
    (hc : s.access i sp = some s') : World.Reachable n s' :=
  World.Reachable.step h (Or.inr ⟨i, sp, hc⟩)

theorem world_twice_shared :
    World.Reachable 1
      { state_ := 2, threads := [{ shared := 2, excl := 0, loc := .shared_held }] } := by
  have h0 : World.Reachable 1
      { state_ := 0, threads := [{ shared := 0, excl := 0, loc := .idle }] } :=
    World.Reachable.init
  have h1 : World.Reachable 1
      { state_ := 0, threads := [{ shared := 0, excl := 0, loc := .tls_load }] } :=
    world_call 1 _ _ 0 .try_lock_shared h0
      (by simp [World.call, Thread.call, Loc.quiescent, Op.entry])
  have h2 : World.Reachable 1
      { state_ := 0, threads := [{ shared := 0, excl := 0, loc := .tls_cas 0 }] } :=
    world_access 1 _ _ 0 false h1
      (by simp [World.access, Thread.after, Loc.quiescent, exec])
  have h3 : World.Reachable 1
      { state_ := 1, threads := [{ shared := 1, excl := 0, loc := .shared_held }] } :=
    world_access 1 _ _ 0 false h2
      (by simp [World.access, Thread.after, Loc.quiescent, exec, compare_exchange])
  have h4 : World.Reachable 1
      { state_ := 1, threads := [{ shared := 1, excl := 0, loc := .tls_load }] } :=
    world_call 1 _ _ 0 .try_lock_shared h3
      (by simp [World.call, Thread.call, Loc.quiescent, Op.entry])
  have h5 : World.Reachable 1
      { state_ := 1, threads := [{ shared := 1, excl := 0, loc := .tls_cas 1 }] } :=
    world_access 1 _ _ 0 false h4
      (by simp [World.access, Thread.after, Loc.quiescent, exec])
  exact world_access 1 _ _ 0 false h5
    (by simp [World.access, Thread.after, Loc.quiescent, exec, compare_exchange])

theorem world_writer_and_waiting_reader :
    World.Reachable 2
      { state_ := 0x80000000,
        threads := [{ shared := 0, excl := 1, loc := .excl_held },
          { shared := 0, excl := 0, loc := .ls_load 1 }] } := by
  have h0 : World.Reachable 2
      { state_ := 0, threads := [{ shared := 0, excl := 0, loc := .idle },
        { shared := 0, excl := 0, loc := .idle }] } :=
    World.Reachable.init
  have h1 : World.Reachable 2
      { state_ := 0, threads := [{ shared := 0, excl := 0, loc := .tl_load },
        { shared := 0, excl := 0, loc := .idle }] } :=
    world_call 2 _ _ 0 .try_lock h0
      (by simp [World.call, Thread.call, Loc.quiescent, Op.entry])
  have h2 : World.Reachable 2
      { state_ := 0, threads := [{ shared := 0, excl := 0, loc := .tl_cas 0 },
        { shared := 0, excl := 0, loc := .idle }] } :=
    world_access 2 _ _ 0 false h1
      (by simp [World.access, Thread.after, Loc.quiescent, exec])
  have h3 : World.Reachable 2
      { state_ := 0x80000000, threads := [{ shared := 0, excl := 1, loc := .excl_held },
        { shared := 0, excl := 0, loc := .idle }] } :=
    world_access 2 _ _ 0 false h2
      (by simp [World.access, Thread.after, Loc.quiescent, exec, compare_exchange])
  have h4 : World.Reachable 2
      { state_ := 0x80000000, threads := [{ shared := 0, excl := 1, loc := .excl_held },
        { shared := 0, excl := 0, loc := .ls_load 0 }] } :=
    world_call 2 _ _ 1 .lock_shared h3
      (by simp [World.call, Thread.call, Loc.quiescent, Op.entry])
  exact world_access 2 _ _ 1 false h4
    (by simp [World.access, Thread.after, Loc.quiescent, exec])

/-- C1, the claim as stated fails: with the two unlock preconditions as the only
restriction on the callers, one thread that calls `try_lock_shared` twice reaches the word 2,
whose low 30 bits are 2, while one thread holds a shared acquisition. -/
theorem reader_count_exceeds_holders :
    ∃ s, World.Reachable 1 s ∧
      s.threads = [{ shared := 2, excl := 0, loc := .shared_held }] ∧
      s.state_ &&& 0x3FFFFFFF = 2 ∧ s.sharedHolders = 1 :=
  ⟨_, world_twice_shared, rfl, rfl, rfl⟩

/-- C1, amended: mutual exclusion as an invariant of the reachable states.  In the machine
whose steps are the calls and the single atomic accesses of the six operations, interleaved
in any way among any number `n` of threads, from the word 0, a thread between two calls
calling any acquiring operation whatever it holds, `unlock_shared` only if it holds a shared
acquisition and `unlock` only if it holds the exclusive one: in every reachable state at
most one thread holds the exclusive acquisition; if one does, no thread holds a shared
acquisition; bit 31 of the word is set iff some thread holds the exclusive acquisition; the
low 30 bits of the word are the number of shared acquisitions held, a thread counting once
for each it has acquired and not released, so they are at least the number of threads that
hold a shared acquisition, and equal to it when no thread holds more than one; and bit 31
and a nonzero reader count are never set together. -/
theorem mutual_exclusion (n : Nat) (s : World) (h : World.Reachable n s) :
    s.exclHolders ≤ 1 ∧
    (1 ≤ s.exclHolders → s.sharedHolders = 0) ∧
    (s.state_ &&& 0x80000000 ≠ 0 ↔ 1 ≤ s.exclHolders) ∧
    s.state_ &&& 0x3FFFFFFF = s.sharedHeld ∧
    s.sharedHolders ≤ s.state_ &&& 0x3FFFFFFF ∧
    ((∀ t ∈ s.threads, t.shared ≤ 1) → s.state_ &&& 0x3FFFFFFF = s.sharedHolders) ∧
    ¬ (s.state_ &&& 0x80000000 ≠ 0 ∧ s.state_ &&& 0x3FFFFFFF ≠ 0) := by
  obtain ⟨⟨h0, h1, h2, h3, _, _⟩, _⟩ := world_reachable_inv n s h
  have b := and_bit31_eq_zero s.state_
  have cE := countP_le_sum Thread.excl s.threads
  have cR := countP_le_sum Thread.shared s.threads
  have pE := countP_pos_of_sum_pos Thread.excl s.threads
  rw [and_mask30]
  unfold World.exclHolders World.sharedHolders World.sharedHeld
  have h1 : (s.threads.map Thread.excl).sum ≤ 1 := h1
  have h2 : (s.threads.map Thread.excl).sum = 1 →
      s.state_ = 0x80000000 ∧ (s.threads.map Thread.shared).sum = 0 := h2
  have h3 : (s.threads.map Thread.excl).sum = 0 →
      s.state_ < 0x80000000 ∧ s.state_ % 2 ^ 30 = (s.threads.map Thread.shared).sum := h3
  have hcount : s.state_ % 2 ^ 30 = (s.threads.map Thread.shared).sum := by
    by_cases hE : (s.threads.map Thread.excl).sum = 1
    · have := h2 hE
      omega
    · exact (h3 (by omega)).2
  refine ⟨by omega, ?_, ?_, hcount, by omega, ?_, ?_⟩
  · intro hh
    have := h2 (by omega)
    omega
  · constructor
    · intro hb
      have hb2 : ¬ s.state_ / 2 ^ 31 % 2 = 0 := fun g => hb (b.2 g)
      have hE : (s.threads.map Thread.excl).sum = 1 := by
        by_contra hc
        have := h3 (by omega)
        omega
      exact pE (by omega)
    · intro hh hz
      have := b.1 hz
      have := h2 (by omega)
      omega
  · intro hall
    rw [hcount]
    exact (countP_eq_sum Thread.shared s.threads hall).symm
  · rintro ⟨hb, hr⟩
    have hb2 : ¬ s.state_ / 2 ^ 31 % 2 = 0 := fun g => hb (b.2 g)
    have hE : (s.threads.map Thread.excl).sum = 1 := by
      by_contra hc
      have := h3 (by omega)
      omega
    have := h2 hE
    omega

/-- C1 amended, at the state of two threads in which thread 0 has acquired by `try_lock`
and thread 1, inside `lock_shared()`, has found the lock held: one exclusive holder, no
shared holder. -/
theorem mutual_exclusion_witness :
    World.exclHolders
      { state_ := 0x80000000,
        threads := [{ shared := 0, excl := 1, loc := .excl_held },
          { shared := 0, excl := 0, loc := .ls_load 1 }] } ≤ 1 ∧
    World.sharedHolders
      { state_ := 0x80000000,
        threads := [{ shared := 0, excl := 1, loc := .excl_held },
          { shared := 0, excl := 0, loc := .ls_load 1 }] } = 0 ∧
    (0x80000000 : Nat) &&& 0x3FFFFFFF =
      World.sharedHolders
        { state_ := 0x80000000,
          threads := [{ shared := 0, excl := 1, loc := .excl_held },
            { shared := 0, excl := 0, loc := .ls_load 1 }] } :=
  ⟨(mutual_exclusion 2 _ world_writer_and_waiting_reader).1,
    (mutual_exclusion 2 _ world_writer_and_waiting_reader).2.1 (by decide),
    (mutual_exclusion 2 _ world_writer_and_waiting_reader).2.2.2.2.2.1 (by decide)⟩

end rw_spinlock
